import Mathlib

/-!
Verification of the Segwit v0 output-descriptor layer (`wsh`, `wpkh`,
`sortedmulti`) of an Elements miniscript library, against its natural-language
specification.

The development shallowly embeds `src/descriptor/segwitv0.rs`.  Components the
descriptor layer calls but whose code is outside the embedded sources (the
expression-tree parser, the descriptor checksum, the miniscript fragment
grammar and its display/parse, `varint_len`, the key capability, the elements
address helpers) are modelled from the specification; each such definition says
so in its doc comment.  Operations of the miniscript type calculus that the
descriptor layer only delegates to (`script_size`, `max_satisfaction_*`,
`encode`, `satisfy`, the top-level checks) are taken as parameters, so every
theorem about the descriptor layer holds for any implementation of them.
-/

set_option maxRecDepth 20000

namespace ElementsMiniscript

/-- Modelled from the spec (§3, §4.B "Key Capability"): the fixed key type of
this development.  A key is identified with its serialized string form (the
hex or base58 characters the descriptor string carries), as a list of
characters. -/
abbrev PK := List Char

/-- Modelled from the spec (§3, §4.B): `is_uncompressed()`.  A 65-byte
uncompressed key serializes to 130 hex characters, a 33-byte compressed key to
66; we take the string length as the discriminator. -/
def pkIsUncompressed (pk : PK) : Bool := pk.length == 130

/-- Modelled from the spec (§4.B): `to_public_key().to_bytes()` — byte emission
of a key.  Serialization lives in the external key library; it is modelled as
the codepoints of the key's string form (any injective emission would do). -/
def pkToBytes (pk : PK) : List Nat := pk.map Char.toNat

/-- Modelled from the spec (§4.D/§4.E): `Segwitv0::pk_len(pk)`, the worst-case
size of the public-key witness element: the serialized key (33 or 65 bytes)
plus one push-length byte. -/
def pkLen (pk : PK) : Nat := if pkIsUncompressed pk then 66 else 34

/-- Modelled from the spec (§4.F): `varint_len(n)`, the byte length of the
Bitcoin variable-length integer encoding of `n`. -/
def varintLen (n : Nat) : Nat :=
  if n < 0xfd then 1 else if n < 0x10000 then 3 else if n < 0x100000000 then 5 else 9

/-- `ScriptContextError` (declared in `miniscript/context.rs`, outside the
embedded sources): only the `CompressedOnly` variant is constructed by the
descriptor layer; it carries the offending key's string form. -/
inductive ScriptContextError
  | compressedOnly (pk : List Char)
deriving DecidableEq, Repr

/-- The crate-level `Error` enum (declared outside the embedded sources): the
variants named by `segwitv0.rs` and by the spec's §4.F error surface.
`unexpected` and `badDescriptor` carry their message; `missingSig` carries the
serialized key as `MissingSig(pk.to_public_key())` does. -/
inductive Error
  | unexpected (msg : List Char)
  | contextError (e : ScriptContextError)
  | missingSig (pk : List Nat)
  | couldNotSatisfy
  | badChecksum
  | badDescriptor (msg : List Char)
  | multisigKeys (k n : Nat)
deriving DecidableEq, Repr

/-! ### Decimal numerals

Modelled from the spec (§4.A): numeric arguments (`older(t)`, `after(t)`,
the `k` of `multi`/`thresh`/`sortedmulti`) are rendered in decimal and parsed
back as a `u32`. -/

/-- The decimal rendering of `n`, most significant digit first. -/
def natToChars (n : Nat) : List Char :=
  if n = 0 then ['0'] else (Nat.digits 10 n).reverse.map (fun d => Char.ofNat (48 + d))

/-- The value of a decimal digit character, `none` for a non-digit. -/
def charToDigit (c : Char) : Option Nat :=
  if 48 ≤ c.toNat ∧ c.toNat ≤ 57 then some (c.toNat - 48) else none

/-- Modelled from the spec (§4.A/§6): `expression::parse_num` — a nonempty
all-digit token read as a `u32` (values `≥ 2^32` are refused). -/
def parseNatChars (cs : List Char) : Option Nat :=
  if cs.isEmpty then none
  else
    (cs.foldl (fun acc c =>
        match acc, charToDigit c with
        | some a, some d => some (a * 10 + d)
        | _, _ => none) (some 0)).bind
      (fun v => if v < 2 ^ 32 then some v else none)

theorem charToDigit_ofNat (d : Nat) (hd : d < 10) :
    charToDigit (Char.ofNat (48 + d)) = some d := by
  interval_cases d <;> decide

theorem foldl_digits_aux (l : List Nat) (hl : ∀ d ∈ l, d < 10) (a : Nat) :
    (l.reverse.map (fun d => Char.ofNat (48 + d))).foldl
        (fun acc c =>
          match acc, charToDigit c with
          | some a, some d => some (a * 10 + d)
          | _, _ => none) (some a)
      = some (Nat.ofDigits 10 (l ++ [a])) := by
  induction l generalizing a with
  | nil => simp [Nat.ofDigits]
  | cons d l ih =>
    have hd : d < 10 := hl d (List.mem_cons_self d l)
    have hl' : ∀ x ∈ l, x < 10 := fun x hx => hl x (List.mem_cons_of_mem d hx)
    have h1 : ((d :: l).reverse.map (fun d => Char.ofNat (48 + d)))
        = (l.reverse.map (fun d => Char.ofNat (48 + d))) ++ [Char.ofNat (48 + d)] := by
      simp
    rw [h1, List.foldl_append]
    rw [ih hl']
    simp only [List.foldl_cons, List.foldl_nil, charToDigit_ofNat d hd]
    congr 1
    rw [Nat.ofDigits_append, Nat.ofDigits_append]
    simp [Nat.ofDigits]
    ring

/-- Parsing inverts rendering for every `u32` value. -/
theorem parseNatChars_natToChars (n : Nat) (hn : n < 2 ^ 32) :
    parseNatChars (natToChars n) = some n := by
  by_cases h0 : n = 0
  · subst h0; decide
  · have hdigne : Nat.digits 10 n ≠ [] := Nat.digits_ne_nil_iff_ne_zero.mpr h0
    have hdig : ∀ d ∈ Nat.digits 10 n, d < 10 := fun d hd =>
      Nat.digits_lt_base (by norm_num) hd
    have hne : natToChars n ≠ [] := by
      simp only [natToChars, if_neg h0, ne_eq, List.map_eq_nil_iff,
        List.reverse_eq_nil_iff]
      exact hdigne
    unfold parseNatChars
    rw [if_neg (by simpa [List.isEmpty_iff] using hne)]
    unfold natToChars
    rw [if_neg h0, foldl_digits_aux (Nat.digits 10 n) hdig 0]
    have hofd : Nat.ofDigits 10 (Nat.digits 10 n ++ [0]) = n := by
      rw [Nat.ofDigits_append, Nat.ofDigits_digits]
      simp [Nat.ofDigits]
    rw [hofd]
    show (if n < 2 ^ 32 then some n else none) = some n
    rw [if_pos hn]

/-- Every character of a decimal rendering is a digit. -/
theorem natToChars_digits (n : Nat) :
    ∀ c ∈ natToChars n, 48 ≤ c.toNat ∧ c.toNat ≤ 57 := by
  intro c hc
  by_cases h0 : n = 0
  · subst h0
    have : c = '0' := by simpa [natToChars] using hc
    subst this; decide
  · simp only [natToChars, if_neg h0, List.mem_map, List.mem_reverse] at hc
    obtain ⟨d, hd, rfl⟩ := hc
    have hd10 : d < 10 := Nat.digits_lt_base (by norm_num) hd
    interval_cases d <;> decide

theorem natToChars_ne_nil (n : Nat) : natToChars n ≠ [] := by
  by_cases h0 : n = 0
  · subst h0; decide
  · have hdigne : Nat.digits 10 n ≠ [] := Nat.digits_ne_nil_iff_ne_zero.mpr h0
    simp only [natToChars, if_neg h0, ne_eq, List.map_eq_nil_iff,
      List.reverse_eq_nil_iff]
    exact hdigne

/-! ### Descriptor checksum

Modelled from the spec (§4.A, §9): the 8-character base-32 descriptor checksum,
"identical to the well-known Bitcoin descriptor checksum", with the generator
constants and alphabet the spec lists.  `desc_checksum` and `verify_checksum`
live in `descriptor/checksum.rs`, outside the embedded sources. -/

/-- Modelled from the spec (§4.A): the input alphabet of the descriptor
checksum, in the well-known order (the position of a character encodes its
5-bit value and its group class). -/
def INPUT_CHARSET : List Char :=
  "0123456789()[],'/*abcdefgh@:$%\x7b\x7dIJKLMNOPQRSTUVWXYZ&+-.;<=>?!^_|~ijklmnopqrstuvwxyzABCDEFGH`#\"\\ ".toList

/-- Modelled from the spec (§4.A): the output alphabet
`qpzry9x8gf2tvdw0s3jn54khce6mua7l` of the checksum. -/
def CHECKSUM_CHARSET : List Char := "qpzry9x8gf2tvdw0s3jn54khce6mua7l".toList

/-- Modelled from the spec (§4.A): one step of the base-32 polymod with the
generator constants `0xf5dee51989, 0xa9fdca3312, 0x1bab10e32d, 0x3706b1677a,
0xe8f18d57b7`. -/
def polyMod (c : Nat) (val : Nat) : Nat :=
  let c0 := c >>> 35
  let c1 := ((c &&& 0x7ffffffff) <<< 5) ^^^ val
  let c2 := if c0 &&& 1 ≠ 0 then c1 ^^^ 0xf5dee51989 else c1
  let c3 := if c0 &&& 2 ≠ 0 then c2 ^^^ 0xa9fdca3312 else c2
  let c4 := if c0 &&& 4 ≠ 0 then c3 ^^^ 0x1bab10e32d else c3
  let c5 := if c0 &&& 8 ≠ 0 then c4 ^^^ 0x3706b1677a else c4
  if c0 &&& 16 ≠ 0 then c5 ^^^ 0xe8f18d57b7 else c5

/-- One character's worth of checksum state transition: feed the character's
low 5 bits into the polymod and accumulate its group class, flushing the class
accumulator every third character.  `none` records a character outside the
input alphabet. -/
def checksumStep (st : Option (Nat × Nat × Nat)) (ch : Char) : Option (Nat × Nat × Nat) :=
  match st with
  | none => none
  | some (c, cls, cnt) =>
    match INPUT_CHARSET.findIdx? (· == ch) with
    | none => none
    | some pos =>
      let c' := polyMod c (pos % 32)
      let cls' := cls * 3 + pos / 32
      if cnt + 1 = 3 then some (polyMod c' cls', 0, 0) else some (c', cls', cnt + 1)

/-- Modelled from the spec (§4.A): `desc_checksum(desc)` — the eight checksum
symbols of a descriptor body, or an error for a character outside the input
alphabet. -/
def descChecksum (cs : List Char) : Except Error (List Char) :=
  match cs.foldl checksumStep (some (1, 0, 0)) with
  | none => .error (.badDescriptor cs)
  | some (c, cls, cnt) =>
    let cA := if 0 < cnt then polyMod c cls else c
    let cB := (List.range 8).foldl (fun acc _ => polyMod acc 0) cA
    let cC := cB ^^^ 1
    .ok ((List.range 8).map (fun j => CHECKSUM_CHARSET.getD ((cC >>> (5 * (7 - j))) % 32) 'q'))

/-- Split a string at its first `#`, returning the body and, when a `#` is
present, everything after it (`splitn(2, '#')`). -/
def splitAtHash : List Char → List Char × Option (List Char)
  | [] => ([], none)
  | c :: rest =>
    if c = '#' then ([], some rest)
    else
      let p := splitAtHash rest
      (c :: p.1, p.2)

/-- Modelled from the spec (§4.A): `verify_checksum(s)` — if a `#` is present,
recompute the checksum of the body and compare it with the trailing symbols;
a mismatch is `BadChecksum`.  Returns the body. -/
def verifyChecksum (cs : List Char) : Except Error (List Char) :=
  match splitAtHash cs with
  | (body, none) => .ok body
  | (body, some tail) =>
    match descChecksum body with
    | .error e => .error e
    | .ok ck => if tail = ck then .ok body else .error .badChecksum

theorem splitAtHash_append (body tail : List Char) (h : '#' ∉ body) :
    splitAtHash (body ++ '#' :: tail) = (body, some tail) := by
  induction body with
  | nil => simp [splitAtHash]
  | cons c rest ih =>
    have hc : c ≠ '#' := fun hcc => h (hcc ▸ List.mem_cons_self c rest)
    have hrest : '#' ∉ rest := fun hm => h (List.mem_cons_of_mem c hm)
    simp [splitAtHash, hc, ih hrest]

/-- A well-formed `body#checksum` string passes checksum verification. -/
theorem verifyChecksum_ok (body ck : List Char) (hb : '#' ∉ body)
    (hck : descChecksum body = .ok ck) :
    verifyChecksum (body ++ '#' :: ck) = .ok body := by
  unfold verifyChecksum
  rw [splitAtHash_append body ck hb]
  show (match descChecksum body with
    | Except.error e => Except.error e
    | Except.ok c => if ck = c then Except.ok body else Except.error Error.badChecksum)
    = Except.ok body
  rw [hck]
  simp

/-- A mismatched trailing checksum is rejected as `BadChecksum`. -/
theorem verifyChecksum_mismatch (body ck tail : List Char) (hb : '#' ∉ body)
    (hck : descChecksum body = .ok ck) (hne : tail ≠ ck) :
    verifyChecksum (body ++ '#' :: tail) = .error .badChecksum := by
  unfold verifyChecksum
  rw [splitAtHash_append body tail hb]
  show (match descChecksum body with
    | Except.error e => Except.error e
    | Except.ok c => if tail = c then Except.ok body else Except.error Error.badChecksum)
    = Except.error Error.badChecksum
  rw [hck]
  simp [hne]

/-- The checksum always succeeds on a body drawn from the input alphabet, and
its eight symbols contain no `#`. -/
theorem descChecksum_total (cs : List Char) (h : ∀ c ∈ cs, c ∈ INPUT_CHARSET) :
    ∃ ck, descChecksum cs = .ok ck ∧ ck.length = 8 ∧ '#' ∉ ck := by
  have hfold : ∀ st : Nat × Nat × Nat,
      ∃ st', cs.foldl checksumStep (some st) = some st' := by
    induction cs with
    | nil => intro st; exact ⟨st, rfl⟩
    | cons c rest ih =>
      intro st
      have hc : c ∈ INPUT_CHARSET := h c (List.mem_cons_self c rest)
      have hrest : ∀ x ∈ rest, x ∈ INPUT_CHARSET := fun x hx => h x (List.mem_cons_of_mem c hx)
      have hfind : ∃ pos, INPUT_CHARSET.findIdx? (· == c) = some pos := by
        have hsome : (INPUT_CHARSET.findIdx? (· == c)).isSome := by
          rw [List.findIdx?_isSome]
          exact List.any_eq_true.mpr ⟨c, hc, beq_self_eq_true c⟩
        exact Option.isSome_iff_exists.mp hsome
      obtain ⟨pos, hpos⟩ := hfind
      obtain ⟨cc, cls, cnt⟩ := st
      simp only [List.foldl_cons, checksumStep, hpos]
      split
      · exact ih hrest _
      · exact ih hrest _
  obtain ⟨⟨c, cls, cnt⟩, hst⟩ := hfold (1, 0, 0)
  refine ⟨(List.range 8).map (fun j =>
      CHECKSUM_CHARSET.getD ((((List.range 8).foldl (fun acc _ => polyMod acc 0)
        (if 0 < cnt then polyMod c cls else c) ^^^ 1) >>> (5 * (7 - j))) % 32) 'q'),
    ?_, by simp, ?_⟩
  · unfold descChecksum
    rw [hst]
  · intro hmem
    simp only [List.mem_map, List.mem_range] at hmem
    obtain ⟨j, _, hj⟩ := hmem
    have hball : ∀ i < 32, CHECKSUM_CHARSET.getD i 'q' ≠ '#' := by decide
    exact hball _ (Nat.mod_lt _ (by norm_num)) hj

/-! ### Expression trees

Modelled from the spec (§4.A "Expression Tree Parser"): the output is a
`Tree{name, args}`; the parser is a recursive-descent tokenizer on
`ident(arg1,arg2,...)` with no whitespace; a leaf has no parentheses;
unbalanced parentheses or trailing garbage are `Unexpected`.  The parser
(`expression.rs`) is outside the embedded sources. -/

/-- Modelled from the spec (§4.A): an expression tree — a name and its
arguments. -/
inductive Tree where
  | mk (name : List Char) (args : List Tree)

/-- The node's identifier. -/
def Tree.name : Tree → List Char
  | .mk n _ => n

/-- The node's arguments. -/
def Tree.args : Tree → List Tree
  | .mk _ a => a

@[simp] theorem Tree.name_mk (n : List Char) (args : List Tree) : (Tree.mk n args).name = n := rfl

@[simp] theorem Tree.args_mk (n : List Char) (args : List Tree) : (Tree.mk n args).args = args := rfl

/-- The tokenizer's delimiters: a name extends until `(`, `)` or `,`. -/
def isDelim (c : Char) : Bool := c = '(' ∨ c = ')' ∨ c = ','

mutual

/-- The rendered form of a tree: a leaf is its name, an inner node is
`name(arg1,arg2,…)`. -/
def Tree.render : Tree → List Char
  | .mk n [] => n
  | .mk n (a :: as) => n ++ '(' :: (Tree.render a ++ Tree.renderArgs as) ++ [')']

/-- `,argᵢ` for each argument after the first. -/
def Tree.renderArgs : List Tree → List Char
  | [] => []
  | a :: as => ',' :: Tree.render a ++ Tree.renderArgs as

end

mutual

/-- A tree whose names tokenize: every node's name is nonempty and free of
the delimiters `(`, `)`, `,`. -/
def Tree.good : Tree → Prop
  | .mk n args => n ≠ [] ∧ (∀ c ∈ n, isDelim c = false) ∧ Tree.goodArgs args

/-- `Tree.good` on every member. -/
def Tree.goodArgs : List Tree → Prop
  | [] => True
  | a :: as => Tree.good a ∧ Tree.goodArgs as

end

mutual

/-- The recursion depth `parseOne` needs on this tree's rendering. -/
def Tree.fsize : Tree → Nat
  | .mk _ [] => 1
  | .mk _ (a :: as) => 2 + Tree.fsize a + Tree.fsizeArgs as

/-- Depth needed for the remaining arguments. -/
def Tree.fsizeArgs : List Tree → Nat
  | [] => 0
  | a :: as => 1 + Tree.fsize a + Tree.fsizeArgs as

end

mutual

/-- Modelled from the spec (§4.A): parse one `ident(arg1,…)` tree from the
front of `cs`, returning it and the unconsumed rest.  `fuel` bounds the
recursion depth; with fuel at least `Tree.fsize` of the parsed tree the bound
is never hit. -/
def parseOne : Nat → List Char → Except Error (Tree × List Char)
  | 0, cs => .error (.unexpected cs)
  | fuel + 1, cs =>
    let nm := cs.takeWhile (fun c => !isDelim c)
    let rest := cs.dropWhile (fun c => !isDelim c)
    if nm.isEmpty then .error (.unexpected cs)
    else
      match rest with
      | '(' :: rest' =>
        match parseArgs fuel rest' with
        | .error e => .error e
        | .ok (args, rest'') => .ok (.mk nm args, rest'')
      | _ => .ok (.mk nm [], rest)

/-- Parse a comma-separated argument list followed by the closing `)`. -/
def parseArgs : Nat → List Char → Except Error (List Tree × List Char)
  | 0, cs => .error (.unexpected cs)
  | fuel + 1, cs =>
    match parseOne fuel cs with
    | .error e => .error e
    | .ok (t, rest) =>
      match rest with
      | ')' :: rest' => .ok ([t], rest')
      | ',' :: rest' =>
        match parseArgs fuel rest' with
        | .error e => .error e
        | .ok (ts, rest'') => .ok (t :: ts, rest'')
      | _ => .error (.unexpected rest)

end

/-- Modelled from the spec (§4.A): `expression::Tree::from_str` — parse a whole
string as one tree; trailing garbage is `Unexpected`. -/
def Tree.fromStr (cs : List Char) : Except Error Tree :=
  match parseOne (2 * cs.length + 2) cs with
  | .error e => .error e
  | .ok (t, []) => .ok t
  | .ok (_, rest) => .error (.unexpected rest)

/-- What may follow a rendered tree for the parser to stop cleanly after it:
nothing, or a closing delimiter. -/
def goodRest (rest : List Char) : Prop :=
  rest = [] ∨ ∃ c cs, rest = c :: cs ∧ (c = ')' ∨ c = ',')

theorem takeWhile_append_stop (p : Char → Bool) (xs ys : List Char)
    (hxs : ∀ x ∈ xs, p x = true) (hys : ys = [] ∨ ∃ y ys', ys = y :: ys' ∧ p y = false) :
    (xs ++ ys).takeWhile p = xs ∧ (xs ++ ys).dropWhile p = ys := by
  induction xs with
  | nil =>
    rcases hys with h | ⟨y, ys', rfl, hy⟩
    · subst h; simp
    · simp [List.takeWhile, List.dropWhile, hy]
  | cons x xs ih =>
    have hx : p x = true := hxs x (List.mem_cons_self x xs)
    have hxs' : ∀ z ∈ xs, p z = true := fun z hz => hxs z (List.mem_cons_of_mem x hz)
    obtain ⟨h1, h2⟩ := ih hxs'
    simp [List.takeWhile, List.dropWhile, hx, h1, h2]

/-- The arguments rendered with their separating commas (what stands between
the parentheses of an inner node). -/
def Tree.renderAll : List Tree → List Char
  | [] => []
  | a :: as => Tree.render a ++ Tree.renderArgs as

theorem Tree.fsize_pos (t : Tree) : 1 ≤ t.fsize := by
  cases t with
  | mk n args =>
    cases args with
    | nil => simp [Tree.fsize]
    | cons a as =>
      simp only [Tree.fsize]
      omega

theorem Tree.fsizeArgs_pos (ts : List Tree) (h : ts ≠ []) : 1 ≤ Tree.fsizeArgs ts := by
  cases ts with
  | nil => exact absurd rfl h
  | cons a as => simp [Tree.fsizeArgs]; omega

/-- The parser inverts the renderer: on `render t ++ rest` (with `rest` empty
or starting at a closing delimiter) it returns exactly `t` and `rest`, given
enough fuel. -/
theorem parse_render (fuel : Nat) :
    (∀ t rest, Tree.good t → goodRest rest → Tree.fsize t ≤ fuel →
      parseOne fuel (t.render ++ rest) = .ok (t, rest))
    ∧ (∀ ts rest, ts ≠ [] → Tree.goodArgs ts → Tree.fsizeArgs ts ≤ fuel →
      parseArgs fuel (Tree.renderAll ts ++ ')' :: rest) = .ok (ts, rest)) := by
  induction fuel with
  | zero =>
    constructor
    · intro t _ _ _ hf
      exact absurd hf (by have := Tree.fsize_pos t; omega)
    · intro ts _ hne _ hf
      exact absurd hf (by have := Tree.fsizeArgs_pos ts hne; omega)
  | succ f ih =>
    obtain ⟨ihOne, ihArgs⟩ := ih
    constructor
    · intro t rest hg hr hf
      cases t with
      | mk n args =>
        obtain ⟨hn, hnc, hargs⟩ := hg
        have hnp : ∀ x ∈ n, (fun c => !isDelim c) x = true := fun x hx => by
          simp [hnc x hx]
        cases args with
        | nil =>
          have hstop : rest = [] ∨ ∃ y ys, rest = y :: ys ∧ (fun c => !isDelim c) y = false := by
            rcases hr with rfl | ⟨c, cs, rfl, hc⟩
            · exact Or.inl rfl
            · exact Or.inr ⟨c, cs, rfl, by rcases hc with rfl | rfl <;> simp [isDelim]⟩
          obtain ⟨ht, hd⟩ := takeWhile_append_stop _ n rest hnp hstop
          have hrender : Tree.render (.mk n []) = n := by simp [Tree.render]
          rw [hrender]
          simp only [parseOne, ht, hd]
          rw [if_neg (by simpa [List.isEmpty_iff] using hn)]
          rcases hr with rfl | ⟨c, cs, rfl, hc⟩
          · rfl
          · rcases hc with rfl | rfl <;> rfl
        | cons a as =>
          have hrender : Tree.render (.mk n (a :: as)) ++ rest
              = n ++ '(' :: (Tree.renderAll (a :: as) ++ ')' :: rest) := by
            simp [Tree.render, Tree.renderAll, List.append_assoc]
          rw [hrender]
          have hstop : '(' :: (Tree.renderAll (a :: as) ++ ')' :: rest) = [] ∨
              ∃ y ys, '(' :: (Tree.renderAll (a :: as) ++ ')' :: rest) = y :: ys ∧
                (fun c => !isDelim c) y = false := by
            exact Or.inr ⟨'(', _, rfl, by simp [isDelim]⟩
          obtain ⟨ht, hd⟩ := takeWhile_append_stop _ n _ hnp hstop
          simp only [parseOne, ht, hd]
          rw [if_neg (by simpa [List.isEmpty_iff] using hn)]
          have hfa : Tree.fsizeArgs (a :: as) ≤ f := by
            simp only [Tree.fsize] at hf
            simp only [Tree.fsizeArgs]
            omega
          rw [ihArgs (a :: as) rest (by simp) hargs hfa]
    · intro ts rest hne hg hf
      cases ts with
      | nil => exact absurd rfl hne
      | cons a as =>
        obtain ⟨hga, hgas⟩ := hg
        cases as with
        | nil =>
          have hin : Tree.renderAll [a] ++ ')' :: rest = Tree.render a ++ ')' :: rest := by
            simp [Tree.renderAll, Tree.renderArgs]
          rw [hin]
          have hfa : Tree.fsize a ≤ f := by
            simp only [Tree.fsizeArgs] at hf; omega
          simp only [parseArgs]
          rw [ihOne a (')' :: rest) hga (Or.inr ⟨')', rest, rfl, Or.inl rfl⟩) hfa]
          rfl
        | cons b bs =>
          have hin : Tree.renderAll (a :: b :: bs) ++ ')' :: rest
              = Tree.render a ++ ',' :: (Tree.renderAll (b :: bs) ++ ')' :: rest) := by
            simp [Tree.renderAll, Tree.renderArgs, List.append_assoc]
          rw [hin]
          have hfa : Tree.fsize a ≤ f := by
            simp only [Tree.fsizeArgs] at hf; omega
          have hfas : Tree.fsizeArgs (b :: bs) ≤ f := by
            simp only [Tree.fsizeArgs] at hf ⊢; omega
          simp only [parseArgs]
          rw [ihOne a (',' :: (Tree.renderAll (b :: bs) ++ ')' :: rest)) hga
            (Or.inr ⟨',', _, rfl, Or.inr rfl⟩) hfa]
          have h2 := ihArgs (b :: bs) rest (by simp) hgas hfas
          show (match parseArgs f (Tree.renderAll (b :: bs) ++ ')' :: rest) with
            | Except.error e => Except.error e
            | Except.ok (ts, rest'') => Except.ok (a :: ts, rest'')) = Except.ok (a :: b :: bs, rest)
          rw [h2]

mutual

/-- `fsize` is bounded by twice the rendered length (so `Tree.fromStr`'s fuel
is always enough). -/
def fsize_le_render : ∀ t : Tree, Tree.good t → Tree.fsize t ≤ 2 * (Tree.render t).length
  | .mk n [], h => by
    have hn : n ≠ [] := by
      simp only [Tree.good] at h
      exact h.1
    have : 1 ≤ n.length := List.length_pos.mpr hn
    simp only [Tree.fsize, Tree.render]
    omega
  | .mk n (a :: as), h => by
    have hg : Tree.good a ∧ Tree.goodArgs as := by
      simp only [Tree.good, Tree.goodArgs] at h
      exact ⟨h.2.2.1, h.2.2.2⟩
    have h1 := fsize_le_render a hg.1
    have h2 := fsize_le_renderArgs as hg.2
    simp only [Tree.fsize, Tree.render, List.length_append, List.length_cons]
    omega

/-- Same bound for rendered argument tails. -/
def fsize_le_renderArgs : ∀ ts : List Tree, Tree.goodArgs ts →
    Tree.fsizeArgs ts ≤ 2 * (Tree.renderArgs ts).length
  | [], _ => by simp [Tree.fsizeArgs, Tree.renderArgs]
  | a :: as, h => by
    have hg : Tree.good a ∧ Tree.goodArgs as := by
      simp only [Tree.goodArgs] at h
      exact h
    have h1 := fsize_le_render a hg.1
    have h2 := fsize_le_renderArgs as hg.2
    simp only [Tree.fsizeArgs, Tree.renderArgs, List.length_append, List.length_cons]
    omega

end

/-- Parsing a rendered good tree returns exactly that tree. -/
theorem Tree.fromStr_render (t : Tree) (ht : Tree.good t) :
    Tree.fromStr (Tree.render t) = .ok t := by
  have hsz : Tree.fsize t ≤ 2 * (Tree.render t).length + 2 := by
    have := fsize_le_render t ht
    omega
  have hp := (parse_render (2 * (Tree.render t).length + 2)).1 t [] ht (Or.inl rfl) hsz
  unfold Tree.fromStr
  rw [List.append_nil] at hp
  rw [hp]

/-! ### Miniscript fragments

Modelled from the spec (§3 "Miniscript fragment", §4.C, §6): the fragment
grammar — terminals, combinators, and the single-letter wrappers — together
with its canonical string form (via expression trees) and its parse
(`Miniscript::from_tree`, outside the embedded sources).  The type calculus
itself (§4.D) is not modelled: the top-level checks the descriptor layer runs
are taken as a parameter everywhere they occur. -/

/-- Characters allowed in a key, key-hash or hash-literal atom: the
alphanumerics (covering hex and base58 serializations). -/
def atomChars : List Char :=
  "0123456789abcdefghijklmnopqrstuvwxyzABCDEFGHIJKLMNOPQRSTUVWXYZ".toList

/-- A valid atom: nonempty and alphanumeric. -/
def validAtom (s : List Char) : Bool := !s.isEmpty && s.all (fun c => decide (c ∈ atomChars))

/-- Modelled from the spec (§3, §6): the miniscript fragment grammar.  Keys,
key-hashes and hash literals are carried in their string form; numeric bounds
as `Nat`; the wrappers `a: s: c: d: v: j: n: l: u: t:` are unary
constructors. -/
inductive Ms where
  | pk_k (key : List Char)
  | pk_h (keyhash : List Char)
  | older (n : Nat)
  | after (n : Nat)
  | sha256 (h : List Char)
  | hash256 (h : List Char)
  | ripemd160 (h : List Char)
  | hash160 (h : List Char)
  | andor (x y z : Ms)
  | and_v (x y : Ms)
  | and_b (x y : Ms)
  | or_b (x y : Ms)
  | or_c (x y : Ms)
  | or_d (x y : Ms)
  | or_i (x y : Ms)
  | thresh (k : Nat) (subs : List Ms)
  | multi (k : Nat) (keys : List (List Char))
  | multi_a (k : Nat) (keys : List (List Char))
  | wrapA (x : Ms)
  | wrapS (x : Ms)
  | wrapC (x : Ms)
  | wrapD (x : Ms)
  | wrapV (x : Ms)
  | wrapJ (x : Ms)
  | wrapN (x : Ms)
  | wrapL (x : Ms)
  | wrapU (x : Ms)
  | wrapT (x : Ms)

/-- Is the root a wrapper? -/
def Ms.isWrapper : Ms → Bool
  | .wrapA _ | .wrapS _ | .wrapC _ | .wrapD _ | .wrapV _
  | .wrapJ _ | .wrapN _ | .wrapL _ | .wrapU _ | .wrapT _ => true
  | _ => false

/-- The wrapper letters of the root's wrapper chain, outermost first. -/
def Ms.wchars : Ms → List Char
  | .wrapA x => 'a' :: x.wchars
  | .wrapS x => 's' :: x.wchars
  | .wrapC x => 'c' :: x.wchars
  | .wrapD x => 'd' :: x.wchars
  | .wrapV x => 'v' :: x.wchars
  | .wrapJ x => 'j' :: x.wchars
  | .wrapN x => 'n' :: x.wchars
  | .wrapL x => 'l' :: x.wchars
  | .wrapU x => 'u' :: x.wchars
  | .wrapT x => 't' :: x.wchars
  | _ => []

/-- The fragment under the root's wrapper chain. -/
def Ms.core : Ms → Ms
  | .wrapA x => x.core
  | .wrapS x => x.core
  | .wrapC x => x.core
  | .wrapD x => x.core
  | .wrapV x => x.core
  | .wrapJ x => x.core
  | .wrapN x => x.core
  | .wrapL x => x.core
  | .wrapU x => x.core
  | .wrapT x => x.core
  | m => m

mutual

/-- Modelled from the spec (§4.C, §6): the canonical string form of a
fragment, as an expression tree.  A chain of wrappers prints as its letters,
one colon, and the wrapped fragment's form (`asc:pk_k(…)`). -/
def Ms.tree : Ms → Tree
  | .pk_k k => .mk "pk_k".toList [.mk k []]
  | .pk_h kh => .mk "pk_h".toList [.mk kh []]
  | .older n => .mk "older".toList [.mk (natToChars n) []]
  | .after n => .mk "after".toList [.mk (natToChars n) []]
  | .sha256 h => .mk "sha256".toList [.mk h []]
  | .hash256 h => .mk "hash256".toList [.mk h []]
  | .ripemd160 h => .mk "ripemd160".toList [.mk h []]
  | .hash160 h => .mk "hash160".toList [.mk h []]
  | .andor x y z => .mk "andor".toList [Ms.tree x, Ms.tree y, Ms.tree z]
  | .and_v x y => .mk "and_v".toList [Ms.tree x, Ms.tree y]
  | .and_b x y => .mk "and_b".toList [Ms.tree x, Ms.tree y]
  | .or_b x y => .mk "or_b".toList [Ms.tree x, Ms.tree y]
  | .or_c x y => .mk "or_c".toList [Ms.tree x, Ms.tree y]
  | .or_d x y => .mk "or_d".toList [Ms.tree x, Ms.tree y]
  | .or_i x y => .mk "or_i".toList [Ms.tree x, Ms.tree y]
  | .thresh k subs => .mk "thresh".toList (.mk (natToChars k) [] :: Ms.treeList subs)
  | .multi k keys => .mk "multi".toList (.mk (natToChars k) [] :: keys.map (fun kk => Tree.mk kk []))
  | .multi_a k keys => .mk "multi_a".toList (.mk (natToChars k) [] :: keys.map (fun kk => Tree.mk kk []))
  | .wrapA x => .mk (['a'] ++ (if x.isWrapper then [] else [':']) ++ (Ms.tree x).name) ((Ms.tree x).args)
  | .wrapS x => .mk (['s'] ++ (if x.isWrapper then [] else [':']) ++ (Ms.tree x).name) ((Ms.tree x).args)
  | .wrapC x => .mk (['c'] ++ (if x.isWrapper then [] else [':']) ++ (Ms.tree x).name) ((Ms.tree x).args)
  | .wrapD x => .mk (['d'] ++ (if x.isWrapper then [] else [':']) ++ (Ms.tree x).name) ((Ms.tree x).args)
  | .wrapV x => .mk (['v'] ++ (if x.isWrapper then [] else [':']) ++ (Ms.tree x).name) ((Ms.tree x).args)
  | .wrapJ x => .mk (['j'] ++ (if x.isWrapper then [] else [':']) ++ (Ms.tree x).name) ((Ms.tree x).args)
  | .wrapN x => .mk (['n'] ++ (if x.isWrapper then [] else [':']) ++ (Ms.tree x).name) ((Ms.tree x).args)
  | .wrapL x => .mk (['l'] ++ (if x.isWrapper then [] else [':']) ++ (Ms.tree x).name) ((Ms.tree x).args)
  | .wrapU x => .mk (['u'] ++ (if x.isWrapper then [] else [':']) ++ (Ms.tree x).name) ((Ms.tree x).args)
  | .wrapT x => .mk (['t'] ++ (if x.isWrapper then [] else [':']) ++ (Ms.tree x).name) ((Ms.tree x).args)

/-- The trees of a list of fragments. -/
def Ms.treeList : List Ms → List Tree
  | [] => []
  | m :: ms => Ms.tree m :: Ms.treeList ms

end

/-- Split a name at its first colon: `some (before, after)`, or `none` when it
has no colon (`name.find(':')` in the parser). -/
def splitColon : List Char → Option (List Char × List Char)
  | [] => none
  | c :: rest =>
    if c = ':' then some ([], rest)
    else (splitColon rest).map (fun p => (c :: p.1, p.2))

/-- Modelled from the spec (§3, §6): one wrapper applied by its letter; an
unknown letter is an error. -/
def wrapOf (c : Char) (m : Ms) : Except Error Ms :=
  if c = 'a' then .ok (.wrapA m)
  else if c = 's' then .ok (.wrapS m)
  else if c = 'c' then .ok (.wrapC m)
  else if c = 'd' then .ok (.wrapD m)
  else if c = 'v' then .ok (.wrapV m)
  else if c = 'j' then .ok (.wrapJ m)
  else if c = 'n' then .ok (.wrapN m)
  else if c = 'l' then .ok (.wrapL m)
  else if c = 'u' then .ok (.wrapU m)
  else if c = 't' then .ok (.wrapT m)
  else .error (.unexpected [c])

/-- Apply a string of wrapper letters, rightmost letter innermost. -/
def applyWraps : List Char → Ms → Except Error Ms
  | [], m => .ok m
  | c :: cs, m =>
    match applyWraps cs m with
    | .error e => .error e
    | .ok inner => wrapOf c inner

/-- Parse a list of leaves as keys. -/
def keysOfTrees : List Tree → Except Error (List (List Char))
  | [] => .ok []
  | .mk k [] :: ts =>
    if validAtom k then
      match keysOfTrees ts with
      | .error e => .error e
      | .ok ks => .ok (k :: ks)
    else .error (.unexpected k)
  | .mk n (_ :: _) :: _ => .error (.unexpected n)

/-- Parse a leaf as a `u32` numeral. -/
def numOfTree : Tree → Except Error Nat
  | .mk ds [] =>
    match parseNatChars ds with
    | some v => .ok v
    | none => .error (.unexpected ds)
  | .mk n (_ :: _) => .error (.unexpected n)

mutual

/-- Modelled from the spec (§3, §4.C, §6): `Miniscript::from_tree` on the
fragment grammar — split the name's wrapper prefix at the colon, parse the
base fragment, then apply the wrappers innermost-first.  `fuel` bounds the
recursion depth; with enough fuel (any amount at least `Ms.parseFuel` of the
tree) the bound is never reached. -/
def Ms.fromTree : Nat → Tree → Except Error Ms
  | 0, t => .error (.unexpected t.name)
  | fuel + 1, .mk n args =>
    match splitColon n with
    | none => Ms.fromBase fuel n args
    | some (wraps, base) =>
      if wraps.isEmpty then .error (.unexpected n)
      else
        match Ms.fromBase fuel base args with
        | .error e => .error e
        | .ok m => applyWraps wraps m

/-- Parse a base (unwrapped) fragment from its name and argument trees. -/
def Ms.fromBase : Nat → List Char → List Tree → Except Error Ms
  | 0, n, _ => .error (.unexpected n)
  | fuel + 1, n, args =>
  if n = "pk_k".toList then
    match args with
    | [.mk k []] => if validAtom k then .ok (.pk_k k) else .error (.unexpected k)
    | _ => .error (.unexpected n)
  else if n = "pk_h".toList then
    match args with
    | [.mk k []] => if validAtom k then .ok (.pk_h k) else .error (.unexpected k)
    | _ => .error (.unexpected n)
  else if n = "older".toList then
    match args with
    | [t] =>
      match numOfTree t with
      | .error e => .error e
      | .ok v => .ok (.older v)
    | _ => .error (.unexpected n)
  else if n = "after".toList then
    match args with
    | [t] =>
      match numOfTree t with
      | .error e => .error e
      | .ok v => .ok (.after v)
    | _ => .error (.unexpected n)
  else if n = "sha256".toList then
    match args with
    | [.mk h []] => if validAtom h then .ok (.sha256 h) else .error (.unexpected h)
    | _ => .error (.unexpected n)
  else if n = "hash256".toList then
    match args with
    | [.mk h []] => if validAtom h then .ok (.hash256 h) else .error (.unexpected h)
    | _ => .error (.unexpected n)
  else if n = "ripemd160".toList then
    match args with
    | [.mk h []] => if validAtom h then .ok (.ripemd160 h) else .error (.unexpected h)
    | _ => .error (.unexpected n)
  else if n = "hash160".toList then
    match args with
    | [.mk h []] => if validAtom h then .ok (.hash160 h) else .error (.unexpected h)
    | _ => .error (.unexpected n)
  else if n = "andor".toList then
    match args with
    | [x, y, z] =>
      match Ms.fromTree fuel x with
      | .error e => .error e
      | .ok mx =>
        match Ms.fromTree fuel y with
        | .error e => .error e
        | .ok my =>
          match Ms.fromTree fuel z with
          | .error e => .error e
          | .ok mz => .ok (.andor mx my mz)
    | _ => .error (.unexpected n)
  else if n = "and_v".toList then Ms.fromBin fuel .and_v n args
  else if n = "and_b".toList then Ms.fromBin fuel .and_b n args
  else if n = "or_b".toList then Ms.fromBin fuel .or_b n args
  else if n = "or_c".toList then Ms.fromBin fuel .or_c n args
  else if n = "or_d".toList then Ms.fromBin fuel .or_d n args
  else if n = "or_i".toList then Ms.fromBin fuel .or_i n args
  else if n = "thresh".toList then
    match args with
    | kt :: rest =>
      match numOfTree kt with
      | .error e => .error e
      | .ok k =>
        match Ms.fromTreeList fuel rest with
        | .error e => .error e
        | .ok subs => .ok (.thresh k subs)
    | _ => .error (.unexpected n)
  else if n = "multi".toList then
    match args with
    | kt :: rest =>
      match numOfTree kt with
      | .error e => .error e
      | .ok k =>
        match keysOfTrees rest with
        | .error e => .error e
        | .ok ks => .ok (.multi k ks)
    | _ => .error (.unexpected n)
  else if n = "multi_a".toList then
    match args with
    | kt :: rest =>
      match numOfTree kt with
      | .error e => .error e
      | .ok k =>
        match keysOfTrees rest with
        | .error e => .error e
        | .ok ks => .ok (.multi_a k ks)
    | _ => .error (.unexpected n)
  else .error (.unexpected n)

/-- Parse a two-argument combinator. -/
def Ms.fromBin : Nat → (Ms → Ms → Ms) → List Char → List Tree → Except Error Ms
  | 0, _, n, _ => .error (.unexpected n)
  | fuel + 1, mk2, n, args =>
    match args with
    | [x, y] =>
      match Ms.fromTree fuel x with
      | .error e => .error e
      | .ok mx =>
        match Ms.fromTree fuel y with
        | .error e => .error e
        | .ok my => .ok (mk2 mx my)
    | _ => .error (.unexpected n)

/-- Parse each tree of a list as a fragment. -/
def Ms.fromTreeList : Nat → List Tree → Except Error (List Ms)
  | _, [] => .ok []
  | 0, t :: _ => .error (.unexpected t.name)
  | fuel + 1, t :: ts =>
    match Ms.fromTree fuel t with
    | .error e => .error e
    | .ok m =>
      match Ms.fromTreeList fuel ts with
      | .error e => .error e
      | .ok ms => .ok (m :: ms)

end

mutual

/-- A fragment whose atoms parse back: keys, key-hashes and hash literals are
valid atoms and numeric bounds fit in a `u32`. -/
def Ms.valid : Ms → Prop
  | .pk_k k => validAtom k = true
  | .pk_h kh => validAtom kh = true
  | .older n => n < 2 ^ 32
  | .after n => n < 2 ^ 32
  | .sha256 h => validAtom h = true
  | .hash256 h => validAtom h = true
  | .ripemd160 h => validAtom h = true
  | .hash160 h => validAtom h = true
  | .andor x y z => Ms.valid x ∧ Ms.valid y ∧ Ms.valid z
  | .and_v x y => Ms.valid x ∧ Ms.valid y
  | .and_b x y => Ms.valid x ∧ Ms.valid y
  | .or_b x y => Ms.valid x ∧ Ms.valid y
  | .or_c x y => Ms.valid x ∧ Ms.valid y
  | .or_d x y => Ms.valid x ∧ Ms.valid y
  | .or_i x y => Ms.valid x ∧ Ms.valid y
  | .thresh k subs => k < 2 ^ 32 ∧ Ms.validList subs
  | .multi k keys => k < 2 ^ 32 ∧ ∀ kk ∈ keys, validAtom kk = true
  | .multi_a k keys => k < 2 ^ 32 ∧ ∀ kk ∈ keys, validAtom kk = true
  | .wrapA x => Ms.valid x
  | .wrapS x => Ms.valid x
  | .wrapC x => Ms.valid x
  | .wrapD x => Ms.valid x
  | .wrapV x => Ms.valid x
  | .wrapJ x => Ms.valid x
  | .wrapN x => Ms.valid x
  | .wrapL x => Ms.valid x
  | .wrapU x => Ms.valid x
  | .wrapT x => Ms.valid x

/-- `Ms.valid` on every member. -/
def Ms.validList : List Ms → Prop
  | [] => True
  | m :: ms => Ms.valid m ∧ Ms.validList ms

end

mutual

/-- The parsing fuel `Ms.fromTree` needs on this fragment's tree. -/
def Ms.pfuel : Ms → Nat
  | .pk_k _ => 2
  | .pk_h _ => 2
  | .older _ => 2
  | .after _ => 2
  | .sha256 _ => 2
  | .hash256 _ => 2
  | .ripemd160 _ => 2
  | .hash160 _ => 2
  | .andor x y z => 2 + Ms.pfuel x + Ms.pfuel y + Ms.pfuel z
  | .and_v x y => 3 + Ms.pfuel x + Ms.pfuel y
  | .and_b x y => 3 + Ms.pfuel x + Ms.pfuel y
  | .or_b x y => 3 + Ms.pfuel x + Ms.pfuel y
  | .or_c x y => 3 + Ms.pfuel x + Ms.pfuel y
  | .or_d x y => 3 + Ms.pfuel x + Ms.pfuel y
  | .or_i x y => 3 + Ms.pfuel x + Ms.pfuel y
  | .thresh _ subs => 2 + Ms.pfuelList subs
  | .multi _ _ => 2
  | .multi_a _ _ => 2
  | .wrapA x => Ms.pfuel x
  | .wrapS x => Ms.pfuel x
  | .wrapC x => Ms.pfuel x
  | .wrapD x => Ms.pfuel x
  | .wrapV x => Ms.pfuel x
  | .wrapJ x => Ms.pfuel x
  | .wrapN x => Ms.pfuel x
  | .wrapL x => Ms.pfuel x
  | .wrapU x => Ms.pfuel x
  | .wrapT x => Ms.pfuel x

/-- Fuel needed for a list of fragment trees. -/
def Ms.pfuelList : List Ms → Nat
  | [] => 0
  | m :: ms => 1 + Ms.pfuel m + Ms.pfuelList ms

end

theorem Tree.eta (t : Tree) : Tree.mk t.name t.args = t := by
  cases t
  rfl

theorem splitColon_of_not_mem (n : List Char) (h : ':' ∉ n) : splitColon n = none := by
  induction n with
  | nil => rfl
  | cons c rest ih =>
    have hc : c ≠ ':' := fun hcc => h (hcc ▸ List.mem_cons_self c rest)
    have hrest : ':' ∉ rest := fun hm => h (List.mem_cons_of_mem c hm)
    simp [splitColon, hc, ih hrest]

theorem splitColon_append (w b : List Char) (h : ':' ∉ w) :
    splitColon (w ++ ':' :: b) = some (w, b) := by
  induction w with
  | nil => simp [splitColon]
  | cons c rest ih =>
    have hc : c ≠ ':' := fun hcc => h (hcc ▸ List.mem_cons_self c rest)
    have hrest : ':' ∉ rest := fun hm => h (List.mem_cons_of_mem c hm)
    simp [splitColon, hc, ih hrest]

/-- The wrapper letters of any fragment. -/
def wrapLetters : List Char := ['a', 's', 'c', 'd', 'v', 'j', 'n', 'l', 'u', 't']

theorem Ms.not_wrapper_wchars (m : Ms) (h : m.isWrapper = false) :
    m.wchars = [] ∧ m.core = m := by
  cases m <;> simp_all [Ms.isWrapper, Ms.wchars, Ms.core]

theorem Ms.wrapper_wchars_ne_nil (m : Ms) (h : m.isWrapper = true) : m.wchars ≠ [] := by
  cases m <;> simp_all [Ms.isWrapper, Ms.wchars]

/-- Every letter of a wrapper chain is one of the ten wrapper letters. -/
def Ms.wchars_letters : ∀ m : Ms, ∀ c ∈ m.wchars, c ∈ wrapLetters
  | .pk_k _ => by simp [Ms.wchars]
  | .pk_h _ => by simp [Ms.wchars]
  | .older _ => by simp [Ms.wchars]
  | .after _ => by simp [Ms.wchars]
  | .sha256 _ => by simp [Ms.wchars]
  | .hash256 _ => by simp [Ms.wchars]
  | .ripemd160 _ => by simp [Ms.wchars]
  | .hash160 _ => by simp [Ms.wchars]
  | .andor _ _ _ => by simp [Ms.wchars]
  | .and_v _ _ => by simp [Ms.wchars]
  | .and_b _ _ => by simp [Ms.wchars]
  | .or_b _ _ => by simp [Ms.wchars]
  | .or_c _ _ => by simp [Ms.wchars]
  | .or_d _ _ => by simp [Ms.wchars]
  | .or_i _ _ => by simp [Ms.wchars]
  | .thresh _ _ => by simp [Ms.wchars]
  | .multi _ _ => by simp [Ms.wchars]
  | .multi_a _ _ => by simp [Ms.wchars]
  | .wrapA x => fun c hc => by
    rcases List.mem_cons.mp hc with rfl | h
    · decide
    · exact Ms.wchars_letters x c h
  | .wrapS x => fun c hc => by
    rcases List.mem_cons.mp hc with rfl | h
    · decide
    · exact Ms.wchars_letters x c h
  | .wrapC x => fun c hc => by
    rcases List.mem_cons.mp hc with rfl | h
    · decide
    · exact Ms.wchars_letters x c h
  | .wrapD x => fun c hc => by
    rcases List.mem_cons.mp hc with rfl | h
    · decide
    · exact Ms.wchars_letters x c h
  | .wrapV x => fun c hc => by
    rcases List.mem_cons.mp hc with rfl | h
    · decide
    · exact Ms.wchars_letters x c h
  | .wrapJ x => fun c hc => by
    rcases List.mem_cons.mp hc with rfl | h
    · decide
    · exact Ms.wchars_letters x c h
  | .wrapN x => fun c hc => by
    rcases List.mem_cons.mp hc with rfl | h
    · decide
    · exact Ms.wchars_letters x c h
  | .wrapL x => fun c hc => by
    rcases List.mem_cons.mp hc with rfl | h
    · decide
    · exact Ms.wchars_letters x c h
  | .wrapU x => fun c hc => by
    rcases List.mem_cons.mp hc with rfl | h
    · decide
    · exact Ms.wchars_letters x c h
  | .wrapT x => fun c hc => by
    rcases List.mem_cons.mp hc with rfl | h
    · decide
    · exact Ms.wchars_letters x c h

theorem Ms.wchars_colon_free (m : Ms) : ':' ∉ m.wchars := by
  intro h
  have := Ms.wchars_letters m ':' h
  simp [wrapLetters] at this

/-- The fragment under the wrappers is not itself a wrapper. -/
def Ms.core_not_wrapper : ∀ m : Ms, (Ms.core m).isWrapper = false
  | .pk_k _ => by simp [Ms.core, Ms.isWrapper]
  | .pk_h _ => by simp [Ms.core, Ms.isWrapper]
  | .older _ => by simp [Ms.core, Ms.isWrapper]
  | .after _ => by simp [Ms.core, Ms.isWrapper]
  | .sha256 _ => by simp [Ms.core, Ms.isWrapper]
  | .hash256 _ => by simp [Ms.core, Ms.isWrapper]
  | .ripemd160 _ => by simp [Ms.core, Ms.isWrapper]
  | .hash160 _ => by simp [Ms.core, Ms.isWrapper]
  | .andor _ _ _ => by simp [Ms.core, Ms.isWrapper]
  | .and_v _ _ => by simp [Ms.core, Ms.isWrapper]
  | .and_b _ _ => by simp [Ms.core, Ms.isWrapper]
  | .or_b _ _ => by simp [Ms.core, Ms.isWrapper]
  | .or_c _ _ => by simp [Ms.core, Ms.isWrapper]
  | .or_d _ _ => by simp [Ms.core, Ms.isWrapper]
  | .or_i _ _ => by simp [Ms.core, Ms.isWrapper]
  | .thresh _ _ => by simp [Ms.core, Ms.isWrapper]
  | .multi _ _ => by simp [Ms.core, Ms.isWrapper]
  | .multi_a _ _ => by simp [Ms.core, Ms.isWrapper]
  | .wrapA x => by simpa [Ms.core] using Ms.core_not_wrapper x
  | .wrapS x => by simpa [Ms.core] using Ms.core_not_wrapper x
  | .wrapC x => by simpa [Ms.core] using Ms.core_not_wrapper x
  | .wrapD x => by simpa [Ms.core] using Ms.core_not_wrapper x
  | .wrapV x => by simpa [Ms.core] using Ms.core_not_wrapper x
  | .wrapJ x => by simpa [Ms.core] using Ms.core_not_wrapper x
  | .wrapN x => by simpa [Ms.core] using Ms.core_not_wrapper x
  | .wrapL x => by simpa [Ms.core] using Ms.core_not_wrapper x
  | .wrapU x => by simpa [Ms.core] using Ms.core_not_wrapper x
  | .wrapT x => by simpa [Ms.core] using Ms.core_not_wrapper x

/-- Validity descends to the core. -/
def Ms.core_valid : ∀ m : Ms, Ms.valid m → Ms.valid (Ms.core m)
  | .pk_k _, h => h
  | .pk_h _, h => h
  | .older _, h => h
  | .after _, h => h
  | .sha256 _, h => h
  | .hash256 _, h => h
  | .ripemd160 _, h => h
  | .hash160 _, h => h
  | .andor _ _ _, h => h
  | .and_v _ _, h => h
  | .and_b _ _, h => h
  | .or_b _ _, h => h
  | .or_c _ _, h => h
  | .or_d _ _, h => h
  | .or_i _ _, h => h
  | .thresh _ _, h => h
  | .multi _ _, h => h
  | .multi_a _ _, h => h
  | .wrapA x, h => Ms.core_valid x (by simpa [Ms.valid] using h)
  | .wrapS x, h => Ms.core_valid x (by simpa [Ms.valid] using h)
  | .wrapC x, h => Ms.core_valid x (by simpa [Ms.valid] using h)
  | .wrapD x, h => Ms.core_valid x (by simpa [Ms.valid] using h)
  | .wrapV x, h => Ms.core_valid x (by simpa [Ms.valid] using h)
  | .wrapJ x, h => Ms.core_valid x (by simpa [Ms.valid] using h)
  | .wrapN x, h => Ms.core_valid x (by simpa [Ms.valid] using h)
  | .wrapL x, h => Ms.core_valid x (by simpa [Ms.valid] using h)
  | .wrapU x, h => Ms.core_valid x (by simpa [Ms.valid] using h)
  | .wrapT x, h => Ms.core_valid x (by simpa [Ms.valid] using h)

/-- The core needs the same parsing fuel. -/
def Ms.pfuel_core : ∀ m : Ms, Ms.pfuel (Ms.core m) = Ms.pfuel m
  | .pk_k _ => rfl
  | .pk_h _ => rfl
  | .older _ => rfl
  | .after _ => rfl
  | .sha256 _ => rfl
  | .hash256 _ => rfl
  | .ripemd160 _ => rfl
  | .hash160 _ => rfl
  | .andor _ _ _ => rfl
  | .and_v _ _ => rfl
  | .and_b _ _ => rfl
  | .or_b _ _ => rfl
  | .or_c _ _ => rfl
  | .or_d _ _ => rfl
  | .or_i _ _ => rfl
  | .thresh _ _ => rfl
  | .multi _ _ => rfl
  | .multi_a _ _ => rfl
  | .wrapA x => by rw [show Ms.core (.wrapA x) = Ms.core x from by simp [Ms.core]]; rw [Ms.pfuel_core x]; simp [Ms.pfuel]
  | .wrapS x => by rw [show Ms.core (.wrapS x) = Ms.core x from by simp [Ms.core]]; rw [Ms.pfuel_core x]; simp [Ms.pfuel]
  | .wrapC x => by rw [show Ms.core (.wrapC x) = Ms.core x from by simp [Ms.core]]; rw [Ms.pfuel_core x]; simp [Ms.pfuel]
  | .wrapD x => by rw [show Ms.core (.wrapD x) = Ms.core x from by simp [Ms.core]]; rw [Ms.pfuel_core x]; simp [Ms.pfuel]
  | .wrapV x => by rw [show Ms.core (.wrapV x) = Ms.core x from by simp [Ms.core]]; rw [Ms.pfuel_core x]; simp [Ms.pfuel]
  | .wrapJ x => by rw [show Ms.core (.wrapJ x) = Ms.core x from by simp [Ms.core]]; rw [Ms.pfuel_core x]; simp [Ms.pfuel]
  | .wrapN x => by rw [show Ms.core (.wrapN x) = Ms.core x from by simp [Ms.core]]; rw [Ms.pfuel_core x]; simp [Ms.pfuel]
  | .wrapL x => by rw [show Ms.core (.wrapL x) = Ms.core x from by simp [Ms.core]]; rw [Ms.pfuel_core x]; simp [Ms.pfuel]
  | .wrapU x => by rw [show Ms.core (.wrapU x) = Ms.core x from by simp [Ms.core]]; rw [Ms.pfuel_core x]; simp [Ms.pfuel]
  | .wrapT x => by rw [show Ms.core (.wrapT x) = Ms.core x from by simp [Ms.core]]; rw [Ms.pfuel_core x]; simp [Ms.pfuel]

/-- Unwinding a wrapper chain by its letters rebuilds the fragment. -/
def Ms.applyWraps_wchars : ∀ m : Ms, applyWraps m.wchars m.core = .ok m
  | .pk_k _ => rfl
  | .pk_h _ => rfl
  | .older _ => rfl
  | .after _ => rfl
  | .sha256 _ => rfl
  | .hash256 _ => rfl
  | .ripemd160 _ => rfl
  | .hash160 _ => rfl
  | .andor _ _ _ => rfl
  | .and_v _ _ => rfl
  | .and_b _ _ => rfl
  | .or_b _ _ => rfl
  | .or_c _ _ => rfl
  | .or_d _ _ => rfl
  | .or_i _ _ => rfl
  | .thresh _ _ => rfl
  | .multi _ _ => rfl
  | .multi_a _ _ => rfl
  | .wrapA x => by
    simp only [Ms.wchars, Ms.core, applyWraps]
    rw [Ms.applyWraps_wchars x]
    rfl
  | .wrapS x => by
    simp only [Ms.wchars, Ms.core, applyWraps]
    rw [Ms.applyWraps_wchars x]
    rfl
  | .wrapC x => by
    simp only [Ms.wchars, Ms.core, applyWraps]
    rw [Ms.applyWraps_wchars x]
    rfl
  | .wrapD x => by
    simp only [Ms.wchars, Ms.core, applyWraps]
    rw [Ms.applyWraps_wchars x]
    rfl
  | .wrapV x => by
    simp only [Ms.wchars, Ms.core, applyWraps]
    rw [Ms.applyWraps_wchars x]
    rfl
  | .wrapJ x => by
    simp only [Ms.wchars, Ms.core, applyWraps]
    rw [Ms.applyWraps_wchars x]
    rfl
  | .wrapN x => by
    simp only [Ms.wchars, Ms.core, applyWraps]
    rw [Ms.applyWraps_wchars x]
    rfl
  | .wrapL x => by
    simp only [Ms.wchars, Ms.core, applyWraps]
    rw [Ms.applyWraps_wchars x]
    rfl
  | .wrapU x => by
    simp only [Ms.wchars, Ms.core, applyWraps]
    rw [Ms.applyWraps_wchars x]
    rfl
  | .wrapT x => by
    simp only [Ms.wchars, Ms.core, applyWraps]
    rw [Ms.applyWraps_wchars x]
    rfl

/-- The shape of a fragment's tree: the wrapper letters, a colon when there
are any, then the core's name; the core's arguments. -/
def Ms.tree_shape : ∀ m : Ms,
    (Ms.tree m).name = m.wchars ++ (if m.wchars.isEmpty then [] else [':']) ++ (Ms.tree m.core).name
    ∧ (Ms.tree m).args = (Ms.tree m.core).args
  | .pk_k _ => by
    constructor
    · simp [Ms.tree, Ms.wchars, Ms.core]
    · simp [Ms.core]
  | .pk_h _ => by
    constructor
    · simp [Ms.tree, Ms.wchars, Ms.core]
    · simp [Ms.core]
  | .older _ => by
    constructor
    · simp [Ms.tree, Ms.wchars, Ms.core]
    · simp [Ms.core]
  | .after _ => by
    constructor
    · simp [Ms.tree, Ms.wchars, Ms.core]
    · simp [Ms.core]
  | .sha256 _ => by
    constructor
    · simp [Ms.tree, Ms.wchars, Ms.core]
    · simp [Ms.core]
  | .hash256 _ => by
    constructor
    · simp [Ms.tree, Ms.wchars, Ms.core]
    · simp [Ms.core]
  | .ripemd160 _ => by
    constructor
    · simp [Ms.tree, Ms.wchars, Ms.core]
    · simp [Ms.core]
  | .hash160 _ => by
    constructor
    · simp [Ms.tree, Ms.wchars, Ms.core]
    · simp [Ms.core]
  | .andor _ _ _ => by
    constructor
    · simp [Ms.tree, Ms.wchars, Ms.core]
    · simp [Ms.core]
  | .and_v _ _ => by
    constructor
    · simp [Ms.tree, Ms.wchars, Ms.core]
    · simp [Ms.core]
  | .and_b _ _ => by
    constructor
    · simp [Ms.tree, Ms.wchars, Ms.core]
    · simp [Ms.core]
  | .or_b _ _ => by
    constructor
    · simp [Ms.tree, Ms.wchars, Ms.core]
    · simp [Ms.core]
  | .or_c _ _ => by
    constructor
    · simp [Ms.tree, Ms.wchars, Ms.core]
    · simp [Ms.core]
  | .or_d _ _ => by
    constructor
    · simp [Ms.tree, Ms.wchars, Ms.core]
    · simp [Ms.core]
  | .or_i _ _ => by
    constructor
    · simp [Ms.tree, Ms.wchars, Ms.core]
    · simp [Ms.core]
  | .thresh _ _ => by
    constructor
    · simp [Ms.tree, Ms.wchars, Ms.core]
    · simp [Ms.core]
  | .multi _ _ => by
    constructor
    · simp [Ms.tree, Ms.wchars, Ms.core]
    · simp [Ms.core]
  | .multi_a _ _ => by
    constructor
    · simp [Ms.tree, Ms.wchars, Ms.core]
    · simp [Ms.core]
  | .wrapA x => by
    have ih := Ms.tree_shape x
    cases hw : x.isWrapper with
    | true =>
      have hne := Ms.wrapper_wchars_ne_nil x hw
      have hnee : x.wchars.isEmpty = false := by
        simp [List.isEmpty_iff, hne]
      constructor
      · simp only [Ms.tree, Ms.wchars, Ms.core, Tree.name_mk, hw]
        rw [ih.1]
        simp [hnee]
      · simp only [Ms.tree, Ms.core, Tree.args_mk]
        exact ih.2
    | false =>
      have hx := Ms.not_wrapper_wchars x hw
      constructor
      · simp only [Ms.tree, Ms.wchars, Ms.core, Tree.name_mk, hw]
        rw [hx.1, hx.2]
        simp
      · simp only [Ms.tree, Ms.core, Tree.args_mk]
        simp [hx.2]
  | .wrapS x => by
    have ih := Ms.tree_shape x
    cases hw : x.isWrapper with
    | true =>
      have hne := Ms.wrapper_wchars_ne_nil x hw
      have hnee : x.wchars.isEmpty = false := by
        simp [List.isEmpty_iff, hne]
      constructor
      · simp only [Ms.tree, Ms.wchars, Ms.core, Tree.name_mk, hw]
        rw [ih.1]
        simp [hnee]
      · simp only [Ms.tree, Ms.core, Tree.args_mk]
        exact ih.2
    | false =>
      have hx := Ms.not_wrapper_wchars x hw
      constructor
      · simp only [Ms.tree, Ms.wchars, Ms.core, Tree.name_mk, hw]
        rw [hx.1, hx.2]
        simp
      · simp only [Ms.tree, Ms.core, Tree.args_mk]
        simp [hx.2]
  | .wrapC x => by
    have ih := Ms.tree_shape x
    cases hw : x.isWrapper with
    | true =>
      have hne := Ms.wrapper_wchars_ne_nil x hw
      have hnee : x.wchars.isEmpty = false := by
        simp [List.isEmpty_iff, hne]
      constructor
      · simp only [Ms.tree, Ms.wchars, Ms.core, Tree.name_mk, hw]
        rw [ih.1]
        simp [hnee]
      · simp only [Ms.tree, Ms.core, Tree.args_mk]
        exact ih.2
    | false =>
      have hx := Ms.not_wrapper_wchars x hw
      constructor
      · simp only [Ms.tree, Ms.wchars, Ms.core, Tree.name_mk, hw]
        rw [hx.1, hx.2]
        simp
      · simp only [Ms.tree, Ms.core, Tree.args_mk]
        simp [hx.2]
  | .wrapD x => by
    have ih := Ms.tree_shape x
    cases hw : x.isWrapper with
    | true =>
      have hne := Ms.wrapper_wchars_ne_nil x hw
      have hnee : x.wchars.isEmpty = false := by
        simp [List.isEmpty_iff, hne]
      constructor
      · simp only [Ms.tree, Ms.wchars, Ms.core, Tree.name_mk, hw]
        rw [ih.1]
        simp [hnee]
      · simp only [Ms.tree, Ms.core, Tree.args_mk]
        exact ih.2
    | false =>
      have hx := Ms.not_wrapper_wchars x hw
      constructor
      · simp only [Ms.tree, Ms.wchars, Ms.core, Tree.name_mk, hw]
        rw [hx.1, hx.2]
        simp
      · simp only [Ms.tree, Ms.core, Tree.args_mk]
        simp [hx.2]
  | .wrapV x => by
    have ih := Ms.tree_shape x
    cases hw : x.isWrapper with
    | true =>
      have hne := Ms.wrapper_wchars_ne_nil x hw
      have hnee : x.wchars.isEmpty = false := by
        simp [List.isEmpty_iff, hne]
      constructor
      · simp only [Ms.tree, Ms.wchars, Ms.core, Tree.name_mk, hw]
        rw [ih.1]
        simp [hnee]
      · simp only [Ms.tree, Ms.core, Tree.args_mk]
        exact ih.2
    | false =>
      have hx := Ms.not_wrapper_wchars x hw
      constructor
      · simp only [Ms.tree, Ms.wchars, Ms.core, Tree.name_mk, hw]
        rw [hx.1, hx.2]
        simp
      · simp only [Ms.tree, Ms.core, Tree.args_mk]
        simp [hx.2]
  | .wrapJ x => by
    have ih := Ms.tree_shape x
    cases hw : x.isWrapper with
    | true =>
      have hne := Ms.wrapper_wchars_ne_nil x hw
      have hnee : x.wchars.isEmpty = false := by
        simp [List.isEmpty_iff, hne]
      constructor
      · simp only [Ms.tree, Ms.wchars, Ms.core, Tree.name_mk, hw]
        rw [ih.1]
        simp [hnee]
      · simp only [Ms.tree, Ms.core, Tree.args_mk]
        exact ih.2
    | false =>
      have hx := Ms.not_wrapper_wchars x hw
      constructor
      · simp only [Ms.tree, Ms.wchars, Ms.core, Tree.name_mk, hw]
        rw [hx.1, hx.2]
        simp
      · simp only [Ms.tree, Ms.core, Tree.args_mk]
        simp [hx.2]
  | .wrapN x => by
    have ih := Ms.tree_shape x
    cases hw : x.isWrapper with
    | true =>
      have hne := Ms.wrapper_wchars_ne_nil x hw
      have hnee : x.wchars.isEmpty = false := by
        simp [List.isEmpty_iff, hne]
      constructor
      · simp only [Ms.tree, Ms.wchars, Ms.core, Tree.name_mk, hw]
        rw [ih.1]
        simp [hnee]
      · simp only [Ms.tree, Ms.core, Tree.args_mk]
        exact ih.2
    | false =>
      have hx := Ms.not_wrapper_wchars x hw
      constructor
      · simp only [Ms.tree, Ms.wchars, Ms.core, Tree.name_mk, hw]
        rw [hx.1, hx.2]
        simp
      · simp only [Ms.tree, Ms.core, Tree.args_mk]
        simp [hx.2]
  | .wrapL x => by
    have ih := Ms.tree_shape x
    cases hw : x.isWrapper with
    | true =>
      have hne := Ms.wrapper_wchars_ne_nil x hw
      have hnee : x.wchars.isEmpty = false := by
        simp [List.isEmpty_iff, hne]
      constructor
      · simp only [Ms.tree, Ms.wchars, Ms.core, Tree.name_mk, hw]
        rw [ih.1]
        simp [hnee]
      · simp only [Ms.tree, Ms.core, Tree.args_mk]
        exact ih.2
    | false =>
      have hx := Ms.not_wrapper_wchars x hw
      constructor
      · simp only [Ms.tree, Ms.wchars, Ms.core, Tree.name_mk, hw]
        rw [hx.1, hx.2]
        simp
      · simp only [Ms.tree, Ms.core, Tree.args_mk]
        simp [hx.2]
  | .wrapU x => by
    have ih := Ms.tree_shape x
    cases hw : x.isWrapper with
    | true =>
      have hne := Ms.wrapper_wchars_ne_nil x hw
      have hnee : x.wchars.isEmpty = false := by
        simp [List.isEmpty_iff, hne]
      constructor
      · simp only [Ms.tree, Ms.wchars, Ms.core, Tree.name_mk, hw]
        rw [ih.1]
        simp [hnee]
      · simp only [Ms.tree, Ms.core, Tree.args_mk]
        exact ih.2
    | false =>
      have hx := Ms.not_wrapper_wchars x hw
      constructor
      · simp only [Ms.tree, Ms.wchars, Ms.core, Tree.name_mk, hw]
        rw [hx.1, hx.2]
        simp
      · simp only [Ms.tree, Ms.core, Tree.args_mk]
        simp [hx.2]
  | .wrapT x => by
    have ih := Ms.tree_shape x
    cases hw : x.isWrapper with
    | true =>
      have hne := Ms.wrapper_wchars_ne_nil x hw
      have hnee : x.wchars.isEmpty = false := by
        simp [List.isEmpty_iff, hne]
      constructor
      · simp only [Ms.tree, Ms.wchars, Ms.core, Tree.name_mk, hw]
        rw [ih.1]
        simp [hnee]
      · simp only [Ms.tree, Ms.core, Tree.args_mk]
        exact ih.2
    | false =>
      have hx := Ms.not_wrapper_wchars x hw
      constructor
      · simp only [Ms.tree, Ms.wchars, Ms.core, Tree.name_mk, hw]
        rw [hx.1, hx.2]
        simp
      · simp only [Ms.tree, Ms.core, Tree.args_mk]
        simp [hx.2]

/-- The core is no larger than the fragment. -/
def Ms.sizeOf_core_le : ∀ m : Ms, sizeOf (Ms.core m) ≤ sizeOf m
  | .pk_k _ => by simp [Ms.core]
  | .pk_h _ => by simp [Ms.core]
  | .older _ => by simp [Ms.core]
  | .after _ => by simp [Ms.core]
  | .sha256 _ => by simp [Ms.core]
  | .hash256 _ => by simp [Ms.core]
  | .ripemd160 _ => by simp [Ms.core]
  | .hash160 _ => by simp [Ms.core]
  | .andor _ _ _ => by simp [Ms.core]
  | .and_v _ _ => by simp [Ms.core]
  | .and_b _ _ => by simp [Ms.core]
  | .or_b _ _ => by simp [Ms.core]
  | .or_c _ _ => by simp [Ms.core]
  | .or_d _ _ => by simp [Ms.core]
  | .or_i _ _ => by simp [Ms.core]
  | .thresh _ _ => by simp [Ms.core]
  | .multi _ _ => by simp [Ms.core]
  | .multi_a _ _ => by simp [Ms.core]
  | .wrapA x => by
    have ih := Ms.sizeOf_core_le x
    simp only [Ms.core]
    have hlt : sizeOf x < sizeOf (Ms.wrapA x) := by simp
    omega
  | .wrapS x => by
    have ih := Ms.sizeOf_core_le x
    simp only [Ms.core]
    have hlt : sizeOf x < sizeOf (Ms.wrapS x) := by simp
    omega
  | .wrapC x => by
    have ih := Ms.sizeOf_core_le x
    simp only [Ms.core]
    have hlt : sizeOf x < sizeOf (Ms.wrapC x) := by simp
    omega
  | .wrapD x => by
    have ih := Ms.sizeOf_core_le x
    simp only [Ms.core]
    have hlt : sizeOf x < sizeOf (Ms.wrapD x) := by simp
    omega
  | .wrapV x => by
    have ih := Ms.sizeOf_core_le x
    simp only [Ms.core]
    have hlt : sizeOf x < sizeOf (Ms.wrapV x) := by simp
    omega
  | .wrapJ x => by
    have ih := Ms.sizeOf_core_le x
    simp only [Ms.core]
    have hlt : sizeOf x < sizeOf (Ms.wrapJ x) := by simp
    omega
  | .wrapN x => by
    have ih := Ms.sizeOf_core_le x
    simp only [Ms.core]
    have hlt : sizeOf x < sizeOf (Ms.wrapN x) := by simp
    omega
  | .wrapL x => by
    have ih := Ms.sizeOf_core_le x
    simp only [Ms.core]
    have hlt : sizeOf x < sizeOf (Ms.wrapL x) := by simp
    omega
  | .wrapU x => by
    have ih := Ms.sizeOf_core_le x
    simp only [Ms.core]
    have hlt : sizeOf x < sizeOf (Ms.wrapU x) := by simp
    omega
  | .wrapT x => by
    have ih := Ms.sizeOf_core_le x
    simp only [Ms.core]
    have hlt : sizeOf x < sizeOf (Ms.wrapT x) := by simp
    omega

/-- Parsing always needs at least two units of fuel. -/
def Ms.pfuel_ge_two : ∀ m : Ms, 2 ≤ Ms.pfuel m
  | .pk_k _ => by
    simp only [Ms.pfuel]
    omega
  | .pk_h _ => by
    simp only [Ms.pfuel]
    omega
  | .older _ => by
    simp only [Ms.pfuel]
    omega
  | .after _ => by
    simp only [Ms.pfuel]
    omega
  | .sha256 _ => by
    simp only [Ms.pfuel]
    omega
  | .hash256 _ => by
    simp only [Ms.pfuel]
    omega
  | .ripemd160 _ => by
    simp only [Ms.pfuel]
    omega
  | .hash160 _ => by
    simp only [Ms.pfuel]
    omega
  | .andor _ _ _ => by
    simp only [Ms.pfuel]
    omega
  | .and_v _ _ => by
    simp only [Ms.pfuel]
    omega
  | .and_b _ _ => by
    simp only [Ms.pfuel]
    omega
  | .or_b _ _ => by
    simp only [Ms.pfuel]
    omega
  | .or_c _ _ => by
    simp only [Ms.pfuel]
    omega
  | .or_d _ _ => by
    simp only [Ms.pfuel]
    omega
  | .or_i _ _ => by
    simp only [Ms.pfuel]
    omega
  | .thresh _ _ => by
    simp only [Ms.pfuel]
    omega
  | .multi _ _ => by
    simp only [Ms.pfuel]
    omega
  | .multi_a _ _ => by
    simp only [Ms.pfuel]
    omega
  | .wrapA x => by simpa [Ms.pfuel] using Ms.pfuel_ge_two x
  | .wrapS x => by simpa [Ms.pfuel] using Ms.pfuel_ge_two x
  | .wrapC x => by simpa [Ms.pfuel] using Ms.pfuel_ge_two x
  | .wrapD x => by simpa [Ms.pfuel] using Ms.pfuel_ge_two x
  | .wrapV x => by simpa [Ms.pfuel] using Ms.pfuel_ge_two x
  | .wrapJ x => by simpa [Ms.pfuel] using Ms.pfuel_ge_two x
  | .wrapN x => by simpa [Ms.pfuel] using Ms.pfuel_ge_two x
  | .wrapL x => by simpa [Ms.pfuel] using Ms.pfuel_ge_two x
  | .wrapU x => by simpa [Ms.pfuel] using Ms.pfuel_ge_two x
  | .wrapT x => by simpa [Ms.pfuel] using Ms.pfuel_ge_two x

/-- A non-wrapper fragment's name is nonempty and colon-free. -/
def Ms.base_name_facts : ∀ m : Ms, m.isWrapper = false →
    (Ms.tree m).name ≠ [] ∧ ':' ∉ (Ms.tree m).name
  | .pk_k _, _ => by
    constructor
    · simp only [Ms.tree, Tree.name_mk]
      decide
    · simp only [Ms.tree, Tree.name_mk]
      decide
  | .pk_h _, _ => by
    constructor
    · simp only [Ms.tree, Tree.name_mk]
      decide
    · simp only [Ms.tree, Tree.name_mk]
      decide
  | .older _, _ => by
    constructor
    · simp only [Ms.tree, Tree.name_mk]
      decide
    · simp only [Ms.tree, Tree.name_mk]
      decide
  | .after _, _ => by
    constructor
    · simp only [Ms.tree, Tree.name_mk]
      decide
    · simp only [Ms.tree, Tree.name_mk]
      decide
  | .sha256 _, _ => by
    constructor
    · simp only [Ms.tree, Tree.name_mk]
      decide
    · simp only [Ms.tree, Tree.name_mk]
      decide
  | .hash256 _, _ => by
    constructor
    · simp only [Ms.tree, Tree.name_mk]
      decide
    · simp only [Ms.tree, Tree.name_mk]
      decide
  | .ripemd160 _, _ => by
    constructor
    · simp only [Ms.tree, Tree.name_mk]
      decide
    · simp only [Ms.tree, Tree.name_mk]
      decide
  | .hash160 _, _ => by
    constructor
    · simp only [Ms.tree, Tree.name_mk]
      decide
    · simp only [Ms.tree, Tree.name_mk]
      decide
  | .andor _ _ _, _ => by
    constructor
    · simp only [Ms.tree, Tree.name_mk]
      decide
    · simp only [Ms.tree, Tree.name_mk]
      decide
  | .and_v _ _, _ => by
    constructor
    · simp only [Ms.tree, Tree.name_mk]
      decide
    · simp only [Ms.tree, Tree.name_mk]
      decide
  | .and_b _ _, _ => by
    constructor
    · simp only [Ms.tree, Tree.name_mk]
      decide
    · simp only [Ms.tree, Tree.name_mk]
      decide
  | .or_b _ _, _ => by
    constructor
    · simp only [Ms.tree, Tree.name_mk]
      decide
    · simp only [Ms.tree, Tree.name_mk]
      decide
  | .or_c _ _, _ => by
    constructor
    · simp only [Ms.tree, Tree.name_mk]
      decide
    · simp only [Ms.tree, Tree.name_mk]
      decide
  | .or_d _ _, _ => by
    constructor
    · simp only [Ms.tree, Tree.name_mk]
      decide
    · simp only [Ms.tree, Tree.name_mk]
      decide
  | .or_i _ _, _ => by
    constructor
    · simp only [Ms.tree, Tree.name_mk]
      decide
    · simp only [Ms.tree, Tree.name_mk]
      decide
  | .thresh _ _, _ => by
    constructor
    · simp only [Ms.tree, Tree.name_mk]
      decide
    · simp only [Ms.tree, Tree.name_mk]
      decide
  | .multi _ _, _ => by
    constructor
    · simp only [Ms.tree, Tree.name_mk]
      decide
    · simp only [Ms.tree, Tree.name_mk]
      decide
  | .multi_a _ _, _ => by
    constructor
    · simp only [Ms.tree, Tree.name_mk]
      decide
    · simp only [Ms.tree, Tree.name_mk]
      decide
  | .wrapA _, hw => by simp [Ms.isWrapper] at hw
  | .wrapS _, hw => by simp [Ms.isWrapper] at hw
  | .wrapC _, hw => by simp [Ms.isWrapper] at hw
  | .wrapD _, hw => by simp [Ms.isWrapper] at hw
  | .wrapV _, hw => by simp [Ms.isWrapper] at hw
  | .wrapJ _, hw => by simp [Ms.isWrapper] at hw
  | .wrapN _, hw => by simp [Ms.isWrapper] at hw
  | .wrapL _, hw => by simp [Ms.isWrapper] at hw
  | .wrapU _, hw => by simp [Ms.isWrapper] at hw
  | .wrapT _, hw => by simp [Ms.isWrapper] at hw

theorem keysOfTrees_map (keys : List (List Char)) (h : ∀ kk ∈ keys, validAtom kk = true) :
    keysOfTrees (keys.map (fun kk => Tree.mk kk [])) = .ok keys := by
  induction keys with
  | nil => rfl
  | cons k ks ih =>
    have hk : validAtom k = true := h k (List.mem_cons_self k ks)
    have hks : ∀ kk ∈ ks, validAtom kk = true := fun kk hkk => h kk (List.mem_cons_of_mem k hkk)
    simp only [List.map_cons, keysOfTrees, hk, if_true, ih hks]

theorem numOfTree_natToChars (v : Nat) (hv : v < 2 ^ 32) :
    numOfTree (.mk (natToChars v) []) = .ok v := by
  simp [numOfTree, parseNatChars_natToChars v hv]

/-- The miniscript parse inverts the display, by strong induction on fragment
size: the base-fragment, whole-fragment and fragment-list statements are
carried together. -/
theorem Ms.roundtrip_all : ∀ n : Nat,
    (∀ m : Ms, sizeOf m ≤ n → m.isWrapper = false → Ms.valid m →
      ∀ fuel : Nat, Ms.pfuel m ≤ fuel + 1 →
        Ms.fromBase fuel (Ms.tree m).name (Ms.tree m).args = .ok m)
    ∧ (∀ m : Ms, sizeOf m ≤ n → Ms.valid m →
      ∀ fuel : Nat, Ms.pfuel m ≤ fuel →
        Ms.fromTree fuel (Ms.tree m) = .ok m)
    ∧ (∀ ms : List Ms, sizeOf ms ≤ n → Ms.validList ms →
      ∀ fuel : Nat, Ms.pfuelList ms ≤ fuel →
        Ms.fromTreeList fuel (Ms.treeList ms) = .ok ms) := by
  intro n
  induction n using Nat.strong_induction_on with
  | _ n ih =>
    have hbase : ∀ m : Ms, sizeOf m ≤ n → m.isWrapper = false → Ms.valid m →
        ∀ fuel : Nat, Ms.pfuel m ≤ fuel + 1 →
          Ms.fromBase fuel (Ms.tree m).name (Ms.tree m).args = .ok m := by
      intro m hsz hw hval fuel hfuel
      cases m with
      | pk_k a =>
        cases fuel with
        | zero =>
          simp only [Ms.pfuel] at hfuel
          omega
        | succ g =>
          have hk : validAtom a = true := hval
          have htr : Ms.tree (Ms.pk_k a) = .mk "pk_k".toList [.mk a []] := by simp [Ms.tree]
          rw [htr]
          simp only [Tree.name_mk, Tree.args_mk]
          simp only [Ms.fromBase, reduceIte]
          simp [hk]
      | pk_h a =>
        cases fuel with
        | zero =>
          simp only [Ms.pfuel] at hfuel
          omega
        | succ g =>
          have hk : validAtom a = true := hval
          have htr : Ms.tree (Ms.pk_h a) = .mk "pk_h".toList [.mk a []] := by simp [Ms.tree]
          rw [htr]
          simp only [Tree.name_mk, Tree.args_mk]
          simp only [Ms.fromBase, reduceIte]
          simp [hk]
      | sha256 a =>
        cases fuel with
        | zero =>
          simp only [Ms.pfuel] at hfuel
          omega
        | succ g =>
          have hk : validAtom a = true := hval
          have htr : Ms.tree (Ms.sha256 a) = .mk "sha256".toList [.mk a []] := by simp [Ms.tree]
          rw [htr]
          simp only [Tree.name_mk, Tree.args_mk]
          simp only [Ms.fromBase, reduceIte]
          simp [hk]
      | hash256 a =>
        cases fuel with
        | zero =>
          simp only [Ms.pfuel] at hfuel
          omega
        | succ g =>
          have hk : validAtom a = true := hval
          have htr : Ms.tree (Ms.hash256 a) = .mk "hash256".toList [.mk a []] := by simp [Ms.tree]
          rw [htr]
          simp only [Tree.name_mk, Tree.args_mk]
          simp only [Ms.fromBase, reduceIte]
          simp [hk]
      | ripemd160 a =>
        cases fuel with
        | zero =>
          simp only [Ms.pfuel] at hfuel
          omega
        | succ g =>
          have hk : validAtom a = true := hval
          have htr : Ms.tree (Ms.ripemd160 a) = .mk "ripemd160".toList [.mk a []] := by simp [Ms.tree]
          rw [htr]
          simp only [Tree.name_mk, Tree.args_mk]
          simp only [Ms.fromBase, reduceIte]
          simp [hk]
      | hash160 a =>
        cases fuel with
        | zero =>
          simp only [Ms.pfuel] at hfuel
          omega
        | succ g =>
          have hk : validAtom a = true := hval
          have htr : Ms.tree (Ms.hash160 a) = .mk "hash160".toList [.mk a []] := by simp [Ms.tree]
          rw [htr]
          simp only [Tree.name_mk, Tree.args_mk]
          simp only [Ms.fromBase, reduceIte]
          simp [hk]
      | older v =>
        cases fuel with
        | zero =>
          simp only [Ms.pfuel] at hfuel
          omega
        | succ g =>
          have hv : v < 2 ^ 32 := hval
          have htr : Ms.tree (Ms.older v) = .mk "older".toList [.mk (natToChars v) []] := by simp [Ms.tree]
          rw [htr]
          simp only [Tree.name_mk, Tree.args_mk]
          simp only [Ms.fromBase, reduceIte]
          simp [numOfTree_natToChars v hv]
      | after v =>
        cases fuel with
        | zero =>
          simp only [Ms.pfuel] at hfuel
          omega
        | succ g =>
          have hv : v < 2 ^ 32 := hval
          have htr : Ms.tree (Ms.after v) = .mk "after".toList [.mk (natToChars v) []] := by simp [Ms.tree]
          rw [htr]
          simp only [Tree.name_mk, Tree.args_mk]
          simp only [Ms.fromBase, reduceIte]
          simp [numOfTree_natToChars v hv]
      | andor x y z =>
        cases fuel with
        | zero =>
          simp only [Ms.pfuel] at hfuel
          omega
        | succ g =>
          obtain ⟨hvx, hvy, hvz⟩ : Ms.valid x ∧ Ms.valid y ∧ Ms.valid z := hval
          simp only [Ms.pfuel] at hfuel
          have hsm : sizeOf (Ms.andor x y z) = 1 + sizeOf x + sizeOf y + sizeOf z := by simp
          have hx := (ih (sizeOf x) (by omega)).2.1 x (le_refl _) hvx g (by omega)
          have hy := (ih (sizeOf y) (by omega)).2.1 y (le_refl _) hvy g (by omega)
          have hz := (ih (sizeOf z) (by omega)).2.1 z (le_refl _) hvz g (by omega)
          have htr : Ms.tree (Ms.andor x y z)
              = .mk "andor".toList [Ms.tree x, Ms.tree y, Ms.tree z] := by simp [Ms.tree]
          rw [htr]
          simp only [Tree.name_mk, Tree.args_mk]
          simp only [Ms.fromBase, reduceIte]
          simp [hx, hy, hz]
      | and_v x y =>
        cases fuel with
        | zero =>
          simp only [Ms.pfuel] at hfuel
          omega
        | succ g =>
          obtain ⟨hvx, hvy⟩ : Ms.valid x ∧ Ms.valid y := hval
          simp only [Ms.pfuel] at hfuel
          have hsm : sizeOf (Ms.and_v x y) = 1 + sizeOf x + sizeOf y := by simp
          cases g with
          | zero => omega
          | succ hh =>
            have hx := (ih (sizeOf x) (by omega)).2.1 x (le_refl _) hvx hh (by omega)
            have hy := (ih (sizeOf y) (by omega)).2.1 y (le_refl _) hvy hh (by omega)
            have htr : Ms.tree (Ms.and_v x y) = .mk "and_v".toList [Ms.tree x, Ms.tree y] := by
              simp [Ms.tree]
            rw [htr]
            simp only [Tree.name_mk, Tree.args_mk]
            simp only [Ms.fromBase, reduceIte]
            simp only [Ms.fromBin]
            simp [hx, hy]
      | and_b x y =>
        cases fuel with
        | zero =>
          simp only [Ms.pfuel] at hfuel
          omega
        | succ g =>
          obtain ⟨hvx, hvy⟩ : Ms.valid x ∧ Ms.valid y := hval
          simp only [Ms.pfuel] at hfuel
          have hsm : sizeOf (Ms.and_b x y) = 1 + sizeOf x + sizeOf y := by simp
          cases g with
          | zero => omega
          | succ hh =>
            have hx := (ih (sizeOf x) (by omega)).2.1 x (le_refl _) hvx hh (by omega)
            have hy := (ih (sizeOf y) (by omega)).2.1 y (le_refl _) hvy hh (by omega)
            have htr : Ms.tree (Ms.and_b x y) = .mk "and_b".toList [Ms.tree x, Ms.tree y] := by
              simp [Ms.tree]
            rw [htr]
            simp only [Tree.name_mk, Tree.args_mk]
            simp only [Ms.fromBase, reduceIte]
            simp only [Ms.fromBin]
            simp [hx, hy]
      | or_b x y =>
        cases fuel with
        | zero =>
          simp only [Ms.pfuel] at hfuel
          omega
        | succ g =>
          obtain ⟨hvx, hvy⟩ : Ms.valid x ∧ Ms.valid y := hval
          simp only [Ms.pfuel] at hfuel
          have hsm : sizeOf (Ms.or_b x y) = 1 + sizeOf x + sizeOf y := by simp
          cases g with
          | zero => omega
          | succ hh =>
            have hx := (ih (sizeOf x) (by omega)).2.1 x (le_refl _) hvx hh (by omega)
            have hy := (ih (sizeOf y) (by omega)).2.1 y (le_refl _) hvy hh (by omega)
            have htr : Ms.tree (Ms.or_b x y) = .mk "or_b".toList [Ms.tree x, Ms.tree y] := by
              simp [Ms.tree]
            rw [htr]
            simp only [Tree.name_mk, Tree.args_mk]
            simp only [Ms.fromBase, reduceIte]
            simp only [Ms.fromBin]
            simp [hx, hy]
      | or_c x y =>
        cases fuel with
        | zero =>
          simp only [Ms.pfuel] at hfuel
          omega
        | succ g =>
          obtain ⟨hvx, hvy⟩ : Ms.valid x ∧ Ms.valid y := hval
          simp only [Ms.pfuel] at hfuel
          have hsm : sizeOf (Ms.or_c x y) = 1 + sizeOf x + sizeOf y := by simp
          cases g with
          | zero => omega
          | succ hh =>
            have hx := (ih (sizeOf x) (by omega)).2.1 x (le_refl _) hvx hh (by omega)
            have hy := (ih (sizeOf y) (by omega)).2.1 y (le_refl _) hvy hh (by omega)
            have htr : Ms.tree (Ms.or_c x y) = .mk "or_c".toList [Ms.tree x, Ms.tree y] := by
              simp [Ms.tree]
            rw [htr]
            simp only [Tree.name_mk, Tree.args_mk]
            simp only [Ms.fromBase, reduceIte]
            simp only [Ms.fromBin]
            simp [hx, hy]
      | or_d x y =>
        cases fuel with
        | zero =>
          simp only [Ms.pfuel] at hfuel
          omega
        | succ g =>
          obtain ⟨hvx, hvy⟩ : Ms.valid x ∧ Ms.valid y := hval
          simp only [Ms.pfuel] at hfuel
          have hsm : sizeOf (Ms.or_d x y) = 1 + sizeOf x + sizeOf y := by simp
          cases g with
          | zero => omega
          | succ hh =>
            have hx := (ih (sizeOf x) (by omega)).2.1 x (le_refl _) hvx hh (by omega)
            have hy := (ih (sizeOf y) (by omega)).2.1 y (le_refl _) hvy hh (by omega)
            have htr : Ms.tree (Ms.or_d x y) = .mk "or_d".toList [Ms.tree x, Ms.tree y] := by
              simp [Ms.tree]
            rw [htr]
            simp only [Tree.name_mk, Tree.args_mk]
            simp only [Ms.fromBase, reduceIte]
            simp only [Ms.fromBin]
            simp [hx, hy]
      | or_i x y =>
        cases fuel with
        | zero =>
          simp only [Ms.pfuel] at hfuel
          omega
        | succ g =>
          obtain ⟨hvx, hvy⟩ : Ms.valid x ∧ Ms.valid y := hval
          simp only [Ms.pfuel] at hfuel
          have hsm : sizeOf (Ms.or_i x y) = 1 + sizeOf x + sizeOf y := by simp
          cases g with
          | zero => omega
          | succ hh =>
            have hx := (ih (sizeOf x) (by omega)).2.1 x (le_refl _) hvx hh (by omega)
            have hy := (ih (sizeOf y) (by omega)).2.1 y (le_refl _) hvy hh (by omega)
            have htr : Ms.tree (Ms.or_i x y) = .mk "or_i".toList [Ms.tree x, Ms.tree y] := by
              simp [Ms.tree]
            rw [htr]
            simp only [Tree.name_mk, Tree.args_mk]
            simp only [Ms.fromBase, reduceIte]
            simp only [Ms.fromBin]
            simp [hx, hy]
      | thresh k subs =>
        cases fuel with
        | zero =>
          simp only [Ms.pfuel] at hfuel
          omega
        | succ g =>
          obtain ⟨hk32, hvsubs⟩ : k < 2 ^ 32 ∧ Ms.validList subs := hval
          simp only [Ms.pfuel] at hfuel
          have hsm : sizeOf (Ms.thresh k subs) = 1 + sizeOf k + sizeOf subs := by simp
          have hsubs := (ih (sizeOf subs) (by omega)).2.2 subs (le_refl _) hvsubs g (by omega)
          have htr : Ms.tree (Ms.thresh k subs)
              = .mk "thresh".toList (.mk (natToChars k) [] :: Ms.treeList subs) := by
            simp [Ms.tree]
          rw [htr]
          simp only [Tree.name_mk, Tree.args_mk]
          simp only [Ms.fromBase, reduceIte]
          simp [numOfTree_natToChars k hk32, hsubs]
      | multi k keys =>
        cases fuel with
        | zero =>
          simp only [Ms.pfuel] at hfuel
          omega
        | succ g =>
          obtain ⟨hk32, hkeys⟩ : k < 2 ^ 32 ∧ ∀ kk ∈ keys, validAtom kk = true := hval
          have htr : Ms.tree (Ms.multi k keys)
              = .mk "multi".toList (.mk (natToChars k) [] :: keys.map (fun kk => Tree.mk kk [])) := by
            simp [Ms.tree]
          rw [htr]
          simp only [Tree.name_mk, Tree.args_mk]
          simp only [Ms.fromBase, reduceIte]
          simp [numOfTree_natToChars k hk32, keysOfTrees_map keys hkeys]
      | multi_a k keys =>
        cases fuel with
        | zero =>
          simp only [Ms.pfuel] at hfuel
          omega
        | succ g =>
          obtain ⟨hk32, hkeys⟩ : k < 2 ^ 32 ∧ ∀ kk ∈ keys, validAtom kk = true := hval
          have htr : Ms.tree (Ms.multi_a k keys)
              = .mk "multi_a".toList (.mk (natToChars k) [] :: keys.map (fun kk => Tree.mk kk [])) := by
            simp [Ms.tree]
          rw [htr]
          simp only [Tree.name_mk, Tree.args_mk]
          simp only [Ms.fromBase, reduceIte]
          simp [numOfTree_natToChars k hk32, keysOfTrees_map keys hkeys]
      | wrapA x => simp [Ms.isWrapper] at hw
      | wrapS x => simp [Ms.isWrapper] at hw
      | wrapC x => simp [Ms.isWrapper] at hw
      | wrapD x => simp [Ms.isWrapper] at hw
      | wrapV x => simp [Ms.isWrapper] at hw
      | wrapJ x => simp [Ms.isWrapper] at hw
      | wrapN x => simp [Ms.isWrapper] at hw
      | wrapL x => simp [Ms.isWrapper] at hw
      | wrapU x => simp [Ms.isWrapper] at hw
      | wrapT x => simp [Ms.isWrapper] at hw
    have htree : ∀ m : Ms, sizeOf m ≤ n → Ms.valid m →
        ∀ fuel : Nat, Ms.pfuel m ≤ fuel → Ms.fromTree fuel (Ms.tree m) = .ok m := by
      intro m hsz hval fuel hfuel
      have hp2 := Ms.pfuel_ge_two m
      cases fuel with
      | zero => omega
      | succ f =>
        rw [← Tree.eta (Ms.tree m)]
        simp only [Ms.fromTree]
        have hshape := Ms.tree_shape m
        cases hw : m.isWrapper with
        | false =>
          have hbn := Ms.base_name_facts m hw
          rw [splitColon_of_not_mem _ hbn.2]
          exact hbase m hsz hw hval f (by omega)
        | true =>
          have hwne := Ms.wrapper_wchars_ne_nil m hw
          have hnee : m.wchars.isEmpty = false := by
            simp [List.isEmpty_iff, hwne]
          have hcnw := Ms.core_not_wrapper m
          have hcv := Ms.core_valid m hval
          have hszc : sizeOf (Ms.core m) ≤ n := le_trans (Ms.sizeOf_core_le m) hsz
          have hpc : Ms.pfuel (Ms.core m) ≤ f + 1 := by
            rw [Ms.pfuel_core m]
            omega
          have hb := hbase (Ms.core m) hszc hcnw hcv f hpc
          have hsep : (if m.wchars.isEmpty then ([] : List Char) else [':']) = [':'] := by
            simp [hnee]
          have hassoc : m.wchars ++ [':'] ++ (Ms.tree (Ms.core m)).name
              = m.wchars ++ ':' :: (Ms.tree (Ms.core m)).name := by simp
          rw [hshape.1, hsep, hassoc, splitColon_append _ _ (Ms.wchars_colon_free m)]
          simp only [hnee, Bool.false_eq_true, if_false, hshape.2, hb]
          exact Ms.applyWraps_wchars m
    have hlist : ∀ ms : List Ms, sizeOf ms ≤ n → Ms.validList ms →
        ∀ fuel : Nat, Ms.pfuelList ms ≤ fuel →
          Ms.fromTreeList fuel (Ms.treeList ms) = .ok ms := by
      intro ms hsz hval fuel hfuel
      have htlnil : Ms.treeList [] = [] := by simp [Ms.treeList]
      cases ms with
      | nil =>
        rw [htlnil]
        cases fuel with
        | zero => rfl
        | succ u => rfl
      | cons m rest =>
        obtain ⟨hvm, hvrest⟩ : Ms.valid m ∧ Ms.validList rest := hval
        simp only [Ms.pfuelList] at hfuel
        have hp2 := Ms.pfuel_ge_two m
        cases fuel with
        | zero => omega
        | succ u =>
          have hsm : sizeOf (m :: rest) = 1 + sizeOf m + sizeOf rest := by simp
          have hm := htree m (by omega) hvm u (by omega)
          have hrest := (ih (sizeOf rest) (by omega)).2.2 rest (le_refl _) hvrest u (by omega)
          have htl : Ms.treeList (m :: rest) = Ms.tree m :: Ms.treeList rest := by
            simp [Ms.treeList]
          rw [htl]
          show (match Ms.fromTree u (Ms.tree m) with
            | .error e => .error e
            | .ok mm =>
              match Ms.fromTreeList u (Ms.treeList rest) with
              | .error e => .error e
              | .ok mms => .ok (mm :: mms)) = Except.ok (m :: rest)
          rw [hm, hrest]
    exact ⟨hbase, htree, hlist⟩

/-- Round trip for one valid fragment, with any sufficient fuel. -/
theorem Ms.fromTree_tree (m : Ms) (hval : Ms.valid m) (fuel : Nat)
    (hfuel : Ms.pfuel m ≤ fuel) : Ms.fromTree fuel (Ms.tree m) = .ok m :=
  (Ms.roundtrip_all (sizeOf m)).2.1 m (le_refl _) hval fuel hfuel

/-! ### Wellformed names and rendered strings -/

/-- A character allowed in a tree node's name: in the checksum input alphabet,
not a tokenizer delimiter, not `#`. -/
def goodNameChar (c : Char) : Bool :=
  decide (c ∈ INPUT_CHARSET) && !isDelim c && !(c = '#')

mutual

/-- A tree whose names are nonempty and drawn from the allowed characters. -/
def Tree.wf : Tree → Prop
  | .mk n args => n ≠ [] ∧ (∀ c ∈ n, goodNameChar c = true) ∧ Tree.wfArgs args

/-- `Tree.wf` on every member. -/
def Tree.wfArgs : List Tree → Prop
  | [] => True
  | t :: ts => Tree.wf t ∧ Tree.wfArgs ts

end

theorem goodNameChar_not_delim (c : Char) (h : goodNameChar c = true) : isDelim c = false := by
  simp only [goodNameChar, Bool.and_eq_true, Bool.not_eq_true'] at h
  exact h.1.2

theorem goodNameChar_mem_charset (c : Char) (h : goodNameChar c = true) :
    c ∈ INPUT_CHARSET := by
  simp only [goodNameChar, Bool.and_eq_true] at h
  exact of_decide_eq_true h.1.1

theorem goodNameChar_ne_hash (c : Char) (h : goodNameChar c = true) : c ≠ '#' := by
  simp only [goodNameChar, Bool.and_eq_true, Bool.not_eq_true', decide_eq_false_iff_not] at h
  exact h.2

mutual

/-- Wellformed trees tokenize. -/
def Tree.wf_good : ∀ t : Tree, Tree.wf t → Tree.good t
  | .mk n args, h => by
    obtain ⟨h1, h2, h3⟩ : n ≠ [] ∧ (∀ c ∈ n, goodNameChar c = true) ∧ Tree.wfArgs args := h
    exact ⟨h1, fun c hc => goodNameChar_not_delim c (h2 c hc), Tree.wfArgs_good args h3⟩

/-- `Tree.wf_good` on every member. -/
def Tree.wfArgs_good : ∀ ts : List Tree, Tree.wfArgs ts → Tree.goodArgs ts
  | [], _ => trivial
  | t :: ts, h => by
    obtain ⟨h1, h2⟩ : Tree.wf t ∧ Tree.wfArgs ts := h
    exact ⟨Tree.wf_good t h1, Tree.wfArgs_good ts h2⟩

end

/-- A rendered character is either a delimiter or a character of some name. -/
theorem charsetChar_delims : '(' ∈ INPUT_CHARSET ∧ ')' ∈ INPUT_CHARSET ∧ ',' ∈ INPUT_CHARSET := by
  decide

mutual

/-- Every character of a wellformed tree's rendering is in the checksum input
alphabet and is not `#`. -/
def Tree.render_chars : ∀ t : Tree, Tree.wf t →
    ∀ c ∈ Tree.render t, c ∈ INPUT_CHARSET ∧ c ≠ '#'
  | .mk n [], h => by
    obtain ⟨h1, h2, h3⟩ : n ≠ [] ∧ (∀ c ∈ n, goodNameChar c = true) ∧ Tree.wfArgs [] := h
    intro c hc
    have hcn : c ∈ n := by simpa [Tree.render] using hc
    exact ⟨goodNameChar_mem_charset c (h2 c hcn), goodNameChar_ne_hash c (h2 c hcn)⟩
  | .mk n (a :: as), h => by
    obtain ⟨h1, h2, h3⟩ : n ≠ [] ∧ (∀ c ∈ n, goodNameChar c = true) ∧ Tree.wfArgs (a :: as) := h
    obtain ⟨ha, has⟩ := h3
    intro c hc
    simp only [Tree.render, List.mem_append, List.mem_cons, List.mem_singleton,
      List.not_mem_nil, or_false] at hc
    rcases hc with (hn | rfl | hina | hinas) | rfl
    · exact ⟨goodNameChar_mem_charset c (h2 c hn), goodNameChar_ne_hash c (h2 c hn)⟩
    · exact ⟨charsetChar_delims.1, by decide⟩
    · exact Tree.render_chars a ha c hina
    · exact Tree.renderArgs_chars as has c hinas
    · exact ⟨charsetChar_delims.2.1, by decide⟩

/-- Same for rendered argument tails. -/
def Tree.renderArgs_chars : ∀ ts : List Tree, Tree.wfArgs ts →
    ∀ c ∈ Tree.renderArgs ts, c ∈ INPUT_CHARSET ∧ c ≠ '#'
  | [], _ => by
    intro c hc
    simp [Tree.renderArgs] at hc
  | a :: as, h => by
    obtain ⟨ha, has⟩ : Tree.wf a ∧ Tree.wfArgs as := h
    intro c hc
    simp only [Tree.renderArgs, List.mem_cons, List.mem_append] at hc
    rcases hc with (rfl | hin) | hinas
    · exact ⟨charsetChar_delims.2.2, by decide⟩
    · exact Tree.render_chars a ha c hin
    · exact Tree.renderArgs_chars as has c hinas

end

theorem atom_goodName : ∀ c ∈ atomChars, goodNameChar c = true := by decide

theorem validAtom_good (s : List Char) (h : validAtom s = true) :
    s ≠ [] ∧ ∀ c ∈ s, goodNameChar c = true := by
  simp only [validAtom, Bool.and_eq_true, List.all_eq_true, Bool.not_eq_true'] at h
  refine ⟨by simpa [List.isEmpty_iff] using h.1, fun c hc => ?_⟩
  exact atom_goodName c (of_decide_eq_true (h.2 c hc))

theorem natToChars_goodName (n : Nat) : ∀ c ∈ natToChars n, goodNameChar c = true := by
  intro c hc
  by_cases h0 : n = 0
  · subst h0
    have hcc : c = '0' := by simpa [natToChars] using hc
    subst hcc
    decide
  · simp only [natToChars, if_neg h0, List.mem_map, List.mem_reverse] at hc
    obtain ⟨d, hd, rfl⟩ := hc
    have hd10 : d < 10 := Nat.digits_lt_base (by norm_num) hd
    interval_cases d <;> decide

theorem Tree.wf_def (t : Tree) :
    Tree.wf t ↔ (t.name ≠ [] ∧ (∀ c ∈ t.name, goodNameChar c = true) ∧ Tree.wfArgs t.args) := by
  cases t with
  | mk n args => exact Iff.rfl

theorem Tree.render_length (n : List Char) (args : List Tree) :
    (Tree.render (.mk n args)).length = n.length +
      (match args with
       | [] => 0
       | a :: as => 2 + (Tree.render a).length + (Tree.renderArgs as).length) := by
  cases args with
  | nil => simp [Tree.render]
  | cons a as =>
    simp [Tree.render]
    omega

theorem keysTrees_wf (keys : List (List Char)) (h : ∀ kk ∈ keys, validAtom kk = true) :
    Tree.wfArgs (keys.map (fun kk => Tree.mk kk [])) := by
  induction keys with
  | nil => trivial
  | cons k ks ih =>
    have hk := validAtom_good k (h k (List.mem_cons_self k ks))
    exact ⟨⟨hk.1, hk.2, trivial⟩,
      ih (fun kk hkk => h kk (List.mem_cons_of_mem k hkk))⟩

mutual

/-- A valid fragment's tree is wellformed. -/
def Ms.tree_wf : ∀ m : Ms, Ms.valid m → Tree.wf (Ms.tree m)
  | .pk_k a, h => by
    have ha := validAtom_good a h
    have htr : Ms.tree (Ms.pk_k a) = .mk "pk_k".toList [.mk a []] := by simp [Ms.tree]
    rw [htr]
    exact ⟨by decide, by decide, ⟨ha.1, ha.2, trivial⟩, trivial⟩
  | .pk_h a, h => by
    have ha := validAtom_good a h
    have htr : Ms.tree (Ms.pk_h a) = .mk "pk_h".toList [.mk a []] := by simp [Ms.tree]
    rw [htr]
    exact ⟨by decide, by decide, ⟨ha.1, ha.2, trivial⟩, trivial⟩
  | .sha256 a, h => by
    have ha := validAtom_good a h
    have htr : Ms.tree (Ms.sha256 a) = .mk "sha256".toList [.mk a []] := by simp [Ms.tree]
    rw [htr]
    exact ⟨by decide, by decide, ⟨ha.1, ha.2, trivial⟩, trivial⟩
  | .hash256 a, h => by
    have ha := validAtom_good a h
    have htr : Ms.tree (Ms.hash256 a) = .mk "hash256".toList [.mk a []] := by simp [Ms.tree]
    rw [htr]
    exact ⟨by decide, by decide, ⟨ha.1, ha.2, trivial⟩, trivial⟩
  | .ripemd160 a, h => by
    have ha := validAtom_good a h
    have htr : Ms.tree (Ms.ripemd160 a) = .mk "ripemd160".toList [.mk a []] := by simp [Ms.tree]
    rw [htr]
    exact ⟨by decide, by decide, ⟨ha.1, ha.2, trivial⟩, trivial⟩
  | .hash160 a, h => by
    have ha := validAtom_good a h
    have htr : Ms.tree (Ms.hash160 a) = .mk "hash160".toList [.mk a []] := by simp [Ms.tree]
    rw [htr]
    exact ⟨by decide, by decide, ⟨ha.1, ha.2, trivial⟩, trivial⟩
  | .older v, _ => by
    have htr : Ms.tree (Ms.older v) = .mk "older".toList [.mk (natToChars v) []] := by simp [Ms.tree]
    rw [htr]
    exact ⟨by decide, by decide, ⟨natToChars_ne_nil v, natToChars_goodName v, trivial⟩, trivial⟩
  | .after v, _ => by
    have htr : Ms.tree (Ms.after v) = .mk "after".toList [.mk (natToChars v) []] := by simp [Ms.tree]
    rw [htr]
    exact ⟨by decide, by decide, ⟨natToChars_ne_nil v, natToChars_goodName v, trivial⟩, trivial⟩
  | .andor x y z, h => by
    obtain ⟨hx, hy, hz⟩ : Ms.valid x ∧ Ms.valid y ∧ Ms.valid z := h
    have htr : Ms.tree (Ms.andor x y z)
        = .mk "andor".toList [Ms.tree x, Ms.tree y, Ms.tree z] := by simp [Ms.tree]
    rw [htr]
    exact ⟨by decide, by decide, Ms.tree_wf x hx, Ms.tree_wf y hy, Ms.tree_wf z hz, trivial⟩
  | .and_v x y, h => by
    obtain ⟨hx, hy⟩ : Ms.valid x ∧ Ms.valid y := h
    have htr : Ms.tree (Ms.and_v x y) = .mk "and_v".toList [Ms.tree x, Ms.tree y] := by simp [Ms.tree]
    rw [htr]
    exact ⟨by decide, by decide, Ms.tree_wf x hx, Ms.tree_wf y hy, trivial⟩
  | .and_b x y, h => by
    obtain ⟨hx, hy⟩ : Ms.valid x ∧ Ms.valid y := h
    have htr : Ms.tree (Ms.and_b x y) = .mk "and_b".toList [Ms.tree x, Ms.tree y] := by simp [Ms.tree]
    rw [htr]
    exact ⟨by decide, by decide, Ms.tree_wf x hx, Ms.tree_wf y hy, trivial⟩
  | .or_b x y, h => by
    obtain ⟨hx, hy⟩ : Ms.valid x ∧ Ms.valid y := h
    have htr : Ms.tree (Ms.or_b x y) = .mk "or_b".toList [Ms.tree x, Ms.tree y] := by simp [Ms.tree]
    rw [htr]
    exact ⟨by decide, by decide, Ms.tree_wf x hx, Ms.tree_wf y hy, trivial⟩
  | .or_c x y, h => by
    obtain ⟨hx, hy⟩ : Ms.valid x ∧ Ms.valid y := h
    have htr : Ms.tree (Ms.or_c x y) = .mk "or_c".toList [Ms.tree x, Ms.tree y] := by simp [Ms.tree]
    rw [htr]
    exact ⟨by decide, by decide, Ms.tree_wf x hx, Ms.tree_wf y hy, trivial⟩
  | .or_d x y, h => by
    obtain ⟨hx, hy⟩ : Ms.valid x ∧ Ms.valid y := h
    have htr : Ms.tree (Ms.or_d x y) = .mk "or_d".toList [Ms.tree x, Ms.tree y] := by simp [Ms.tree]
    rw [htr]
    exact ⟨by decide, by decide, Ms.tree_wf x hx, Ms.tree_wf y hy, trivial⟩
  | .or_i x y, h => by
    obtain ⟨hx, hy⟩ : Ms.valid x ∧ Ms.valid y := h
    have htr : Ms.tree (Ms.or_i x y) = .mk "or_i".toList [Ms.tree x, Ms.tree y] := by simp [Ms.tree]
    rw [htr]
    exact ⟨by decide, by decide, Ms.tree_wf x hx, Ms.tree_wf y hy, trivial⟩
  | .thresh k subs, h => by
    obtain ⟨_, hsubs⟩ : k < 2 ^ 32 ∧ Ms.validList subs := h
    have htr : Ms.tree (Ms.thresh k subs)
        = .mk "thresh".toList (.mk (natToChars k) [] :: Ms.treeList subs) := by simp [Ms.tree]
    rw [htr]
    exact ⟨by decide, by decide, ⟨natToChars_ne_nil k, natToChars_goodName k, trivial⟩,
      Ms.treeList_wf subs hsubs⟩
  | .multi k keys, h => by
    obtain ⟨_, hkeys⟩ : k < 2 ^ 32 ∧ ∀ kk ∈ keys, validAtom kk = true := h
    have htr : Ms.tree (Ms.multi k keys)
        = .mk "multi".toList (.mk (natToChars k) [] :: keys.map (fun kk => Tree.mk kk [])) := by
      simp [Ms.tree]
    rw [htr]
    exact ⟨by decide, by decide, ⟨natToChars_ne_nil k, natToChars_goodName k, trivial⟩,
      keysTrees_wf keys hkeys⟩
  | .multi_a k keys, h => by
    obtain ⟨_, hkeys⟩ : k < 2 ^ 32 ∧ ∀ kk ∈ keys, validAtom kk = true := h
    have htr : Ms.tree (Ms.multi_a k keys)
        = .mk "multi_a".toList (.mk (natToChars k) [] :: keys.map (fun kk => Tree.mk kk [])) := by
      simp [Ms.tree]
    rw [htr]
    exact ⟨by decide, by decide, ⟨natToChars_ne_nil k, natToChars_goodName k, trivial⟩,
      keysTrees_wf keys hkeys⟩
  | .wrapA x, h => by
    have ih := Ms.tree_wf x h
    rw [Tree.wf_def] at ih
    by_cases hw : x.isWrapper
    · have htr : Ms.tree (Ms.wrapA x) = .mk ('a' :: (Ms.tree x).name) ((Ms.tree x).args) := by
        simp [Ms.tree, hw]
      rw [htr]
      refine ⟨by simp, ?_, ih.2.2⟩
      intro c hc
      rcases List.mem_cons.mp hc with rfl | hcn
      · decide
      · exact ih.2.1 c hcn
    · have htr : Ms.tree (Ms.wrapA x)
          = .mk ('a' :: ':' :: (Ms.tree x).name) ((Ms.tree x).args) := by
        simp [Ms.tree, hw]
      rw [htr]
      refine ⟨by simp, ?_, ih.2.2⟩
      intro c hc
      rcases List.mem_cons.mp hc with rfl | hc2
      · decide
      · rcases List.mem_cons.mp hc2 with rfl | hcn
        · decide
        · exact ih.2.1 c hcn
  | .wrapS x, h => by
    have ih := Ms.tree_wf x h
    rw [Tree.wf_def] at ih
    by_cases hw : x.isWrapper
    · have htr : Ms.tree (Ms.wrapS x) = .mk ('s' :: (Ms.tree x).name) ((Ms.tree x).args) := by
        simp [Ms.tree, hw]
      rw [htr]
      refine ⟨by simp, ?_, ih.2.2⟩
      intro c hc
      rcases List.mem_cons.mp hc with rfl | hcn
      · decide
      · exact ih.2.1 c hcn
    · have htr : Ms.tree (Ms.wrapS x)
          = .mk ('s' :: ':' :: (Ms.tree x).name) ((Ms.tree x).args) := by
        simp [Ms.tree, hw]
      rw [htr]
      refine ⟨by simp, ?_, ih.2.2⟩
      intro c hc
      rcases List.mem_cons.mp hc with rfl | hc2
      · decide
      · rcases List.mem_cons.mp hc2 with rfl | hcn
        · decide
        · exact ih.2.1 c hcn
  | .wrapC x, h => by
    have ih := Ms.tree_wf x h
    rw [Tree.wf_def] at ih
    by_cases hw : x.isWrapper
    · have htr : Ms.tree (Ms.wrapC x) = .mk ('c' :: (Ms.tree x).name) ((Ms.tree x).args) := by
        simp [Ms.tree, hw]
      rw [htr]
      refine ⟨by simp, ?_, ih.2.2⟩
      intro c hc
      rcases List.mem_cons.mp hc with rfl | hcn
      · decide
      · exact ih.2.1 c hcn
    · have htr : Ms.tree (Ms.wrapC x)
          = .mk ('c' :: ':' :: (Ms.tree x).name) ((Ms.tree x).args) := by
        simp [Ms.tree, hw]
      rw [htr]
      refine ⟨by simp, ?_, ih.2.2⟩
      intro c hc
      rcases List.mem_cons.mp hc with rfl | hc2
      · decide
      · rcases List.mem_cons.mp hc2 with rfl | hcn
        · decide
        · exact ih.2.1 c hcn
  | .wrapD x, h => by
    have ih := Ms.tree_wf x h
    rw [Tree.wf_def] at ih
    by_cases hw : x.isWrapper
    · have htr : Ms.tree (Ms.wrapD x) = .mk ('d' :: (Ms.tree x).name) ((Ms.tree x).args) := by
        simp [Ms.tree, hw]
      rw [htr]
      refine ⟨by simp, ?_, ih.2.2⟩
      intro c hc
      rcases List.mem_cons.mp hc with rfl | hcn
      · decide
      · exact ih.2.1 c hcn
    · have htr : Ms.tree (Ms.wrapD x)
          = .mk ('d' :: ':' :: (Ms.tree x).name) ((Ms.tree x).args) := by
        simp [Ms.tree, hw]
      rw [htr]
      refine ⟨by simp, ?_, ih.2.2⟩
      intro c hc
      rcases List.mem_cons.mp hc with rfl | hc2
      · decide
      · rcases List.mem_cons.mp hc2 with rfl | hcn
        · decide
        · exact ih.2.1 c hcn
  | .wrapV x, h => by
    have ih := Ms.tree_wf x h
    rw [Tree.wf_def] at ih
    by_cases hw : x.isWrapper
    · have htr : Ms.tree (Ms.wrapV x) = .mk ('v' :: (Ms.tree x).name) ((Ms.tree x).args) := by
        simp [Ms.tree, hw]
      rw [htr]
      refine ⟨by simp, ?_, ih.2.2⟩
      intro c hc
      rcases List.mem_cons.mp hc with rfl | hcn
      · decide
      · exact ih.2.1 c hcn
    · have htr : Ms.tree (Ms.wrapV x)
          = .mk ('v' :: ':' :: (Ms.tree x).name) ((Ms.tree x).args) := by
        simp [Ms.tree, hw]
      rw [htr]
      refine ⟨by simp, ?_, ih.2.2⟩
      intro c hc
      rcases List.mem_cons.mp hc with rfl | hc2
      · decide
      · rcases List.mem_cons.mp hc2 with rfl | hcn
        · decide
        · exact ih.2.1 c hcn
  | .wrapJ x, h => by
    have ih := Ms.tree_wf x h
    rw [Tree.wf_def] at ih
    by_cases hw : x.isWrapper
    · have htr : Ms.tree (Ms.wrapJ x) = .mk ('j' :: (Ms.tree x).name) ((Ms.tree x).args) := by
        simp [Ms.tree, hw]
      rw [htr]
      refine ⟨by simp, ?_, ih.2.2⟩
      intro c hc
      rcases List.mem_cons.mp hc with rfl | hcn
      · decide
      · exact ih.2.1 c hcn
    · have htr : Ms.tree (Ms.wrapJ x)
          = .mk ('j' :: ':' :: (Ms.tree x).name) ((Ms.tree x).args) := by
        simp [Ms.tree, hw]
      rw [htr]
      refine ⟨by simp, ?_, ih.2.2⟩
      intro c hc
      rcases List.mem_cons.mp hc with rfl | hc2
      · decide
      · rcases List.mem_cons.mp hc2 with rfl | hcn
        · decide
        · exact ih.2.1 c hcn
  | .wrapN x, h => by
    have ih := Ms.tree_wf x h
    rw [Tree.wf_def] at ih
    by_cases hw : x.isWrapper
    · have htr : Ms.tree (Ms.wrapN x) = .mk ('n' :: (Ms.tree x).name) ((Ms.tree x).args) := by
        simp [Ms.tree, hw]
      rw [htr]
      refine ⟨by simp, ?_, ih.2.2⟩
      intro c hc
      rcases List.mem_cons.mp hc with rfl | hcn
      · decide
      · exact ih.2.1 c hcn
    · have htr : Ms.tree (Ms.wrapN x)
          = .mk ('n' :: ':' :: (Ms.tree x).name) ((Ms.tree x).args) := by
        simp [Ms.tree, hw]
      rw [htr]
      refine ⟨by simp, ?_, ih.2.2⟩
      intro c hc
      rcases List.mem_cons.mp hc with rfl | hc2
      · decide
      · rcases List.mem_cons.mp hc2 with rfl | hcn
        · decide
        · exact ih.2.1 c hcn
  | .wrapL x, h => by
    have ih := Ms.tree_wf x h
    rw [Tree.wf_def] at ih
    by_cases hw : x.isWrapper
    · have htr : Ms.tree (Ms.wrapL x) = .mk ('l' :: (Ms.tree x).name) ((Ms.tree x).args) := by
        simp [Ms.tree, hw]
      rw [htr]
      refine ⟨by simp, ?_, ih.2.2⟩
      intro c hc
      rcases List.mem_cons.mp hc with rfl | hcn
      · decide
      · exact ih.2.1 c hcn
    · have htr : Ms.tree (Ms.wrapL x)
          = .mk ('l' :: ':' :: (Ms.tree x).name) ((Ms.tree x).args) := by
        simp [Ms.tree, hw]
      rw [htr]
      refine ⟨by simp, ?_, ih.2.2⟩
      intro c hc
      rcases List.mem_cons.mp hc with rfl | hc2
      · decide
      · rcases List.mem_cons.mp hc2 with rfl | hcn
        · decide
        · exact ih.2.1 c hcn
  | .wrapU x, h => by
    have ih := Ms.tree_wf x h
    rw [Tree.wf_def] at ih
    by_cases hw : x.isWrapper
    · have htr : Ms.tree (Ms.wrapU x) = .mk ('u' :: (Ms.tree x).name) ((Ms.tree x).args) := by
        simp [Ms.tree, hw]
      rw [htr]
      refine ⟨by simp, ?_, ih.2.2⟩
      intro c hc
      rcases List.mem_cons.mp hc with rfl | hcn
      · decide
      · exact ih.2.1 c hcn
    · have htr : Ms.tree (Ms.wrapU x)
          = .mk ('u' :: ':' :: (Ms.tree x).name) ((Ms.tree x).args) := by
        simp [Ms.tree, hw]
      rw [htr]
      refine ⟨by simp, ?_, ih.2.2⟩
      intro c hc
      rcases List.mem_cons.mp hc with rfl | hc2
      · decide
      · rcases List.mem_cons.mp hc2 with rfl | hcn
        · decide
        · exact ih.2.1 c hcn
  | .wrapT x, h => by
    have ih := Ms.tree_wf x h
    rw [Tree.wf_def] at ih
    by_cases hw : x.isWrapper
    · have htr : Ms.tree (Ms.wrapT x) = .mk ('t' :: (Ms.tree x).name) ((Ms.tree x).args) := by
        simp [Ms.tree, hw]
      rw [htr]
      refine ⟨by simp, ?_, ih.2.2⟩
      intro c hc
      rcases List.mem_cons.mp hc with rfl | hcn
      · decide
      · exact ih.2.1 c hcn
    · have htr : Ms.tree (Ms.wrapT x)
          = .mk ('t' :: ':' :: (Ms.tree x).name) ((Ms.tree x).args) := by
        simp [Ms.tree, hw]
      rw [htr]
      refine ⟨by simp, ?_, ih.2.2⟩
      intro c hc
      rcases List.mem_cons.mp hc with rfl | hc2
      · decide
      · rcases List.mem_cons.mp hc2 with rfl | hcn
        · decide
        · exact ih.2.1 c hcn

/-- Same for lists of fragments. -/
def Ms.treeList_wf : ∀ ms : List Ms, Ms.validList ms → Tree.wfArgs (Ms.treeList ms)
  | [], _ => by
    have h : Ms.treeList [] = [] := by simp [Ms.treeList]
    rw [h]
    trivial
  | m :: rest, h => by
    obtain ⟨hm, hrest⟩ : Ms.valid m ∧ Ms.validList rest := h
    have htl : Ms.treeList (m :: rest) = Ms.tree m :: Ms.treeList rest := by simp [Ms.treeList]
    rw [htl]
    exact ⟨Ms.tree_wf m hm, Ms.treeList_wf rest hrest⟩

end

mutual

/-- The parsing fuel is bounded by the rendered length. -/
def Ms.pfuel_le_render : ∀ m : Ms, Ms.pfuel m ≤ (Tree.render (Ms.tree m)).length
  | .pk_k a => by
    have htr : Ms.tree (Ms.pk_k a) = .mk "pk_k".toList [.mk a []] := by simp [Ms.tree]
    rw [htr, Tree.render_length]
    simp only [Ms.pfuel]
    omega
  | .pk_h a => by
    have htr : Ms.tree (Ms.pk_h a) = .mk "pk_h".toList [.mk a []] := by simp [Ms.tree]
    rw [htr, Tree.render_length]
    simp only [Ms.pfuel]
    omega
  | .sha256 a => by
    have htr : Ms.tree (Ms.sha256 a) = .mk "sha256".toList [.mk a []] := by simp [Ms.tree]
    rw [htr, Tree.render_length]
    simp only [Ms.pfuel]
    omega
  | .hash256 a => by
    have htr : Ms.tree (Ms.hash256 a) = .mk "hash256".toList [.mk a []] := by simp [Ms.tree]
    rw [htr, Tree.render_length]
    simp only [Ms.pfuel]
    omega
  | .ripemd160 a => by
    have htr : Ms.tree (Ms.ripemd160 a) = .mk "ripemd160".toList [.mk a []] := by simp [Ms.tree]
    rw [htr, Tree.render_length]
    simp only [Ms.pfuel]
    omega
  | .hash160 a => by
    have htr : Ms.tree (Ms.hash160 a) = .mk "hash160".toList [.mk a []] := by simp [Ms.tree]
    rw [htr, Tree.render_length]
    simp only [Ms.pfuel]
    omega
  | .older v => by
    have htr : Ms.tree (Ms.older v) = .mk "older".toList [.mk (natToChars v) []] := by simp [Ms.tree]
    rw [htr, Tree.render_length]
    simp only [Ms.pfuel]
    omega
  | .after v => by
    have htr : Ms.tree (Ms.after v) = .mk "after".toList [.mk (natToChars v) []] := by simp [Ms.tree]
    rw [htr, Tree.render_length]
    simp only [Ms.pfuel]
    omega
  | .andor x y z => by
    have ihx := Ms.pfuel_le_render x
    have ihy := Ms.pfuel_le_render y
    have ihz := Ms.pfuel_le_render z
    have htr : Ms.tree (Ms.andor x y z)
        = .mk "andor".toList [Ms.tree x, Ms.tree y, Ms.tree z] := by simp [Ms.tree]
    rw [htr, Tree.render_length]
    have hargs : (Tree.renderArgs [Ms.tree y, Ms.tree z]).length
        = 2 + (Tree.render (Ms.tree y)).length + (Tree.render (Ms.tree z)).length := by
      simp [Tree.renderArgs]
      omega
    simp only [Ms.pfuel]
    omega
  | .and_v x y => by
    have ihx := Ms.pfuel_le_render x
    have ihy := Ms.pfuel_le_render y
    have htr : Ms.tree (Ms.and_v x y) = .mk "and_v".toList [Ms.tree x, Ms.tree y] := by simp [Ms.tree]
    rw [htr, Tree.render_length]
    have hargs : (Tree.renderArgs [Ms.tree y]).length = 1 + (Tree.render (Ms.tree y)).length := by
      simp [Tree.renderArgs]
      omega
    simp only [Ms.pfuel]
    omega
  | .and_b x y => by
    have ihx := Ms.pfuel_le_render x
    have ihy := Ms.pfuel_le_render y
    have htr : Ms.tree (Ms.and_b x y) = .mk "and_b".toList [Ms.tree x, Ms.tree y] := by simp [Ms.tree]
    rw [htr, Tree.render_length]
    have hargs : (Tree.renderArgs [Ms.tree y]).length = 1 + (Tree.render (Ms.tree y)).length := by
      simp [Tree.renderArgs]
      omega
    simp only [Ms.pfuel]
    omega
  | .or_b x y => by
    have ihx := Ms.pfuel_le_render x
    have ihy := Ms.pfuel_le_render y
    have htr : Ms.tree (Ms.or_b x y) = .mk "or_b".toList [Ms.tree x, Ms.tree y] := by simp [Ms.tree]
    rw [htr, Tree.render_length]
    have hargs : (Tree.renderArgs [Ms.tree y]).length = 1 + (Tree.render (Ms.tree y)).length := by
      simp [Tree.renderArgs]
      omega
    simp only [Ms.pfuel]
    omega
  | .or_c x y => by
    have ihx := Ms.pfuel_le_render x
    have ihy := Ms.pfuel_le_render y
    have htr : Ms.tree (Ms.or_c x y) = .mk "or_c".toList [Ms.tree x, Ms.tree y] := by simp [Ms.tree]
    rw [htr, Tree.render_length]
    have hargs : (Tree.renderArgs [Ms.tree y]).length = 1 + (Tree.render (Ms.tree y)).length := by
      simp [Tree.renderArgs]
      omega
    simp only [Ms.pfuel]
    omega
  | .or_d x y => by
    have ihx := Ms.pfuel_le_render x
    have ihy := Ms.pfuel_le_render y
    have htr : Ms.tree (Ms.or_d x y) = .mk "or_d".toList [Ms.tree x, Ms.tree y] := by simp [Ms.tree]
    rw [htr, Tree.render_length]
    have hargs : (Tree.renderArgs [Ms.tree y]).length = 1 + (Tree.render (Ms.tree y)).length := by
      simp [Tree.renderArgs]
      omega
    simp only [Ms.pfuel]
    omega
  | .or_i x y => by
    have ihx := Ms.pfuel_le_render x
    have ihy := Ms.pfuel_le_render y
    have htr : Ms.tree (Ms.or_i x y) = .mk "or_i".toList [Ms.tree x, Ms.tree y] := by simp [Ms.tree]
    rw [htr, Tree.render_length]
    have hargs : (Tree.renderArgs [Ms.tree y]).length = 1 + (Tree.render (Ms.tree y)).length := by
      simp [Tree.renderArgs]
      omega
    simp only [Ms.pfuel]
    omega
  | .thresh k subs => by
    have ihs := Ms.pfuelList_le_renderArgs subs
    have htr : Ms.tree (Ms.thresh k subs)
        = .mk "thresh".toList (.mk (natToChars k) [] :: Ms.treeList subs) := by simp [Ms.tree]
    rw [htr, Tree.render_length]
    simp only [Ms.pfuel]
    omega
  | .multi k keys => by
    have htr : Ms.tree (Ms.multi k keys)
        = .mk "multi".toList (.mk (natToChars k) [] :: keys.map (fun kk => Tree.mk kk [])) := by
      simp [Ms.tree]
    rw [htr, Tree.render_length]
    simp only [Ms.pfuel]
    omega
  | .multi_a k keys => by
    have htr : Ms.tree (Ms.multi_a k keys)
        = .mk "multi_a".toList (.mk (natToChars k) [] :: keys.map (fun kk => Tree.mk kk [])) := by
      simp [Ms.tree]
    rw [htr, Tree.render_length]
    simp only [Ms.pfuel]
    omega
  | .wrapA x => by
    have ih := Ms.pfuel_le_render x
    have htr : Ms.tree (Ms.wrapA x)
        = .mk (['a'] ++ (if x.isWrapper then [] else [':']) ++ (Ms.tree x).name)
            ((Ms.tree x).args) := by
      simp [Ms.tree]
    have hx := Tree.eta (Ms.tree x)
    rw [← hx, Tree.render_length] at ih
    have hp : Ms.pfuel (Ms.wrapA x) = Ms.pfuel x := rfl
    rw [hp, htr, Tree.render_length]
    have hlen : ((Ms.tree x).name).length
        ≤ (['a'] ++ (if x.isWrapper then [] else [':']) ++ (Ms.tree x).name).length := by
      by_cases hw : x.isWrapper
      · simp [hw]
      · simp [hw]
        omega
    omega
  | .wrapS x => by
    have ih := Ms.pfuel_le_render x
    have htr : Ms.tree (Ms.wrapS x)
        = .mk (['s'] ++ (if x.isWrapper then [] else [':']) ++ (Ms.tree x).name)
            ((Ms.tree x).args) := by
      simp [Ms.tree]
    have hx := Tree.eta (Ms.tree x)
    rw [← hx, Tree.render_length] at ih
    have hp : Ms.pfuel (Ms.wrapS x) = Ms.pfuel x := rfl
    rw [hp, htr, Tree.render_length]
    have hlen : ((Ms.tree x).name).length
        ≤ (['s'] ++ (if x.isWrapper then [] else [':']) ++ (Ms.tree x).name).length := by
      by_cases hw : x.isWrapper
      · simp [hw]
      · simp [hw]
        omega
    omega
  | .wrapC x => by
    have ih := Ms.pfuel_le_render x
    have htr : Ms.tree (Ms.wrapC x)
        = .mk (['c'] ++ (if x.isWrapper then [] else [':']) ++ (Ms.tree x).name)
            ((Ms.tree x).args) := by
      simp [Ms.tree]
    have hx := Tree.eta (Ms.tree x)
    rw [← hx, Tree.render_length] at ih
    have hp : Ms.pfuel (Ms.wrapC x) = Ms.pfuel x := rfl
    rw [hp, htr, Tree.render_length]
    have hlen : ((Ms.tree x).name).length
        ≤ (['c'] ++ (if x.isWrapper then [] else [':']) ++ (Ms.tree x).name).length := by
      by_cases hw : x.isWrapper
      · simp [hw]
      · simp [hw]
        omega
    omega
  | .wrapD x => by
    have ih := Ms.pfuel_le_render x
    have htr : Ms.tree (Ms.wrapD x)
        = .mk (['d'] ++ (if x.isWrapper then [] else [':']) ++ (Ms.tree x).name)
            ((Ms.tree x).args) := by
      simp [Ms.tree]
    have hx := Tree.eta (Ms.tree x)
    rw [← hx, Tree.render_length] at ih
    have hp : Ms.pfuel (Ms.wrapD x) = Ms.pfuel x := rfl
    rw [hp, htr, Tree.render_length]
    have hlen : ((Ms.tree x).name).length
        ≤ (['d'] ++ (if x.isWrapper then [] else [':']) ++ (Ms.tree x).name).length := by
      by_cases hw : x.isWrapper
      · simp [hw]
      · simp [hw]
        omega
    omega
  | .wrapV x => by
    have ih := Ms.pfuel_le_render x
    have htr : Ms.tree (Ms.wrapV x)
        = .mk (['v'] ++ (if x.isWrapper then [] else [':']) ++ (Ms.tree x).name)
            ((Ms.tree x).args) := by
      simp [Ms.tree]
    have hx := Tree.eta (Ms.tree x)
    rw [← hx, Tree.render_length] at ih
    have hp : Ms.pfuel (Ms.wrapV x) = Ms.pfuel x := rfl
    rw [hp, htr, Tree.render_length]
    have hlen : ((Ms.tree x).name).length
        ≤ (['v'] ++ (if x.isWrapper then [] else [':']) ++ (Ms.tree x).name).length := by
      by_cases hw : x.isWrapper
      · simp [hw]
      · simp [hw]
        omega
    omega
  | .wrapJ x => by
    have ih := Ms.pfuel_le_render x
    have htr : Ms.tree (Ms.wrapJ x)
        = .mk (['j'] ++ (if x.isWrapper then [] else [':']) ++ (Ms.tree x).name)
            ((Ms.tree x).args) := by
      simp [Ms.tree]
    have hx := Tree.eta (Ms.tree x)
    rw [← hx, Tree.render_length] at ih
    have hp : Ms.pfuel (Ms.wrapJ x) = Ms.pfuel x := rfl
    rw [hp, htr, Tree.render_length]
    have hlen : ((Ms.tree x).name).length
        ≤ (['j'] ++ (if x.isWrapper then [] else [':']) ++ (Ms.tree x).name).length := by
      by_cases hw : x.isWrapper
      · simp [hw]
      · simp [hw]
        omega
    omega
  | .wrapN x => by
    have ih := Ms.pfuel_le_render x
    have htr : Ms.tree (Ms.wrapN x)
        = .mk (['n'] ++ (if x.isWrapper then [] else [':']) ++ (Ms.tree x).name)
            ((Ms.tree x).args) := by
      simp [Ms.tree]
    have hx := Tree.eta (Ms.tree x)
    rw [← hx, Tree.render_length] at ih
    have hp : Ms.pfuel (Ms.wrapN x) = Ms.pfuel x := rfl
    rw [hp, htr, Tree.render_length]
    have hlen : ((Ms.tree x).name).length
        ≤ (['n'] ++ (if x.isWrapper then [] else [':']) ++ (Ms.tree x).name).length := by
      by_cases hw : x.isWrapper
      · simp [hw]
      · simp [hw]
        omega
    omega
  | .wrapL x => by
    have ih := Ms.pfuel_le_render x
    have htr : Ms.tree (Ms.wrapL x)
        = .mk (['l'] ++ (if x.isWrapper then [] else [':']) ++ (Ms.tree x).name)
            ((Ms.tree x).args) := by
      simp [Ms.tree]
    have hx := Tree.eta (Ms.tree x)
    rw [← hx, Tree.render_length] at ih
    have hp : Ms.pfuel (Ms.wrapL x) = Ms.pfuel x := rfl
    rw [hp, htr, Tree.render_length]
    have hlen : ((Ms.tree x).name).length
        ≤ (['l'] ++ (if x.isWrapper then [] else [':']) ++ (Ms.tree x).name).length := by
      by_cases hw : x.isWrapper
      · simp [hw]
      · simp [hw]
        omega
    omega
  | .wrapU x => by
    have ih := Ms.pfuel_le_render x
    have htr : Ms.tree (Ms.wrapU x)
        = .mk (['u'] ++ (if x.isWrapper then [] else [':']) ++ (Ms.tree x).name)
            ((Ms.tree x).args) := by
      simp [Ms.tree]
    have hx := Tree.eta (Ms.tree x)
    rw [← hx, Tree.render_length] at ih
    have hp : Ms.pfuel (Ms.wrapU x) = Ms.pfuel x := rfl
    rw [hp, htr, Tree.render_length]
    have hlen : ((Ms.tree x).name).length
        ≤ (['u'] ++ (if x.isWrapper then [] else [':']) ++ (Ms.tree x).name).length := by
      by_cases hw : x.isWrapper
      · simp [hw]
      · simp [hw]
        omega
    omega
  | .wrapT x => by
    have ih := Ms.pfuel_le_render x
    have htr : Ms.tree (Ms.wrapT x)
        = .mk (['t'] ++ (if x.isWrapper then [] else [':']) ++ (Ms.tree x).name)
            ((Ms.tree x).args) := by
      simp [Ms.tree]
    have hx := Tree.eta (Ms.tree x)
    rw [← hx, Tree.render_length] at ih
    have hp : Ms.pfuel (Ms.wrapT x) = Ms.pfuel x := rfl
    rw [hp, htr, Tree.render_length]
    have hlen : ((Ms.tree x).name).length
        ≤ (['t'] ++ (if x.isWrapper then [] else [':']) ++ (Ms.tree x).name).length := by
      by_cases hw : x.isWrapper
      · simp [hw]
      · simp [hw]
        omega
    omega

/-- Same for lists. -/
def Ms.pfuelList_le_renderArgs : ∀ ms : List Ms,
    Ms.pfuelList ms ≤ (Tree.renderArgs (Ms.treeList ms)).length
  | [] => by
    have h : Ms.treeList [] = [] := by simp [Ms.treeList]
    rw [h]
    simp [Ms.pfuelList, Tree.renderArgs]
  | m :: rest => by
    have ihm := Ms.pfuel_le_render m
    have ihr := Ms.pfuelList_le_renderArgs rest
    have htl : Ms.treeList (m :: rest) = Ms.tree m :: Ms.treeList rest := by simp [Ms.treeList]
    rw [htl]
    have hra : (Tree.renderArgs (Ms.tree m :: Ms.treeList rest)).length
        = 1 + (Tree.render (Ms.tree m)).length + (Tree.renderArgs (Ms.treeList rest)).length := by
      simp [Tree.renderArgs]
      omega
    simp only [Ms.pfuelList]
    omega

end

/-- Modelled from the spec (§4.B): map every key of a list, failing on the
first inner failure. -/
def traversePks {E : Type} (fpk : PK → Except E PK) : List PK → Except E (List PK)
  | [] => .ok []
  | k :: ks =>
    match fpk k with
    | .error e => .error e
    | .ok q =>
      match traversePks fpk ks with
      | .error e => .error e
      | .ok qs => .ok (q :: qs)

/-! ### Key translation on fragments

Modelled from the spec (§4.B): `translate_pk(Fpk, Fpkh)` maps a descriptor
over one key type into another, preserving structure and failing on the first
inner failure (`Miniscript::translate_pk` is outside the embedded sources). -/

mutual

/-- Translate every key (via `fpk`) and key-hash (via `fpkh`) of a fragment,
in left-to-right order, short-circuiting on the first failure. -/
def Ms.translatePk {E : Type} (fpk : PK → Except E PK) (fpkh : PK → Except E PK) :
    Ms → Except E Ms
  | .pk_k k =>
    match fpk k with
    | .error e => .error e
    | .ok q => .ok (.pk_k q)
  | .pk_h kh =>
    match fpkh kh with
    | .error e => .error e
    | .ok q => .ok (.pk_h q)
  | .older n => .ok (.older n)
  | .after n => .ok (.after n)
  | .sha256 h => .ok (.sha256 h)
  | .hash256 h => .ok (.hash256 h)
  | .ripemd160 h => .ok (.ripemd160 h)
  | .hash160 h => .ok (.hash160 h)
  | .andor x y z =>
    match Ms.translatePk fpk fpkh x with
    | .error e => .error e
    | .ok x2 =>
      match Ms.translatePk fpk fpkh y with
      | .error e => .error e
      | .ok y2 =>
        match Ms.translatePk fpk fpkh z with
        | .error e => .error e
        | .ok z2 => .ok (.andor x2 y2 z2)
  | .and_v x y =>
    match Ms.translatePk fpk fpkh x with
    | .error e => .error e
    | .ok x2 =>
      match Ms.translatePk fpk fpkh y with
      | .error e => .error e
      | .ok y2 => .ok (.and_v x2 y2)
  | .and_b x y =>
    match Ms.translatePk fpk fpkh x with
    | .error e => .error e
    | .ok x2 =>
      match Ms.translatePk fpk fpkh y with
      | .error e => .error e
      | .ok y2 => .ok (.and_b x2 y2)
  | .or_b x y =>
    match Ms.translatePk fpk fpkh x with
    | .error e => .error e
    | .ok x2 =>
      match Ms.translatePk fpk fpkh y with
      | .error e => .error e
      | .ok y2 => .ok (.or_b x2 y2)
  | .or_c x y =>
    match Ms.translatePk fpk fpkh x with
    | .error e => .error e
    | .ok x2 =>
      match Ms.translatePk fpk fpkh y with
      | .error e => .error e
      | .ok y2 => .ok (.or_c x2 y2)
  | .or_d x y =>
    match Ms.translatePk fpk fpkh x with
    | .error e => .error e
    | .ok x2 =>
      match Ms.translatePk fpk fpkh y with
      | .error e => .error e
      | .ok y2 => .ok (.or_d x2 y2)
  | .or_i x y =>
    match Ms.translatePk fpk fpkh x with
    | .error e => .error e
    | .ok x2 =>
      match Ms.translatePk fpk fpkh y with
      | .error e => .error e
      | .ok y2 => .ok (.or_i x2 y2)
  | .thresh k subs =>
    match Ms.translateList fpk fpkh subs with
    | .error e => .error e
    | .ok subs2 => .ok (.thresh k subs2)
  | .multi k keys =>
    match traversePks fpk keys with
    | .error e => .error e
    | .ok keys2 => .ok (.multi k keys2)
  | .multi_a k keys =>
    match traversePks fpk keys with
    | .error e => .error e
    | .ok keys2 => .ok (.multi_a k keys2)
  | .wrapA x =>
    match Ms.translatePk fpk fpkh x with
    | .error e => .error e
    | .ok x2 => .ok (.wrapA x2)
  | .wrapS x =>
    match Ms.translatePk fpk fpkh x with
    | .error e => .error e
    | .ok x2 => .ok (.wrapS x2)
  | .wrapC x =>
    match Ms.translatePk fpk fpkh x with
    | .error e => .error e
    | .ok x2 => .ok (.wrapC x2)
  | .wrapD x =>
    match Ms.translatePk fpk fpkh x with
    | .error e => .error e
    | .ok x2 => .ok (.wrapD x2)
  | .wrapV x =>
    match Ms.translatePk fpk fpkh x with
    | .error e => .error e
    | .ok x2 => .ok (.wrapV x2)
  | .wrapJ x =>
    match Ms.translatePk fpk fpkh x with
    | .error e => .error e
    | .ok x2 => .ok (.wrapJ x2)
  | .wrapN x =>
    match Ms.translatePk fpk fpkh x with
    | .error e => .error e
    | .ok x2 => .ok (.wrapN x2)
  | .wrapL x =>
    match Ms.translatePk fpk fpkh x with
    | .error e => .error e
    | .ok x2 => .ok (.wrapL x2)
  | .wrapU x =>
    match Ms.translatePk fpk fpkh x with
    | .error e => .error e
    | .ok x2 => .ok (.wrapU x2)
  | .wrapT x =>
    match Ms.translatePk fpk fpkh x with
    | .error e => .error e
    | .ok x2 => .ok (.wrapT x2)

/-- Translate each member. -/
def Ms.translateList {E : Type} (fpk : PK → Except E PK) (fpkh : PK → Except E PK) :
    List Ms → Except E (List Ms)
  | [] => .ok []
  | m :: ms =>
    match Ms.translatePk fpk fpkh m with
    | .error e => .error e
    | .ok m2 =>
      match Ms.translateList fpk fpkh ms with
      | .error e => .error e
      | .ok ms2 => .ok (m2 :: ms2)

end

/-! ### The Segwit v0 descriptor layer

The embedding of `src/descriptor/segwitv0.rs`.  Operations of the miniscript
calculus and of `SortedMultiVec` that the file only delegates to are fields of
`MsCalc`; the Segwit v0 top-level checks (run by `Wsh::new`, by
`Wsh::from_tree` and — per spec §4.F, "`sanity_check()` — re-run D/E on the
whole tree" — by `sanity_check`) are the parameter `checks`. -/

/-- An ECDSA signature as the satisfier returns it: DER bytes plus the sighash
flag (`ElementsSig` is declared outside the embedded sources). -/
structure ElementsSig where
  der : List Nat
  hashty : Nat
deriving DecidableEq, Repr

/-- Modelled from the spec (§4.J): `elementssig_to_rawsig` — the serialized
signature with the sighash flag as its last byte. -/
def elementssig_to_rawsig (s : ElementsSig) : List Nat := s.der ++ [s.hashty]

/-- Modelled from the spec (§4.G "Satisfier Oracle"): the pluggable oracle;
only `lookup_ecdsa_sig` is consulted by the embedded descriptor layer (the
other queries are consumed by the miniscript satisfaction algorithm, which is
a parameter here). -/
structure Satisfier where
  lookupEcdsaSig : PK → Option ElementsSig

/-- The hash primitives, deliberately external per the spec (§1): any
functions with the right output lengths. -/
structure Hashers where
  sha256 : List Nat → List Nat
  hash160 : List Nat → List Nat
  sha256_len : ∀ b, (sha256 b).length = 32
  hash160_len : ∀ b, (hash160 b).length = 20

/-- Modelled from the spec (§4.F): chain parameters are opaque to the
descriptor layer. -/
abbrev AddressParams := Nat

/-- The `elements::AddressParams::ELEMENTS` constant. -/
def PARAMS_ELEMENTS : AddressParams := 0

/-- Modelled from the spec (§4.F): an elements address — its scriptPubKey
payload, the optional blinder, and the chain parameters.  The address encoding
itself is out of scope; what the claims need is that the scriptPubKey is
derived from the payload alone. -/
structure ElAddress where
  payload : List Nat
  blinder : Option (List Nat)
  params : AddressParams

/-- Modelled from the spec (§4.F): `Address::p2wpkh` — witness program
`OP_0 <20-byte hash160(pk)>`. -/
def ElAddress.p2wpkh (H : Hashers) (pk : PK) (blinder : Option (List Nat))
    (params : AddressParams) : ElAddress :=
  ⟨[0x00, 0x14] ++ H.hash160 (pkToBytes pk), blinder, params⟩

/-- Modelled from the spec (§4.F): `Address::p2wsh` — witness program
`OP_0 <32-byte sha256(script)>`. -/
def ElAddress.p2wsh (H : Hashers) (script : List Nat) (blinder : Option (List Nat))
    (params : AddressParams) : ElAddress :=
  ⟨[0x00, 0x20] ++ H.sha256 script, blinder, params⟩

/-- Modelled from the spec (§4.F): `Address::p2pkh` — the legacy
`OP_DUP OP_HASH160 <20> OP_EQUALVERIFY OP_CHECKSIG` scriptPubKey. -/
def ElAddress.p2pkh (H : Hashers) (pk : PK) (blinder : Option (List Nat))
    (params : AddressParams) : ElAddress :=
  ⟨[0x76, 0xa9, 0x14] ++ H.hash160 (pkToBytes pk) ++ [0x88, 0xac], blinder, params⟩

/-- The scriptPubKey of an address. -/
def ElAddress.script_pubkey (a : ElAddress) : List Nat := a.payload

/-- `Script::to_v0_p2wsh()` (elements crate, out of scope per spec §1):
`OP_0 <sha256(script)>`. -/
def toV0P2wsh (H : Hashers) (script : List Nat) : List Nat :=
  [0x00, 0x20] ++ H.sha256 script

/-- Modelled from the spec (§3, §6): `sortedmulti(k, keys)` — a threshold and
its keys (`SortedMultiVec` is declared in `descriptor/sortedmulti.rs`, outside
the embedded sources). -/
structure SortedMultiVec where
  k : Nat
  pks : List PK
deriving DecidableEq, Repr

/-- Modelled from the spec (§3 invariants 2 and 4): the context checks
`SortedMultiVec::new` runs for Segwit v0 — `1 ≤ k ≤ n ≤ 20` (the
`OP_CHECKMULTISIG` limit) and no uncompressed keys. -/
def SortedMultiVec.condOk (k : Nat) (pks : List PK) : Prop :=
  1 ≤ k ∧ k ≤ pks.length ∧ pks.length ≤ 20 ∧ ∀ pk ∈ pks, pkIsUncompressed pk = false

instance (k : Nat) (pks : List PK) : Decidable (SortedMultiVec.condOk k pks) := by
  unfold SortedMultiVec.condOk
  infer_instance

/-- Modelled from the spec (§3, §4.F): `SortedMultiVec::new` — the checked
constructor. -/
def SortedMultiVec.new (k : Nat) (pks : List PK) : Except Error SortedMultiVec :=
  if SortedMultiVec.condOk k pks then .ok ⟨k, pks⟩
  else .error (.multisigKeys k pks.length)

/-- Modelled from the spec (§4.F): `SortedMultiVec::sanity_check` — re-run the
same context checks. -/
def SortedMultiVec.sanityCheck (smv : SortedMultiVec) : Except Error Unit :=
  if SortedMultiVec.condOk smv.k smv.pks then .ok ()
  else .error (.multisigKeys smv.k smv.pks.length)

/-- The canonical string form `sortedmulti(k,pk1,…)` as an expression tree. -/
def SortedMultiVec.tree (smv : SortedMultiVec) : Tree :=
  .mk "sortedmulti".toList (.mk (natToChars smv.k) [] :: smv.pks.map (fun pk => Tree.mk pk []))

/-- Modelled from the spec (§4.F): `SortedMultiVec::from_tree` — parse the
threshold and the keys, then construct through `new`. -/
def SortedMultiVec.fromTree (t : Tree) : Except Error SortedMultiVec :=
  match t with
  | .mk n args =>
    match args with
    | kt :: rest =>
      match numOfTree kt with
      | .error e => .error e
      | .ok k =>
        match keysOfTrees rest with
        | .error e => .error e
        | .ok ks => SortedMultiVec.new k ks
    | [] => .error (.unexpected n)

/-- Modelled from the spec (§4.B): key translation on a `sortedmulti`. -/
def SortedMultiVec.translatePk {E : Type} (fpk : PK → Except E PK)
    (smv : SortedMultiVec) : Except E SortedMultiVec :=
  match traversePks fpk smv.pks with
  | .error e => .error e
  | .ok qs => .ok ⟨smv.k, qs⟩

/-- The operations of the miniscript calculus and of `SortedMultiVec` that
`segwitv0.rs` delegates to (their code is outside the embedded sources); every
theorem below holds for any implementation. -/
structure MsCalc where
  scriptSize : Ms → Nat
  maxSatElems : Ms → Except Error Nat
  maxSatSize : Ms → Except Error Nat
  encode : Ms → List Nat
  satisfy : Ms → Satisfier → Except Error (List (List Nat))
  satisfyMall : Ms → Satisfier → Except Error (List (List Nat))
  smvScriptSize : SortedMultiVec → Nat
  smvMaxSatElems : SortedMultiVec → Nat
  smvMaxSatSize : SortedMultiVec → Nat
  smvEncode : SortedMultiVec → List Nat
  smvSatisfy : SortedMultiVec → Satisfier → Except Error (List (List Nat))

/-- `ELMTS_STR`: the Elements `el` prefix of wire-form strings (spec §9). -/
def ELMTS_STR : List Char := "el".toList

/-- `WshInner` (segwitv0.rs): sorted multi or miniscript. -/
inductive WshInner where
  | sortedMulti (smv : SortedMultiVec)
  | ms (m : Ms)

/-- A Segwitv0 `wsh` descriptor (segwitv0.rs). -/
structure Wsh where
  inner : WshInner

/-- `Wsh::new` (segwitv0.rs lines 52-59): run the Segwit v0 top-level checks,
then wrap the miniscript. -/
def Wsh.new (checks : Ms → Except Error Unit) (m : Ms) : Except Error Wsh :=
  match checks m with
  | .error e => .error e
  | .ok _ => .ok ⟨.ms m⟩

/-- `Wsh::new_sortedmulti` (lines 61-68): the context checks run inside
`SortedMultiVec::new`. -/
def Wsh.newSortedMulti (k : Nat) (pks : List PK) : Except Error Wsh :=
  match SortedMultiVec.new k pks with
  | .error e => .error e
  | .ok smv => .ok ⟨.sortedMulti smv⟩

/-- The inner fragment's canonical tree (the `{}` of `format!("wsh({})", …)`). -/
def Wsh.innerTree (D : Wsh) : Tree :=
  match D.inner with
  | .sortedMulti smv => smv.tree
  | .ms m => Ms.tree m

/-- `Wsh::to_string_no_checksum` (lines 70-76): `wsh(<inner>)`, without
checksum and without the `el` prefix. -/
def Wsh.toStringNoChecksum (D : Wsh) : List Char :=
  "wsh(".toList ++ Tree.render (Wsh.innerTree D) ++ [')']

/-- `Wsh::sanity_check` (lines 78-85): `smv.sanity_check()` resp.
`ms.sanity_check()`; per spec §4.F the latter re-runs the D/E top-level
checks, i.e. `checks`. -/
def Wsh.sanityCheck (checks : Ms → Except Error Unit) (D : Wsh) : Except Error Unit :=
  match D.inner with
  | .sortedMulti smv => smv.sanityCheck
  | .ms m => checks m

/-- `Wsh::max_satisfaction_weight` (lines 96-114):
`4 + varint_len(ss) + ss + varint_len(elems) + size`, where the triple comes
from the inner miniscript or sortedmulti (only the miniscript side is
fallible). -/
def Wsh.maxSatisfactionWeight (mc : MsCalc) (D : Wsh) : Except Error Nat :=
  match D.inner with
  | .sortedMulti smv =>
    .ok (4 + varintLen (mc.smvScriptSize smv) + mc.smvScriptSize smv
      + varintLen (mc.smvMaxSatElems smv) + mc.smvMaxSatSize smv)
  | .ms m =>
    match mc.maxSatElems m with
    | .error e => .error e
    | .ok elems =>
      match mc.maxSatSize m with
      | .error e => .error e
      | .ok size =>
        .ok (4 + varintLen (mc.scriptSize m) + mc.scriptSize m
          + varintLen elems + size)

/-- `Wsh::inner_script` (lines 167-172): the encoded witness script. -/
def Wsh.innerScript (mc : MsCalc) (D : Wsh) : List Nat :=
  match D.inner with
  | .sortedMulti smv => mc.smvEncode smv
  | .ms m => mc.encode m

/-- `Wsh::script_pubkey` (lines 148-150): `inner_script().to_v0_p2wsh()`. -/
def Wsh.script_pubkey (H : Hashers) (mc : MsCalc) (D : Wsh) : List Nat :=
  toV0P2wsh H (Wsh.innerScript mc D)

/-- `Wsh::address` (lines 153-164): `Address::p2wsh` of the encoded inner
script. -/
def Wsh.address (H : Hashers) (mc : MsCalc) (D : Wsh) (blinder : Option (List Nat))
    (params : AddressParams) : ElAddress :=
  match D.inner with
  | .sortedMulti smv => ElAddress.p2wsh H (mc.smvEncode smv) blinder params
  | .ms m => ElAddress.p2wsh H (mc.encode m) blinder params

/-- `Wsh::ecdsa_sighash_script_code` (lines 175-177): the inner script. -/
def Wsh.ecdsaSighashScriptCode (mc : MsCalc) (D : Wsh) : List Nat :=
  Wsh.innerScript mc D

/-- `Wsh::get_satisfaction` (lines 182-194): the inner satisfaction, with the
witness script pushed on top and an empty scriptSig. -/
def Wsh.getSatisfaction (mc : MsCalc) (D : Wsh) (satisfier : Satisfier) :
    Except Error (List (List Nat) × List Nat) :=
  match (match D.inner with
         | .sortedMulti smv => mc.smvSatisfy smv satisfier
         | .ms m => mc.satisfy m satisfier) with
  | .error e => .error e
  | .ok witness => .ok (witness ++ [Wsh.innerScript mc D], [])

/-- `Wsh::get_satisfaction_mall` (lines 199-210): as `get_satisfaction`, with
the malleable satisfaction algorithm on the miniscript side. -/
def Wsh.getSatisfactionMall (mc : MsCalc) (D : Wsh) (satisfier : Satisfier) :
    Except Error (List (List Nat) × List Nat) :=
  match (match D.inner with
         | .sortedMulti smv => mc.smvSatisfy smv satisfier
         | .ms m => mc.satisfyMall m satisfier) with
  | .error e => .error e
  | .ok witness => .ok (witness ++ [Wsh.innerScript mc D], [])

/-- `impl Display for Wsh` (lines 271-277): the `el` prefix, the body, `#`,
the checksum; a checksum failure is `fmt::Error` (`none`). -/
def Wsh.display (D : Wsh) : Option (List Char) :=
  match descChecksum (ELMTS_STR ++ Wsh.toStringNoChecksum D) with
  | .error _ => none
  | .ok ck => some ((ELMTS_STR ++ Wsh.toStringNoChecksum D) ++ '#' :: ck)

/-- `impl FromTree for Wsh` (lines 240-260): the name must be `elwsh` with one
argument; `sortedmulti` goes to `SortedMultiVec::from_tree`, anything else to
`Miniscript::from_tree` followed by the Segwit v0 top-level checks. -/
def Wsh.fromTree (checks : Ms → Except Error Unit) (fuel : Nat) (t : Tree) :
    Except Error Wsh :=
  match t with
  | .mk n args =>
    if n = "elwsh".toList then
      match args with
      | [top] =>
        if top.name = "sortedmulti".toList then
          match SortedMultiVec.fromTree top with
          | .error e => .error e
          | .ok smv => .ok ⟨.sortedMulti smv⟩
        else
          match Ms.fromTree fuel top with
          | .error e => .error e
          | .ok sub =>
            match checks sub with
            | .error e => .error e
            | .ok _ => .ok ⟨.ms sub⟩
      | _ => .error (.unexpected n)
    else .error (.unexpected n)

/-- `impl FromStr for Wsh` (lines 286-293): verify the checksum, parse the
expression tree, recognize the descriptor. -/
def Wsh.fromStr (checks : Ms → Except Error Unit) (s : List Char) : Except Error Wsh :=
  match verifyChecksum s with
  | .error e => .error e
  | .ok body =>
    match Tree.fromStr body with
    | .error e => .error e
    | .ok t => Wsh.fromTree checks body.length t

/-- `<Wsh as TranslatePk>::translate_pk` (lines 308-331): translate the inner
keys, preserving structure and failing on the first inner failure. -/
def Wsh.translatePk {E : Type} (fpk : PK → Except E PK) (fpkh : PK → Except E PK)
    (D : Wsh) : Except E Wsh :=
  match D.inner with
  | .sortedMulti smv =>
    match SortedMultiVec.translatePk fpk smv with
    | .error e => .error e
    | .ok smv2 => .ok ⟨.sortedMulti smv2⟩
  | .ms m =>
    match Ms.translatePk fpk fpkh m with
    | .error e => .error e
    | .ok m2 => .ok ⟨.ms m2⟩

/-- A bare `wpkh` descriptor at top level (segwitv0.rs). -/
structure Wpkh where
  pk : PK
deriving DecidableEq, Repr

/-- `Wpkh::new` (lines 342-351): reject uncompressed keys with
`ContextError(CompressedOnly)`. -/
def Wpkh.new (pk : PK) : Except Error Wpkh :=
  if pkIsUncompressed pk then
    .error (.contextError (.compressedOnly pk))
  else .ok ⟨pk⟩

/-- `Wpkh::to_string_no_checksum` (lines 364-366). -/
def Wpkh.toStringNoChecksum (D : Wpkh) : List Char :=
  "wpkh(".toList ++ D.pk ++ [')']

/-- `Wpkh::sanity_check` (lines 369-377): fail exactly on an uncompressed
key. -/
def Wpkh.sanityCheck (D : Wpkh) : Except Error Unit :=
  if pkIsUncompressed D.pk then
    .error (.contextError (.compressedOnly D.pk))
  else .ok ()

/-- `Wpkh::max_satisfaction_weight` (lines 385-387): `4 + 1 + 73 + pk_len`. -/
def Wpkh.maxSatisfactionWeight (D : Wpkh) : Nat :=
  4 + 1 + 73 + pkLen D.pk

/-- `Wpkh::address` (lines 419-425): `Address::p2wpkh`. -/
def Wpkh.address (H : Hashers) (D : Wpkh) (blinder : Option (List Nat))
    (params : AddressParams) : ElAddress :=
  ElAddress.p2wpkh H D.pk blinder params

/-- `Wpkh::script_pubkey` (lines 413-416): the scriptPubKey of the
`ELEMENTS`-params address. -/
def Wpkh.script_pubkey (H : Hashers) (D : Wpkh) : List Nat :=
  (Wpkh.address H D none PARAMS_ELEMENTS).script_pubkey

/-- `Wpkh::inner_script` (lines 428-430): it returns `script_pubkey()`. -/
def Wpkh.innerScript (H : Hashers) (D : Wpkh) : List Nat :=
  Wpkh.script_pubkey H D

/-- `Wpkh::ecdsa_sighash_script_code` (lines 433-446): the BIP-143 P2PKH
script code. -/
def Wpkh.ecdsaSighashScriptCode (H : Hashers) (D : Wpkh) : List Nat :=
  (ElAddress.p2pkh H D.pk none PARAMS_ELEMENTS).script_pubkey

/-- `Wpkh::get_satisfaction` (lines 451-463): the two-element witness
`[rawsig, pk]` with an empty scriptSig when a signature is available,
`MissingSig` otherwise. -/
def Wpkh.getSatisfaction (D : Wpkh) (satisfier : Satisfier) :
    Except Error (List (List Nat) × List Nat) :=
  match satisfier.lookupEcdsaSig D.pk with
  | some sig => .ok ([elementssig_to_rawsig sig, pkToBytes D.pk], [])
  | none => .error (.missingSig (pkToBytes D.pk))

/-- `Wpkh::get_satisfaction_mall` (lines 468-473): delegates to
`get_satisfaction`. -/
def Wpkh.getSatisfactionMall (D : Wpkh) (satisfier : Satisfier) :
    Except Error (List (List Nat) × List Nat) :=
  Wpkh.getSatisfaction D satisfier

/-- `impl Display for Wpkh` (lines 482-488). -/
def Wpkh.display (D : Wpkh) : Option (List Char) :=
  match descChecksum (ELMTS_STR ++ Wpkh.toStringNoChecksum D) with
  | .error _ => none
  | .ok ck => some ((ELMTS_STR ++ Wpkh.toStringNoChecksum D) ++ '#' :: ck)

/-- `impl FromTree for Wpkh` (lines 503-515): the name must be `elwpkh` with
one leaf argument, parsed as a key and passed to `Wpkh::new`. -/
def Wpkh.fromTree (t : Tree) : Except Error Wpkh :=
  match t with
  | .mk n args =>
    if n = "elwpkh".toList then
      match args with
      | [.mk kk []] => if validAtom kk then Wpkh.new kk else .error (.unexpected kk)
      | _ => .error (.unexpected n)
    else .error (.unexpected n)

/-- `impl FromStr for Wpkh` (lines 527-531). -/
def Wpkh.fromStr (s : List Char) : Except Error Wpkh :=
  match verifyChecksum s with
  | .error e => .error e
  | .ok body =>
    match Tree.fromStr body with
    | .error e => .error e
    | .ok t => Wpkh.fromTree t

/-- `<Wpkh as TranslatePk>::translate_pk` (lines 547-558):
`Wpkh::new(translatefpk(&self.pk)?).expect("Uncompressed keys in Wpkh")`.
The `expect` panics when the translated key is uncompressed; the panic is
modelled as `none`. -/
def Wpkh.translatePk {E : Type} (fpk : PK → Except E PK) (D : Wpkh) :
    Option (Except E Wpkh) :=
  match fpk D.pk with
  | .error e => some (.error e)
  | .ok q =>
    match Wpkh.new q with
    | .ok w => some (.ok w)
    | .error _ => none

/-- A non-wrapper fragment is never named `sortedmulti`. -/
def Ms.base_name_ne_sortedmulti : ∀ m : Ms, m.isWrapper = false →
    (Ms.tree m).name ≠ "sortedmulti".toList
  | .pk_k _, _ => by
    simp only [Ms.tree, Tree.name_mk]
    decide
  | .pk_h _, _ => by
    simp only [Ms.tree, Tree.name_mk]
    decide
  | .older _, _ => by
    simp only [Ms.tree, Tree.name_mk]
    decide
  | .after _, _ => by
    simp only [Ms.tree, Tree.name_mk]
    decide
  | .sha256 _, _ => by
    simp only [Ms.tree, Tree.name_mk]
    decide
  | .hash256 _, _ => by
    simp only [Ms.tree, Tree.name_mk]
    decide
  | .ripemd160 _, _ => by
    simp only [Ms.tree, Tree.name_mk]
    decide
  | .hash160 _, _ => by
    simp only [Ms.tree, Tree.name_mk]
    decide
  | .andor _ _ _, _ => by
    simp only [Ms.tree, Tree.name_mk]
    decide
  | .and_v _ _, _ => by
    simp only [Ms.tree, Tree.name_mk]
    decide
  | .and_b _ _, _ => by
    simp only [Ms.tree, Tree.name_mk]
    decide
  | .or_b _ _, _ => by
    simp only [Ms.tree, Tree.name_mk]
    decide
  | .or_c _ _, _ => by
    simp only [Ms.tree, Tree.name_mk]
    decide
  | .or_d _ _, _ => by
    simp only [Ms.tree, Tree.name_mk]
    decide
  | .or_i _ _, _ => by
    simp only [Ms.tree, Tree.name_mk]
    decide
  | .thresh _ _, _ => by
    simp only [Ms.tree, Tree.name_mk]
    decide
  | .multi _ _, _ => by
    simp only [Ms.tree, Tree.name_mk]
    decide
  | .multi_a _ _, _ => by
    simp only [Ms.tree, Tree.name_mk]
    decide
  | .wrapA _, hw => by simp [Ms.isWrapper] at hw
  | .wrapS _, hw => by simp [Ms.isWrapper] at hw
  | .wrapC _, hw => by simp [Ms.isWrapper] at hw
  | .wrapD _, hw => by simp [Ms.isWrapper] at hw
  | .wrapV _, hw => by simp [Ms.isWrapper] at hw
  | .wrapJ _, hw => by simp [Ms.isWrapper] at hw
  | .wrapN _, hw => by simp [Ms.isWrapper] at hw
  | .wrapL _, hw => by simp [Ms.isWrapper] at hw
  | .wrapU _, hw => by simp [Ms.isWrapper] at hw
  | .wrapT _, hw => by simp [Ms.isWrapper] at hw

/-- No fragment's tree is named `sortedmulti`. -/
theorem Ms.tree_name_ne_sortedmulti (m : Ms) :
    (Ms.tree m).name ≠ "sortedmulti".toList := by
  cases hw : m.isWrapper with
  | false => exact Ms.base_name_ne_sortedmulti m hw
  | true =>
    intro heq
    have hsh := Ms.tree_shape m
    have hwne := Ms.wrapper_wchars_ne_nil m hw
    have hnee : m.wchars.isEmpty = false := by
      simp [List.isEmpty_iff, hwne]
    have hcol : ':' ∈ (Ms.tree m).name := by
      rw [hsh.1, hnee]
      simp
    rw [heq] at hcol
    exact absurd hcol (by decide)

/-- `sortedmulti` round trip: a `SortedMultiVec` built through `new` with
valid key atoms reparses from its tree. -/
theorem SortedMultiVec.smv_fromTree_tree (k : Nat) (pks : List PK) (smv : SortedMultiVec)
    (hnew : SortedMultiVec.new k pks = .ok smv) (hvk : ∀ pk ∈ pks, validAtom pk = true) :
    SortedMultiVec.fromTree smv.tree = .ok smv := by
  unfold SortedMultiVec.new at hnew
  by_cases hc : SortedMultiVec.condOk k pks
  · rw [if_pos hc] at hnew
    obtain rfl : (⟨k, pks⟩ : SortedMultiVec) = smv := by
      simpa using hnew
    have hk32 : k < 2 ^ 32 := by
      obtain ⟨h1, h2, h3, _⟩ := hc
      omega
    simp only [SortedMultiVec.fromTree, SortedMultiVec.tree,
      numOfTree_natToChars k hk32, keysOfTrees_map pks hvk]
    unfold SortedMultiVec.new
    rw [if_pos hc]
  · rw [if_neg hc] at hnew
    exact absurd hnew (by simp)

/-- The `sortedmulti` tree of a constructed `SortedMultiVec` is wellformed. -/
theorem SortedMultiVec.tree_wf (smv : SortedMultiVec)
    (hvk : ∀ pk ∈ smv.pks, validAtom pk = true) : Tree.wf smv.tree := by
  exact ⟨by decide, by decide,
    ⟨natToChars_ne_nil smv.k, natToChars_goodName smv.k, trivial⟩,
    keysTrees_wf smv.pks hvk⟩

/-- The descriptor body of a `Wsh` display is the rendering of the `elwsh`
tree around the inner fragment. -/
theorem Wsh.body_eq_render (D : Wsh) :
    ELMTS_STR ++ Wsh.toStringNoChecksum D
      = Tree.render (Tree.mk "elwsh".toList [Wsh.innerTree D]) := by
  simp [ELMTS_STR, Wsh.toStringNoChecksum, Tree.render, Tree.renderArgs]

/-- Same for `Wpkh`. -/
theorem Wpkh.wpkh_body_eq_render (D : Wpkh) :
    ELMTS_STR ++ Wpkh.toStringNoChecksum D
      = Tree.render (Tree.mk "elwpkh".toList [Tree.mk D.pk []]) := by
  simp [ELMTS_STR, Wpkh.toStringNoChecksum, Tree.render, Tree.renderArgs]

/-- Round trip for a `wsh` descriptor over a miniscript fragment. -/
theorem Wsh.roundtrip_ms (checks : Ms → Except Error Unit) (m : Ms) (D : Wsh)
    (hnew : Wsh.new checks m = .ok D) (hval : Ms.valid m) :
    ∃ s body ck, Wsh.display D = some s ∧ s = body ++ '#' :: ck
      ∧ verifyChecksum s = .ok body ∧ Wsh.fromStr checks s = .ok D := by
  have hchk : checks m = .ok () ∧ D = ⟨.ms m⟩ := by
    unfold Wsh.new at hnew
    cases hcm : checks m with
    | error e =>
      rw [hcm] at hnew
      exact absurd hnew (by simp)
    | ok u =>
      rw [hcm] at hnew
      cases u
      exact ⟨rfl, by simpa using hnew.symm⟩
  obtain ⟨hchk1, rfl⟩ := hchk
  have hTwf : Tree.wf (Tree.mk "elwsh".toList [Ms.tree m]) :=
    ⟨by decide, by decide, Ms.tree_wf m hval, trivial⟩
  have hTgood := Tree.wf_good _ hTwf
  have hbody := Wsh.body_eq_render ⟨.ms m⟩
  have hinner : Wsh.innerTree ⟨.ms m⟩ = Ms.tree m := rfl
  rw [hinner] at hbody
  have hchars := Tree.render_chars _ hTwf
  have hcs : ∀ c ∈ Tree.render (Tree.mk "elwsh".toList [Ms.tree m]), c ∈ INPUT_CHARSET :=
    fun c hc => (hchars c hc).1
  have hnh : '#' ∉ Tree.render (Tree.mk "elwsh".toList [Ms.tree m]) :=
    fun hm => (hchars _ hm).2 rfl
  obtain ⟨ck, hck, _, _⟩ := descChecksum_total _ hcs
  refine ⟨Tree.render (Tree.mk "elwsh".toList [Ms.tree m]) ++ '#' :: ck,
    Tree.render (Tree.mk "elwsh".toList [Ms.tree m]), ck, ?_, rfl, ?_, ?_⟩
  · unfold Wsh.display
    rw [hbody, hck]
  · exact verifyChecksum_ok _ _ hnh hck
  · unfold Wsh.fromStr
    simp only [verifyChecksum_ok _ _ hnh hck, Tree.fromStr_render _ hTgood]
    have hlen : (Tree.render (Tree.mk "elwsh".toList [Ms.tree m])).length
        = (Tree.render (Ms.tree m)).length + 7 := by
      simp [Tree.render, Tree.renderArgs]
    have hfuel : Ms.pfuel m ≤ (Tree.render (Tree.mk "elwsh".toList [Ms.tree m])).length := by
      have h1 := Ms.pfuel_le_render m
      omega
    have hms := Ms.fromTree_tree m hval _ hfuel
    have hcond : ((Ms.tree m).name = "sortedmulti".toList) = False :=
      eq_false (Ms.tree_name_ne_sortedmulti m)
    simp only [Wsh.fromTree, reduceIte, hcond, if_false, hms, hchk1]

/-- Round trip for a `wsh` descriptor over a `sortedmulti`. -/
theorem Wsh.roundtrip_sortedmulti (checks : Ms → Except Error Unit) (k : Nat)
    (pks : List PK) (D : Wsh) (hnew : Wsh.newSortedMulti k pks = .ok D)
    (hvk : ∀ pk ∈ pks, validAtom pk = true) :
    ∃ s body ck, Wsh.display D = some s ∧ s = body ++ '#' :: ck
      ∧ verifyChecksum s = .ok body ∧ Wsh.fromStr checks s = .ok D := by
  have hsmv : ∃ smv, SortedMultiVec.new k pks = .ok smv ∧ D = ⟨.sortedMulti smv⟩ := by
    unfold Wsh.newSortedMulti at hnew
    cases hcm : SortedMultiVec.new k pks with
    | error e =>
      rw [hcm] at hnew
      exact absurd hnew (by simp)
    | ok smv =>
      rw [hcm] at hnew
      exact ⟨smv, rfl, by simpa using hnew.symm⟩
  obtain ⟨smv, hsnew, rfl⟩ := hsmv
  have hpks : smv.pks = pks ∧ smv.k = k := by
    unfold SortedMultiVec.new at hsnew
    by_cases hc : SortedMultiVec.condOk k pks
    · rw [if_pos hc] at hsnew
      have := Except.ok.inj hsnew
      rw [← this]
      exact ⟨rfl, rfl⟩
    · rw [if_neg hc] at hsnew
      exact absurd hsnew (by simp)
  have hvk2 : ∀ pk ∈ smv.pks, validAtom pk = true := by
    rw [hpks.1]
    exact hvk
  have hTwf : Tree.wf (Tree.mk "elwsh".toList [smv.tree]) :=
    ⟨by decide, by decide, SortedMultiVec.tree_wf smv hvk2, trivial⟩
  have hTgood := Tree.wf_good _ hTwf
  have hbody := Wsh.body_eq_render ⟨.sortedMulti smv⟩
  have hinner : Wsh.innerTree ⟨.sortedMulti smv⟩ = smv.tree := rfl
  rw [hinner] at hbody
  have hchars := Tree.render_chars _ hTwf
  have hcs : ∀ c ∈ Tree.render (Tree.mk "elwsh".toList [smv.tree]), c ∈ INPUT_CHARSET :=
    fun c hc => (hchars c hc).1
  have hnh : '#' ∉ Tree.render (Tree.mk "elwsh".toList [smv.tree]) :=
    fun hm => (hchars _ hm).2 rfl
  obtain ⟨ck, hck, _, _⟩ := descChecksum_total _ hcs
  refine ⟨Tree.render (Tree.mk "elwsh".toList [smv.tree]) ++ '#' :: ck,
    Tree.render (Tree.mk "elwsh".toList [smv.tree]), ck, ?_, rfl, ?_, ?_⟩
  · unfold Wsh.display
    rw [hbody, hck]
  · exact verifyChecksum_ok _ _ hnh hck
  · unfold Wsh.fromStr
    simp only [verifyChecksum_ok _ _ hnh hck, Tree.fromStr_render _ hTgood]
    have hname : smv.tree.name = "sortedmulti".toList := rfl
    have hsm := SortedMultiVec.smv_fromTree_tree k pks smv hsnew hvk
    simp only [Wsh.fromTree, reduceIte, hname, hsm]

/-- Round trip for a `wpkh` descriptor. -/
theorem Wpkh.roundtrip (pk : PK) (D : Wpkh) (hnew : Wpkh.new pk = .ok D)
    (hval : validAtom pk = true) :
    ∃ s body ck, Wpkh.display D = some s ∧ s = body ++ '#' :: ck
      ∧ verifyChecksum s = .ok body ∧ Wpkh.fromStr s = .ok D := by
  have hD : D = ⟨pk⟩ := by
    unfold Wpkh.new at hnew
    by_cases hc : pkIsUncompressed pk
    · rw [if_pos hc] at hnew
      exact absurd hnew (by simp)
    · rw [if_neg hc] at hnew
      exact (Except.ok.inj hnew).symm
  subst hD
  have hva := validAtom_good pk hval
  have hTwf : Tree.wf (Tree.mk "elwpkh".toList [Tree.mk pk []]) :=
    ⟨by decide, by decide, ⟨hva.1, hva.2, trivial⟩, trivial⟩
  have hTgood := Tree.wf_good _ hTwf
  have hbody := Wpkh.wpkh_body_eq_render ⟨pk⟩
  have hchars := Tree.render_chars _ hTwf
  have hcs : ∀ c ∈ Tree.render (Tree.mk "elwpkh".toList [Tree.mk pk []]), c ∈ INPUT_CHARSET :=
    fun c hc => (hchars c hc).1
  have hnh : '#' ∉ Tree.render (Tree.mk "elwpkh".toList [Tree.mk pk []]) :=
    fun hm => (hchars _ hm).2 rfl
  obtain ⟨ck, hck, _, _⟩ := descChecksum_total _ hcs
  refine ⟨Tree.render (Tree.mk "elwpkh".toList [Tree.mk pk []]) ++ '#' :: ck,
    Tree.render (Tree.mk "elwpkh".toList [Tree.mk pk []]), ck, ?_, rfl, ?_, ?_⟩
  · unfold Wpkh.display
    rw [hbody, hck]
  · exact verifyChecksum_ok _ _ hnh hck
  · unfold Wpkh.fromStr
    simp only [verifyChecksum_ok _ _ hnh hck, Tree.fromStr_render _ hTgood]
    simp only [Wpkh.fromTree, reduceIte, hval, if_true]
    exact hnew

/-! ### Shared concrete instances for witnesses -/

/-- Stand-in hash primitives with the right output lengths. -/
def trivHashers : Hashers where
  sha256 := fun _ => List.replicate 32 0
  hash160 := fun _ => List.replicate 20 0
  sha256_len := fun _ => by simp
  hash160_len := fun _ => by simp

/-- Stand-in miniscript calculus. -/
def trivCalc : MsCalc where
  scriptSize := fun _ => 0
  maxSatElems := fun _ => .ok 0
  maxSatSize := fun _ => .ok 0
  encode := fun _ => []
  satisfy := fun _ _ => .ok []
  satisfyMall := fun _ _ => .ok []
  smvScriptSize := fun _ => 0
  smvMaxSatElems := fun _ => 0
  smvMaxSatSize := fun _ => 0
  smvEncode := fun _ => []
  smvSatisfy := fun _ _ => .ok []

/-- Top-level checks that accept everything (one admissible instance of the
abstract checks). -/
def trivChecks : Ms → Except Error Unit := fun _ => .ok ()

/-- A satisfier with no evidence at all. -/
def emptySatisfier : Satisfier := ⟨fun _ => none⟩

/-! ### Sequenced sanity checks (for the idempotence claim) -/

/-- Calling `sanity_check` twice in sequence on a `wsh` descriptor. -/
def Wsh.sanityTwice (checks : Ms → Except Error Unit) (D : Wsh) : Except Error Unit :=
  match Wsh.sanityCheck checks D with
  | .error e => .error e
  | .ok _ => Wsh.sanityCheck checks D

/-- Calling `sanity_check` twice in sequence on a `wpkh` descriptor. -/
def Wpkh.sanityTwice (D : Wpkh) : Except Error Unit :=
  match Wpkh.sanityCheck D with
  | .error e => .error e
  | .ok _ => Wpkh.sanityCheck D

/-! ### The claims -/

/-- C1 (counterexample): for the compressed key `"02"` and any hash
primitives, `Wpkh::inner_script` does **not** return the legacy P2PKH script
`OP_DUP OP_HASH160 <hash160> OP_EQUALVERIFY OP_CHECKSIG`: it returns the
P2WPKH scriptPubKey `OP_0 <hash160>`. -/
theorem wpkh_inner_script_not_p2pkh :
    Wpkh.innerScript trivHashers ⟨"02".toList⟩
      ≠ [0x76, 0xa9, 0x14] ++ trivHashers.hash160 (pkToBytes "02".toList) ++ [0x88, 0xac] := by
  decide

/-- C1 (amended): `Wsh::inner_script` returns the encoded witness script of
the inner miniscript or sortedmulti; `Wpkh::inner_script` returns the P2WPKH
scriptPubKey `OP_0 <20-byte hash160 of the key>` (the legacy P2PKH form is
what `ecdsa_sighash_script_code` returns instead). -/
theorem inner_script_spec :
    (∀ (H : Hashers) (D : Wpkh),
      Wpkh.innerScript H D = [0x00, 0x14] ++ H.hash160 (pkToBytes D.pk)
        ∧ Wpkh.innerScript H D = Wpkh.script_pubkey H D
        ∧ Wpkh.ecdsaSighashScriptCode H D
            = [0x76, 0xa9, 0x14] ++ H.hash160 (pkToBytes D.pk) ++ [0x88, 0xac])
    ∧ (∀ (mc : MsCalc) (smv : SortedMultiVec),
      Wsh.innerScript mc ⟨.sortedMulti smv⟩ = mc.smvEncode smv)
    ∧ (∀ (mc : MsCalc) (m : Ms), Wsh.innerScript mc ⟨.ms m⟩ = mc.encode m) := by
  refine ⟨fun H D => ⟨?_, rfl, ?_⟩, fun mc smv => rfl, fun mc m => rfl⟩
  · simp [Wpkh.innerScript, Wpkh.script_pubkey, Wpkh.address, ElAddress.p2wpkh,
      ElAddress.script_pubkey]
  · simp [Wpkh.ecdsaSighashScriptCode, ElAddress.p2pkh, ElAddress.script_pubkey,
      List.append_assoc]

/-- C2 (counterexample): for the `wpkh("02")` descriptor and a satisfier with
no signatures, `get_satisfaction` returns `MissingSig`, not
`CouldNotSatisfy`. -/
theorem wpkh_get_satisfaction_missing_sig_not_could_not_satisfy :
    Wpkh.getSatisfaction ⟨"02".toList⟩ emptySatisfier
        = .error (.missingSig (pkToBytes "02".toList))
      ∧ Wpkh.getSatisfaction ⟨"02".toList⟩ emptySatisfier
        ≠ .error .couldNotSatisfy := by
  refine ⟨rfl, ?_⟩
  intro h
  rw [show Wpkh.getSatisfaction ⟨"02".toList⟩ emptySatisfier
      = .error (.missingSig (pkToBytes "02".toList)) from rfl] at h
  simp at h

/-- C2 (amended): when `get_satisfaction` cannot produce a witness it returns
an error — `MissingSig(pk)` for `wpkh` with no signature, and for `wsh` the
inner satisfaction error (the witness constructor's `CouldNotSatisfy`) is
propagated — and it never returns a silent empty witness: an `Ok` witness has
exactly two elements (`wpkh`) or ends with the nonempty-pushed witness script
(`wsh`), with an empty scriptSig. -/
theorem get_satisfaction_no_silent_empty_witness :
    (∀ (D : Wpkh) (sat : Satisfier), sat.lookupEcdsaSig D.pk = none →
      Wpkh.getSatisfaction D sat = .error (.missingSig (pkToBytes D.pk)))
    ∧ (∀ (D : Wpkh) (sat : Satisfier) (w : List (List Nat)) (ss : List Nat),
      Wpkh.getSatisfaction D sat = .ok (w, ss) → w.length = 2 ∧ ss = [])
    ∧ (∀ (mc : MsCalc) (D : Wsh) (sat : Satisfier) (w : List (List Nat)) (ss : List Nat),
      Wsh.getSatisfaction mc D sat = .ok (w, ss) →
        w ≠ [] ∧ w.getLast? = some (Wsh.innerScript mc D) ∧ ss = [])
    ∧ (∀ (mc : MsCalc) (D : Wsh) (sat : Satisfier) (e : Error),
      (match D.inner with
       | .sortedMulti smv => mc.smvSatisfy smv sat
       | .ms m => mc.satisfy m sat) = .error e →
      Wsh.getSatisfaction mc D sat = .error e) := by
  refine ⟨?_, ?_, ?_, ?_⟩
  · intro D sat h
    unfold Wpkh.getSatisfaction
    rw [h]
  · intro D sat w ss h
    unfold Wpkh.getSatisfaction at h
    cases hl : sat.lookupEcdsaSig D.pk with
    | none =>
      rw [hl] at h
      exact absurd h (by simp)
    | some sig =>
      rw [hl] at h
      have := Except.ok.inj h
      obtain ⟨rfl, rfl⟩ := Prod.mk.injEq .. ▸ And.intro (congrArg Prod.fst this) (congrArg Prod.snd this)
      simp
  · intro mc D sat w ss h
    unfold Wsh.getSatisfaction at h
    cases hs : (match D.inner with
       | .sortedMulti smv => mc.smvSatisfy smv sat
       | .ms m => mc.satisfy m sat) with
    | error e =>
      rw [hs] at h
      exact absurd h (by simp)
    | ok witness =>
      rw [hs] at h
      have := Except.ok.inj h
      have hw : w = witness ++ [Wsh.innerScript mc D] := (congrArg Prod.fst this).symm
      have hss : ss = [] := (congrArg Prod.snd this).symm
      subst hw
      subst hss
      refine ⟨by simp, ?_, rfl⟩
      simp
  · intro mc D sat e h
    unfold Wsh.getSatisfaction
    rw [h]

/-- C3 (counterexample): for `wpkh("02")` (compressed key, `pk_len = 34`) the
weight is `4 + 1 + 73 + 34 = 112`, which differs from the claimed formula
`4 + varint_len(script_size) + script_size + varint_len(n_elems) + Σ sizes`
read with no witness script (`script_size = 0`), two witness elements and
element sizes `73 + 34`: that gives `113`. -/
theorem wpkh_max_satisfaction_weight_off_formula :
    Wpkh.maxSatisfactionWeight ⟨"02".toList⟩ = 112
      ∧ Wpkh.maxSatisfactionWeight ⟨"02".toList⟩
        ≠ 4 + varintLen 0 + 0 + varintLen 2 + (73 + pkLen "02".toList) := by
  constructor
  · rfl
  · decide

/-- C3 (amended): for `wsh` the weight is exactly
`4 + varint_len(script_size) + script_size + varint_len(n_elems) + Σ sizes`;
for `wpkh` the witness-script terms are absent and the weight is exactly
`4 + varint_len(2) + (73 + pk_len)` — one byte less than the full formula
with `script_size = 0`. -/
theorem max_satisfaction_weight_formula :
    (∀ (mc : MsCalc) (smv : SortedMultiVec),
      Wsh.maxSatisfactionWeight mc ⟨.sortedMulti smv⟩
        = .ok (4 + varintLen (mc.smvScriptSize smv) + mc.smvScriptSize smv
          + varintLen (mc.smvMaxSatElems smv) + mc.smvMaxSatSize smv))
    ∧ (∀ (mc : MsCalc) (m : Ms) (elems size : Nat),
      mc.maxSatElems m = .ok elems → mc.maxSatSize m = .ok size →
      Wsh.maxSatisfactionWeight mc ⟨.ms m⟩
        = .ok (4 + varintLen (mc.scriptSize m) + mc.scriptSize m
          + varintLen elems + size))
    ∧ (∀ D : Wpkh,
      Wpkh.maxSatisfactionWeight D = 4 + varintLen 2 + (73 + pkLen D.pk)) := by
  refine ⟨fun mc smv => rfl, ?_, ?_⟩
  · intro mc m elems size h1 h2
    simp only [Wsh.maxSatisfactionWeight, h1, h2]
  · intro D
    unfold Wpkh.maxSatisfactionWeight varintLen
    norm_num
    omega

/-- C3 (witness): the amended formula evaluated with the stand-in calculus on
a concrete descriptor. -/
theorem max_satisfaction_weight_formula_witness :
    Wsh.maxSatisfactionWeight trivCalc ⟨.ms (.pk_k "ab".toList)⟩
      = .ok (4 + varintLen (trivCalc.scriptSize (.pk_k "ab".toList))
        + trivCalc.scriptSize (.pk_k "ab".toList) + varintLen 0 + 0) :=
  max_satisfaction_weight_formula.2.1 trivCalc (.pk_k "ab".toList) 0 0 rfl rfl

/-- C6: `Wpkh::new` fails exactly on an uncompressed key, with
`ContextError(CompressedOnly)`, and `sanity_check` fails under exactly the
same condition, with the same error. -/
theorem wpkh_new_sanity_compressed_only :
    ∀ pk : PK,
      ((∃ D, Wpkh.new pk = .ok D) ↔ pkIsUncompressed pk = false)
      ∧ (pkIsUncompressed pk = true →
          Wpkh.new pk = .error (.contextError (.compressedOnly pk)))
      ∧ (∀ D : Wpkh, (Wpkh.sanityCheck D = .ok () ↔ pkIsUncompressed D.pk = false))
      ∧ (∀ D : Wpkh, pkIsUncompressed D.pk = true →
          Wpkh.sanityCheck D = .error (.contextError (.compressedOnly D.pk))) := by
  intro pk
  refine ⟨?_, ?_, ?_, ?_⟩
  · constructor
    · rintro ⟨D, hD⟩
      by_contra hc
      have hc2 : pkIsUncompressed pk = true := by
        cases h : pkIsUncompressed pk
        · exact absurd h hc
        · rfl
      unfold Wpkh.new at hD
      rw [if_pos hc2] at hD
      exact absurd hD (by simp)
    · intro h
      refine ⟨⟨pk⟩, ?_⟩
      unfold Wpkh.new
      rw [if_neg (by simp [h])]
  · intro h
    unfold Wpkh.new
    rw [if_pos h]
  · intro D
    constructor
    · intro h
      by_contra hc
      have hc2 : pkIsUncompressed D.pk = true := by
        cases hh : pkIsUncompressed D.pk
        · exact absurd hh hc
        · rfl
      unfold Wpkh.sanityCheck at h
      rw [if_pos hc2] at h
      exact absurd h (by simp)
    · intro h
      unfold Wpkh.sanityCheck
      rw [if_neg (by simp [h])]
  · intro D h
    unfold Wpkh.sanityCheck
    rw [if_pos h]

/-- C8: the scriptPubKey of the derived address equals the descriptor's
scriptPubKey, for every blinder and address-params value; for `wsh` it is
`OP_0` plus the 32-byte sha256 of the inner script, for `wpkh` it is `OP_0`
plus the 20-byte hash160 of the key. -/
theorem address_script_pubkey_determinism :
    (∀ (H : Hashers) (mc : MsCalc) (D : Wsh) (b : Option (List Nat)) (p : AddressParams),
      (Wsh.address H mc D b p).script_pubkey = Wsh.script_pubkey H mc D
        ∧ Wsh.script_pubkey H mc D = [0x00, 0x20] ++ H.sha256 (Wsh.innerScript mc D)
        ∧ (H.sha256 (Wsh.innerScript mc D)).length = 32)
    ∧ (∀ (H : Hashers) (D : Wpkh) (b : Option (List Nat)) (p : AddressParams),
      (Wpkh.address H D b p).script_pubkey = Wpkh.script_pubkey H D
        ∧ Wpkh.script_pubkey H D = [0x00, 0x14] ++ H.hash160 (pkToBytes D.pk)
        ∧ (H.hash160 (pkToBytes D.pk)).length = 20) := by
  constructor
  · intro H mc D b p
    refine ⟨?_, rfl, H.sha256_len _⟩
    cases D with
    | mk inner =>
      cases inner with
      | sortedMulti smv => rfl
      | ms m => rfl
  · intro H D b p
    exact ⟨rfl, rfl, H.hash160_len _⟩

/-- C9: `sanity_check` run twice in sequence yields the result of a single
run (the descriptor is a pure value, unchanged by the call), and on any
descriptor built through the checked constructors `Wsh::new`,
`Wsh::new_sortedmulti` or `Wpkh::new` it returns `Ok`. -/
theorem sanity_check_idempotent_and_ok_on_constructed :
    (∀ (checks : Ms → Except Error Unit) (D : Wsh),
      Wsh.sanityTwice checks D = Wsh.sanityCheck checks D)
    ∧ (∀ D : Wpkh, Wpkh.sanityTwice D = Wpkh.sanityCheck D)
    ∧ (∀ (checks : Ms → Except Error Unit) (m : Ms) (D : Wsh),
      Wsh.new checks m = .ok D → Wsh.sanityCheck checks D = .ok ())
    ∧ (∀ (k : Nat) (pks : List PK) (D : Wsh) (checks : Ms → Except Error Unit),
      Wsh.newSortedMulti k pks = .ok D → Wsh.sanityCheck checks D = .ok ())
    ∧ (∀ (pk : PK) (D : Wpkh), Wpkh.new pk = .ok D → Wpkh.sanityCheck D = .ok ()) := by
  refine ⟨?_, ?_, ?_, ?_, ?_⟩
  · intro checks D
    unfold Wsh.sanityTwice
    cases h : Wsh.sanityCheck checks D with
    | error e => rfl
    | ok u =>
      cases u
      rfl
  · intro D
    unfold Wpkh.sanityTwice
    cases h : Wpkh.sanityCheck D with
    | error e => rfl
    | ok u =>
      cases u
      rfl
  · intro checks m D hnew
    unfold Wsh.new at hnew
    cases hc : checks m with
    | error e =>
      rw [hc] at hnew
      exact absurd hnew (by simp)
    | ok u =>
      rw [hc] at hnew
      cases u
      have hD : D = ⟨.ms m⟩ := by simpa using hnew.symm
      subst hD
      exact hc
  · intro k pks D checks hnew
    unfold Wsh.newSortedMulti at hnew
    cases hc : SortedMultiVec.new k pks with
    | error e =>
      rw [hc] at hnew
      exact absurd hnew (by simp)
    | ok smv =>
      rw [hc] at hnew
      have hD : D = ⟨.sortedMulti smv⟩ := by simpa using hnew.symm
      subst hD
      show smv.sanityCheck = .ok ()
      unfold SortedMultiVec.new at hc
      by_cases hcc : SortedMultiVec.condOk k pks
      · rw [if_pos hcc] at hc
        have := Except.ok.inj hc
        subst this
        unfold SortedMultiVec.sanityCheck
        rw [if_pos hcc]
      · rw [if_neg hcc] at hc
        exact absurd hc (by simp)
  · intro pk D hnew
    unfold Wpkh.new at hnew
    by_cases hc : pkIsUncompressed pk
    · rw [if_pos hc] at hnew
      exact absurd hnew (by simp)
    · rw [if_neg hc] at hnew
      have hD : D = ⟨pk⟩ := (Except.ok.inj hnew).symm
      subst hD
      unfold Wpkh.sanityCheck
      rw [if_neg hc]

/-- C9 (witness): the constructed-descriptor clauses at concrete inputs. -/
theorem sanity_check_idempotent_witness :
    Wsh.sanityCheck trivChecks ⟨.ms (.pk_k "ab".toList)⟩ = .ok ()
      ∧ Wpkh.sanityCheck ⟨"ab".toList⟩ = .ok () := by
  constructor
  · exact sanity_check_idempotent_and_ok_on_constructed.2.2.1 trivChecks
      (.pk_k "ab".toList) ⟨.ms (.pk_k "ab".toList)⟩ rfl
  · exact sanity_check_idempotent_and_ok_on_constructed.2.2.2.2 "ab".toList ⟨"ab".toList⟩ rfl

/-- C10: for `wpkh`, the malleable satisfaction path coincides exactly with
the non-malleable one, and when a signature is available the result is the
two-element witness `[raw signature, serialized key]` with an empty
scriptSig. -/
theorem wpkh_satisfaction_mall_eq :
    (∀ (D : Wpkh) (sat : Satisfier),
      Wpkh.getSatisfactionMall D sat = Wpkh.getSatisfaction D sat)
    ∧ (∀ (D : Wpkh) (sat : Satisfier) (sig : ElementsSig),
      sat.lookupEcdsaSig D.pk = some sig →
      Wpkh.getSatisfaction D sat
        = .ok ([elementssig_to_rawsig sig, pkToBytes D.pk], [])) := by
  constructor
  · intro D sat
    rfl
  · intro D sat sig h
    unfold Wpkh.getSatisfaction
    rw [h]

/-- C10 (witness): a satisfier holding one signature for the key `"ab"`. -/
theorem wpkh_satisfaction_mall_eq_witness :
    Wpkh.getSatisfaction ⟨"ab".toList⟩ ⟨fun _ => some ⟨[1, 2], 1⟩⟩
      = .ok ([elementssig_to_rawsig ⟨[1, 2], 1⟩, pkToBytes "ab".toList], []) :=
  wpkh_satisfaction_mall_eq.2 ⟨"ab".toList⟩ ⟨fun _ => some ⟨[1, 2], 1⟩⟩ ⟨[1, 2], 1⟩ rfl

/-! ### C5: what `translate_pk` computes

Spec-side definitions (`Ms.atoms`, `Ms.map`, `firstErrOn`) stating "same
structure, each key replaced by its translation, first inner failure": the
claim compares `translate_pk` against them. -/

mutual

/-- The keys (`inl`) and key hashes (`inr`) of a fragment, in the
left-to-right order `translate_pk` visits them. -/
def Ms.atoms : Ms → List (Sum PK PK)
  | .pk_k k => [Sum.inl k]
  | .pk_h kh => [Sum.inr kh]
  | .older _ => []
  | .after _ => []
  | .sha256 _ => []
  | .hash256 _ => []
  | .ripemd160 _ => []
  | .hash160 _ => []
  | .andor x y z => Ms.atoms x ++ (Ms.atoms y ++ Ms.atoms z)
  | .and_v x y => Ms.atoms x ++ Ms.atoms y
  | .and_b x y => Ms.atoms x ++ Ms.atoms y
  | .or_b x y => Ms.atoms x ++ Ms.atoms y
  | .or_c x y => Ms.atoms x ++ Ms.atoms y
  | .or_d x y => Ms.atoms x ++ Ms.atoms y
  | .or_i x y => Ms.atoms x ++ Ms.atoms y
  | .thresh _ subs => Ms.atomsList subs
  | .multi _ keys => keys.map Sum.inl
  | .multi_a _ keys => keys.map Sum.inl
  | .wrapA x => Ms.atoms x
  | .wrapS x => Ms.atoms x
  | .wrapC x => Ms.atoms x
  | .wrapD x => Ms.atoms x
  | .wrapV x => Ms.atoms x
  | .wrapJ x => Ms.atoms x
  | .wrapN x => Ms.atoms x
  | .wrapL x => Ms.atoms x
  | .wrapU x => Ms.atoms x
  | .wrapT x => Ms.atoms x

/-- The atoms of a list of fragments, left to right. -/
def Ms.atomsList : List Ms → List (Sum PK PK)
  | [] => []
  | m :: ms => Ms.atoms m ++ Ms.atomsList ms

end

mutual

/-- Structure-preserving key replacement: `g` on keys, `gh` on key hashes. -/
def Ms.map (g gh : PK → PK) : Ms → Ms
  | .pk_k k => .pk_k (g k)
  | .pk_h kh => .pk_h (gh kh)
  | .older v => .older v
  | .after v => .after v
  | .sha256 a => .sha256 a
  | .hash256 a => .hash256 a
  | .ripemd160 a => .ripemd160 a
  | .hash160 a => .hash160 a
  | .andor x y z => .andor (Ms.map g gh x) (Ms.map g gh y) (Ms.map g gh z)
  | .and_v x y => .and_v (Ms.map g gh x) (Ms.map g gh y)
  | .and_b x y => .and_b (Ms.map g gh x) (Ms.map g gh y)
  | .or_b x y => .or_b (Ms.map g gh x) (Ms.map g gh y)
  | .or_c x y => .or_c (Ms.map g gh x) (Ms.map g gh y)
  | .or_d x y => .or_d (Ms.map g gh x) (Ms.map g gh y)
  | .or_i x y => .or_i (Ms.map g gh x) (Ms.map g gh y)
  | .thresh k subs => .thresh k (Ms.mapList g gh subs)
  | .multi k keys => .multi k (keys.map g)
  | .multi_a k keys => .multi_a k (keys.map g)
  | .wrapA x => .wrapA (Ms.map g gh x)
  | .wrapS x => .wrapS (Ms.map g gh x)
  | .wrapC x => .wrapC (Ms.map g gh x)
  | .wrapD x => .wrapD (Ms.map g gh x)
  | .wrapV x => .wrapV (Ms.map g gh x)
  | .wrapJ x => .wrapJ (Ms.map g gh x)
  | .wrapN x => .wrapN (Ms.map g gh x)
  | .wrapL x => .wrapL (Ms.map g gh x)
  | .wrapU x => .wrapU (Ms.map g gh x)
  | .wrapT x => .wrapT (Ms.map g gh x)

/-- `Ms.map` on each member. -/
def Ms.mapList (g gh : PK → PK) : List Ms → List Ms
  | [] => []
  | m :: ms => Ms.map g gh m :: Ms.mapList g gh ms

end

/-- The first failure of the translation functions over a list of atoms. -/
def firstErrOn {E : Type} (fpk fpkh : PK → Except E PK) : List (Sum PK PK) → Option E
  | [] => none
  | Sum.inl k :: rest =>
    match fpk k with
    | .error e => some e
    | .ok _ => firstErrOn fpk fpkh rest
  | Sum.inr kh :: rest =>
    match fpkh kh with
    | .error e => some e
    | .ok _ => firstErrOn fpk fpkh rest

/-- A failing prefix decides `firstErrOn` of an appended list. -/
theorem firstErrOn_append_some {E : Type} (fpk fpkh : PK → Except E PK) :
    ∀ (xs ys : List (Sum PK PK)) (e : E), firstErrOn fpk fpkh xs = some e →
      firstErrOn fpk fpkh (xs ++ ys) = some e := by
  intro xs
  induction xs with
  | nil =>
    intro ys e h
    simp [firstErrOn] at h
  | cons a rest ih =>
    intro ys e h
    cases a with
    | inl k =>
      cases hk : fpk k with
      | error e1 =>
        rw [List.cons_append]
        simp only [firstErrOn, hk] at h ⊢
        exact h
      | ok q =>
        rw [List.cons_append]
        simp only [firstErrOn, hk] at h ⊢
        exact ih ys e h
    | inr kh =>
      cases hk : fpkh kh with
      | error e1 =>
        rw [List.cons_append]
        simp only [firstErrOn, hk] at h ⊢
        exact h
      | ok q =>
        rw [List.cons_append]
        simp only [firstErrOn, hk] at h ⊢
        exact ih ys e h

/-- A clean prefix passes `firstErrOn` of an appended list through. -/
theorem firstErrOn_append_none {E : Type} (fpk fpkh : PK → Except E PK) :
    ∀ (xs ys : List (Sum PK PK)), firstErrOn fpk fpkh xs = none →
      firstErrOn fpk fpkh (xs ++ ys) = firstErrOn fpk fpkh ys := by
  intro xs
  induction xs with
  | nil =>
    intro ys h
    simp
  | cons a rest ih =>
    intro ys h
    cases a with
    | inl k =>
      cases hk : fpk k with
      | error e1 =>
        simp [firstErrOn, hk] at h
      | ok q =>
        rw [List.cons_append]
        simp only [firstErrOn, hk] at h ⊢
        exact ih ys h
    | inr kh =>
      cases hk : fpkh kh with
      | error e1 =>
        simp [firstErrOn, hk] at h
      | ok q =>
        rw [List.cons_append]
        simp only [firstErrOn, hk] at h ⊢
        exact ih ys h

/-- If the error cases of a computation are exactly the `some`s of an option,
a success forces the option to `none`. -/
theorem err_none_of_iff {E A : Type} {r : Except E A} {o : Option E}
    (hiff : ∀ e : E, r = .error e ↔ o = some e) {a : A} (h : r = .ok a) :
    o = none := by
  cases ho : o with
  | none => rfl
  | some e =>
    rw [(hiff e).mpr ho] at h
    exact absurd h (by simp)

/-- `traverse_pks` fails with `e` exactly when `e` is the first failure of
`fpk` over the keys. -/
theorem traversePks_firstErr {E : Type} (fpk fpkh : PK → Except E PK) :
    ∀ (ks : List PK) (e : E), traversePks fpk ks = .error e
      ↔ firstErrOn fpk fpkh (ks.map Sum.inl) = some e := by
  intro ks
  induction ks with
  | nil =>
    intro e
    simp [traversePks, firstErrOn]
  | cons k rest ih =>
    intro e
    cases hk : fpk k with
    | error e1 =>
      simp [traversePks, firstErrOn, hk]
    | ok q =>
      cases ht : traversePks fpk rest with
      | error e1 =>
        simp [traversePks, firstErrOn, hk, ht, (ih e1).mp ht]
      | ok qs =>
        simp [traversePks, firstErrOn, hk, ht, err_none_of_iff ih ht]

/-- `traverse_pks` with a total function is `List.map`. -/
theorem traversePks_ok_map {E : Type} (g : PK → PK) :
    ∀ ks : List PK, traversePks (fun k => (.ok (g k) : Except E PK)) ks
      = .ok (ks.map g) := by
  intro ks
  induction ks with
  | nil => simp [traversePks]
  | cons k rest ih => simp [traversePks, ih]

/-- `translate_pk` fails with `e` exactly when `e` is the first inner failure
over the fragment's atoms (proved together with the list form, by strong
induction on size). -/
theorem Ms.translate_error_iff_all {E : Type} (fpk fpkh : PK → Except E PK) : ∀ n : Nat,
    (∀ m : Ms, sizeOf m ≤ n → ∀ e : E,
      Ms.translatePk fpk fpkh m = .error e ↔ firstErrOn fpk fpkh (Ms.atoms m) = some e)
    ∧ (∀ ms : List Ms, sizeOf ms ≤ n → ∀ e : E,
      Ms.translateList fpk fpkh ms = .error e
        ↔ firstErrOn fpk fpkh (Ms.atomsList ms) = some e) := by
  intro n
  induction n using Nat.strong_induction_on with
  | _ n ih =>
    constructor
    · intro m hsz e
      cases m with
      | pk_k k =>
        cases hk : fpk k with
        | error e1 => simp [Ms.translatePk, Ms.atoms, firstErrOn, hk]
        | ok q => simp [Ms.translatePk, Ms.atoms, firstErrOn, hk]
      | pk_h kh =>
        cases hk : fpkh kh with
        | error e1 => simp [Ms.translatePk, Ms.atoms, firstErrOn, hk]
        | ok q => simp [Ms.translatePk, Ms.atoms, firstErrOn, hk]
      | older v => simp [Ms.translatePk, Ms.atoms, firstErrOn]
      | after v => simp [Ms.translatePk, Ms.atoms, firstErrOn]
      | sha256 a => simp [Ms.translatePk, Ms.atoms, firstErrOn]
      | hash256 a => simp [Ms.translatePk, Ms.atoms, firstErrOn]
      | ripemd160 a => simp [Ms.translatePk, Ms.atoms, firstErrOn]
      | hash160 a => simp [Ms.translatePk, Ms.atoms, firstErrOn]
      | andor x y z =>
        have hsm : sizeOf (Ms.andor x y z) = 1 + sizeOf x + sizeOf y + sizeOf z := by simp
        have IHx := (ih (sizeOf x) (by omega)).1 x (le_refl _)
        have IHy := (ih (sizeOf y) (by omega)).1 y (le_refl _)
        have IHz := (ih (sizeOf z) (by omega)).1 z (le_refl _)
        rw [show Ms.atoms (Ms.andor x y z)
          = Ms.atoms x ++ (Ms.atoms y ++ Ms.atoms z) from by simp [Ms.atoms]]
        cases htx : Ms.translatePk fpk fpkh x with
        | error e1 =>
          rw [firstErrOn_append_some fpk fpkh _ _ e1 ((IHx e1).mp htx)]
          simp [Ms.translatePk, htx]
        | ok x2 =>
          rw [firstErrOn_append_none fpk fpkh _ _ (err_none_of_iff IHx htx)]
          cases hty : Ms.translatePk fpk fpkh y with
          | error e1 =>
            rw [firstErrOn_append_some fpk fpkh _ _ e1 ((IHy e1).mp hty)]
            simp [Ms.translatePk, htx, hty]
          | ok y2 =>
            rw [firstErrOn_append_none fpk fpkh _ _ (err_none_of_iff IHy hty)]
            cases htz : Ms.translatePk fpk fpkh z with
            | error e1 =>
              rw [(IHz e1).mp htz]
              simp [Ms.translatePk, htx, hty, htz]
            | ok z2 =>
              rw [err_none_of_iff IHz htz]
              simp [Ms.translatePk, htx, hty, htz]
      | and_v x y =>
        have hsm : sizeOf (Ms.and_v x y) = 1 + sizeOf x + sizeOf y := by simp
        have IHx := (ih (sizeOf x) (by omega)).1 x (le_refl _)
        have IHy := (ih (sizeOf y) (by omega)).1 y (le_refl _)
        rw [show Ms.atoms (Ms.and_v x y) = Ms.atoms x ++ Ms.atoms y from by simp [Ms.atoms]]
        cases htx : Ms.translatePk fpk fpkh x with
        | error e1 =>
          rw [firstErrOn_append_some fpk fpkh _ _ e1 ((IHx e1).mp htx)]
          simp [Ms.translatePk, htx]
        | ok x2 =>
          rw [firstErrOn_append_none fpk fpkh _ _ (err_none_of_iff IHx htx)]
          cases hty : Ms.translatePk fpk fpkh y with
          | error e1 =>
            rw [(IHy e1).mp hty]
            simp [Ms.translatePk, htx, hty]
          | ok y2 =>
            rw [err_none_of_iff IHy hty]
            simp [Ms.translatePk, htx, hty]
      | and_b x y =>
        have hsm : sizeOf (Ms.and_b x y) = 1 + sizeOf x + sizeOf y := by simp
        have IHx := (ih (sizeOf x) (by omega)).1 x (le_refl _)
        have IHy := (ih (sizeOf y) (by omega)).1 y (le_refl _)
        rw [show Ms.atoms (Ms.and_b x y) = Ms.atoms x ++ Ms.atoms y from by simp [Ms.atoms]]
        cases htx : Ms.translatePk fpk fpkh x with
        | error e1 =>
          rw [firstErrOn_append_some fpk fpkh _ _ e1 ((IHx e1).mp htx)]
          simp [Ms.translatePk, htx]
        | ok x2 =>
          rw [firstErrOn_append_none fpk fpkh _ _ (err_none_of_iff IHx htx)]
          cases hty : Ms.translatePk fpk fpkh y with
          | error e1 =>
            rw [(IHy e1).mp hty]
            simp [Ms.translatePk, htx, hty]
          | ok y2 =>
            rw [err_none_of_iff IHy hty]
            simp [Ms.translatePk, htx, hty]
      | or_b x y =>
        have hsm : sizeOf (Ms.or_b x y) = 1 + sizeOf x + sizeOf y := by simp
        have IHx := (ih (sizeOf x) (by omega)).1 x (le_refl _)
        have IHy := (ih (sizeOf y) (by omega)).1 y (le_refl _)
        rw [show Ms.atoms (Ms.or_b x y) = Ms.atoms x ++ Ms.atoms y from by simp [Ms.atoms]]
        cases htx : Ms.translatePk fpk fpkh x with
        | error e1 =>
          rw [firstErrOn_append_some fpk fpkh _ _ e1 ((IHx e1).mp htx)]
          simp [Ms.translatePk, htx]
        | ok x2 =>
          rw [firstErrOn_append_none fpk fpkh _ _ (err_none_of_iff IHx htx)]
          cases hty : Ms.translatePk fpk fpkh y with
          | error e1 =>
            rw [(IHy e1).mp hty]
            simp [Ms.translatePk, htx, hty]
          | ok y2 =>
            rw [err_none_of_iff IHy hty]
            simp [Ms.translatePk, htx, hty]
      | or_c x y =>
        have hsm : sizeOf (Ms.or_c x y) = 1 + sizeOf x + sizeOf y := by simp
        have IHx := (ih (sizeOf x) (by omega)).1 x (le_refl _)
        have IHy := (ih (sizeOf y) (by omega)).1 y (le_refl _)
        rw [show Ms.atoms (Ms.or_c x y) = Ms.atoms x ++ Ms.atoms y from by simp [Ms.atoms]]
        cases htx : Ms.translatePk fpk fpkh x with
        | error e1 =>
          rw [firstErrOn_append_some fpk fpkh _ _ e1 ((IHx e1).mp htx)]
          simp [Ms.translatePk, htx]
        | ok x2 =>
          rw [firstErrOn_append_none fpk fpkh _ _ (err_none_of_iff IHx htx)]
          cases hty : Ms.translatePk fpk fpkh y with
          | error e1 =>
            rw [(IHy e1).mp hty]
            simp [Ms.translatePk, htx, hty]
          | ok y2 =>
            rw [err_none_of_iff IHy hty]
            simp [Ms.translatePk, htx, hty]
      | or_d x y =>
        have hsm : sizeOf (Ms.or_d x y) = 1 + sizeOf x + sizeOf y := by simp
        have IHx := (ih (sizeOf x) (by omega)).1 x (le_refl _)
        have IHy := (ih (sizeOf y) (by omega)).1 y (le_refl _)
        rw [show Ms.atoms (Ms.or_d x y) = Ms.atoms x ++ Ms.atoms y from by simp [Ms.atoms]]
        cases htx : Ms.translatePk fpk fpkh x with
        | error e1 =>
          rw [firstErrOn_append_some fpk fpkh _ _ e1 ((IHx e1).mp htx)]
          simp [Ms.translatePk, htx]
        | ok x2 =>
          rw [firstErrOn_append_none fpk fpkh _ _ (err_none_of_iff IHx htx)]
          cases hty : Ms.translatePk fpk fpkh y with
          | error e1 =>
            rw [(IHy e1).mp hty]
            simp [Ms.translatePk, htx, hty]
          | ok y2 =>
            rw [err_none_of_iff IHy hty]
            simp [Ms.translatePk, htx, hty]
      | or_i x y =>
        have hsm : sizeOf (Ms.or_i x y) = 1 + sizeOf x + sizeOf y := by simp
        have IHx := (ih (sizeOf x) (by omega)).1 x (le_refl _)
        have IHy := (ih (sizeOf y) (by omega)).1 y (le_refl _)
        rw [show Ms.atoms (Ms.or_i x y) = Ms.atoms x ++ Ms.atoms y from by simp [Ms.atoms]]
        cases htx : Ms.translatePk fpk fpkh x with
        | error e1 =>
          rw [firstErrOn_append_some fpk fpkh _ _ e1 ((IHx e1).mp htx)]
          simp [Ms.translatePk, htx]
        | ok x2 =>
          rw [firstErrOn_append_none fpk fpkh _ _ (err_none_of_iff IHx htx)]
          cases hty : Ms.translatePk fpk fpkh y with
          | error e1 =>
            rw [(IHy e1).mp hty]
            simp [Ms.translatePk, htx, hty]
          | ok y2 =>
            rw [err_none_of_iff IHy hty]
            simp [Ms.translatePk, htx, hty]
      | thresh k subs =>
        have hsm : sizeOf (Ms.thresh k subs) = 1 + sizeOf k + sizeOf subs := by simp
        have IHs := (ih (sizeOf subs) (by omega)).2 subs (le_refl _)
        rw [show Ms.atoms (Ms.thresh k subs) = Ms.atomsList subs from by simp [Ms.atoms]]
        cases hts : Ms.translateList fpk fpkh subs with
        | error e1 =>
          rw [(IHs e1).mp hts]
          simp [Ms.translatePk, hts]
        | ok subs2 =>
          rw [err_none_of_iff IHs hts]
          simp [Ms.translatePk, hts]
      | multi k keys =>
        rw [show Ms.atoms (Ms.multi k keys) = keys.map Sum.inl from by simp [Ms.atoms]]
        cases ht : traversePks fpk keys with
        | error e1 =>
          rw [(traversePks_firstErr fpk fpkh keys e1).mp ht]
          simp [Ms.translatePk, ht]
        | ok qs =>
          rw [err_none_of_iff (traversePks_firstErr fpk fpkh keys) ht]
          simp [Ms.translatePk, ht]
      | multi_a k keys =>
        rw [show Ms.atoms (Ms.multi_a k keys) = keys.map Sum.inl from by simp [Ms.atoms]]
        cases ht : traversePks fpk keys with
        | error e1 =>
          rw [(traversePks_firstErr fpk fpkh keys e1).mp ht]
          simp [Ms.translatePk, ht]
        | ok qs =>
          rw [err_none_of_iff (traversePks_firstErr fpk fpkh keys) ht]
          simp [Ms.translatePk, ht]
      | wrapA x =>
        have hsm : sizeOf (Ms.wrapA x) = 1 + sizeOf x := by simp
        have IHx := (ih (sizeOf x) (by omega)).1 x (le_refl _)
        rw [show Ms.atoms (Ms.wrapA x) = Ms.atoms x from by simp [Ms.atoms]]
        cases htx : Ms.translatePk fpk fpkh x with
        | error e1 =>
          rw [(IHx e1).mp htx]
          simp [Ms.translatePk, htx]
        | ok x2 =>
          rw [err_none_of_iff IHx htx]
          simp [Ms.translatePk, htx]
      | wrapS x =>
        have hsm : sizeOf (Ms.wrapS x) = 1 + sizeOf x := by simp
        have IHx := (ih (sizeOf x) (by omega)).1 x (le_refl _)
        rw [show Ms.atoms (Ms.wrapS x) = Ms.atoms x from by simp [Ms.atoms]]
        cases htx : Ms.translatePk fpk fpkh x with
        | error e1 =>
          rw [(IHx e1).mp htx]
          simp [Ms.translatePk, htx]
        | ok x2 =>
          rw [err_none_of_iff IHx htx]
          simp [Ms.translatePk, htx]
      | wrapC x =>
        have hsm : sizeOf (Ms.wrapC x) = 1 + sizeOf x := by simp
        have IHx := (ih (sizeOf x) (by omega)).1 x (le_refl _)
        rw [show Ms.atoms (Ms.wrapC x) = Ms.atoms x from by simp [Ms.atoms]]
        cases htx : Ms.translatePk fpk fpkh x with
        | error e1 =>
          rw [(IHx e1).mp htx]
          simp [Ms.translatePk, htx]
        | ok x2 =>
          rw [err_none_of_iff IHx htx]
          simp [Ms.translatePk, htx]
      | wrapD x =>
        have hsm : sizeOf (Ms.wrapD x) = 1 + sizeOf x := by simp
        have IHx := (ih (sizeOf x) (by omega)).1 x (le_refl _)
        rw [show Ms.atoms (Ms.wrapD x) = Ms.atoms x from by simp [Ms.atoms]]
        cases htx : Ms.translatePk fpk fpkh x with
        | error e1 =>
          rw [(IHx e1).mp htx]
          simp [Ms.translatePk, htx]
        | ok x2 =>
          rw [err_none_of_iff IHx htx]
          simp [Ms.translatePk, htx]
      | wrapV x =>
        have hsm : sizeOf (Ms.wrapV x) = 1 + sizeOf x := by simp
        have IHx := (ih (sizeOf x) (by omega)).1 x (le_refl _)
        rw [show Ms.atoms (Ms.wrapV x) = Ms.atoms x from by simp [Ms.atoms]]
        cases htx : Ms.translatePk fpk fpkh x with
        | error e1 =>
          rw [(IHx e1).mp htx]
          simp [Ms.translatePk, htx]
        | ok x2 =>
          rw [err_none_of_iff IHx htx]
          simp [Ms.translatePk, htx]
      | wrapJ x =>
        have hsm : sizeOf (Ms.wrapJ x) = 1 + sizeOf x := by simp
        have IHx := (ih (sizeOf x) (by omega)).1 x (le_refl _)
        rw [show Ms.atoms (Ms.wrapJ x) = Ms.atoms x from by simp [Ms.atoms]]
        cases htx : Ms.translatePk fpk fpkh x with
        | error e1 =>
          rw [(IHx e1).mp htx]
          simp [Ms.translatePk, htx]
        | ok x2 =>
          rw [err_none_of_iff IHx htx]
          simp [Ms.translatePk, htx]
      | wrapN x =>
        have hsm : sizeOf (Ms.wrapN x) = 1 + sizeOf x := by simp
        have IHx := (ih (sizeOf x) (by omega)).1 x (le_refl _)
        rw [show Ms.atoms (Ms.wrapN x) = Ms.atoms x from by simp [Ms.atoms]]
        cases htx : Ms.translatePk fpk fpkh x with
        | error e1 =>
          rw [(IHx e1).mp htx]
          simp [Ms.translatePk, htx]
        | ok x2 =>
          rw [err_none_of_iff IHx htx]
          simp [Ms.translatePk, htx]
      | wrapL x =>
        have hsm : sizeOf (Ms.wrapL x) = 1 + sizeOf x := by simp
        have IHx := (ih (sizeOf x) (by omega)).1 x (le_refl _)
        rw [show Ms.atoms (Ms.wrapL x) = Ms.atoms x from by simp [Ms.atoms]]
        cases htx : Ms.translatePk fpk fpkh x with
        | error e1 =>
          rw [(IHx e1).mp htx]
          simp [Ms.translatePk, htx]
        | ok x2 =>
          rw [err_none_of_iff IHx htx]
          simp [Ms.translatePk, htx]
      | wrapU x =>
        have hsm : sizeOf (Ms.wrapU x) = 1 + sizeOf x := by simp
        have IHx := (ih (sizeOf x) (by omega)).1 x (le_refl _)
        rw [show Ms.atoms (Ms.wrapU x) = Ms.atoms x from by simp [Ms.atoms]]
        cases htx : Ms.translatePk fpk fpkh x with
        | error e1 =>
          rw [(IHx e1).mp htx]
          simp [Ms.translatePk, htx]
        | ok x2 =>
          rw [err_none_of_iff IHx htx]
          simp [Ms.translatePk, htx]
      | wrapT x =>
        have hsm : sizeOf (Ms.wrapT x) = 1 + sizeOf x := by simp
        have IHx := (ih (sizeOf x) (by omega)).1 x (le_refl _)
        rw [show Ms.atoms (Ms.wrapT x) = Ms.atoms x from by simp [Ms.atoms]]
        cases htx : Ms.translatePk fpk fpkh x with
        | error e1 =>
          rw [(IHx e1).mp htx]
          simp [Ms.translatePk, htx]
        | ok x2 =>
          rw [err_none_of_iff IHx htx]
          simp [Ms.translatePk, htx]
    · intro ms hms e
      cases ms with
      | nil => simp [Ms.translateList, Ms.atomsList, firstErrOn]
      | cons m rest =>
        have hsm : sizeOf (m :: rest) = 1 + sizeOf m + sizeOf rest := by simp
        have IHm := (ih (sizeOf m) (by omega)).1 m (le_refl _)
        have IHr := (ih (sizeOf rest) (by omega)).2 rest (le_refl _)
        rw [show Ms.atomsList (m :: rest)
          = Ms.atoms m ++ Ms.atomsList rest from by simp [Ms.atomsList]]
        cases htm : Ms.translatePk fpk fpkh m with
        | error e1 =>
          rw [firstErrOn_append_some fpk fpkh _ _ e1 ((IHm e1).mp htm)]
          simp [Ms.translateList, htm]
        | ok m2 =>
          rw [firstErrOn_append_none fpk fpkh _ _ (err_none_of_iff IHm htm)]
          cases htr : Ms.translateList fpk fpkh rest with
          | error e1 =>
            rw [(IHr e1).mp htr]
            simp [Ms.translateList, htm, htr]
          | ok rest2 =>
            rw [err_none_of_iff IHr htr]
            simp [Ms.translateList, htm, htr]

/-- `translate_pk` with total translation functions succeeds with the
structure-preserving map (with the list form, by strong induction on size). -/
theorem Ms.translate_total_all {E : Type} (g gh : PK → PK) : ∀ n : Nat,
    (∀ m : Ms, sizeOf m ≤ n →
      Ms.translatePk (fun k => (.ok (g k) : Except E PK)) (fun k => .ok (gh k)) m
        = .ok (Ms.map g gh m))
    ∧ (∀ ms : List Ms, sizeOf ms ≤ n →
      Ms.translateList (fun k => (.ok (g k) : Except E PK)) (fun k => .ok (gh k)) ms
        = .ok (Ms.mapList g gh ms)) := by
  intro n
  induction n using Nat.strong_induction_on with
  | _ n ih =>
    constructor
    · intro m hsz
      cases m with
      | pk_k k => simp [Ms.translatePk, Ms.map]
      | pk_h kh => simp [Ms.translatePk, Ms.map]
      | older v => simp [Ms.translatePk, Ms.map]
      | after v => simp [Ms.translatePk, Ms.map]
      | sha256 a => simp [Ms.translatePk, Ms.map]
      | hash256 a => simp [Ms.translatePk, Ms.map]
      | ripemd160 a => simp [Ms.translatePk, Ms.map]
      | hash160 a => simp [Ms.translatePk, Ms.map]
      | andor x y z =>
        have hsm : sizeOf (Ms.andor x y z) = 1 + sizeOf x + sizeOf y + sizeOf z := by simp
        have IHx := (ih (sizeOf x) (by omega)).1 x (le_refl _)
        have IHy := (ih (sizeOf y) (by omega)).1 y (le_refl _)
        have IHz := (ih (sizeOf z) (by omega)).1 z (le_refl _)
        simp [Ms.translatePk, Ms.map, IHx, IHy, IHz]
      | and_v x y =>
        have hsm : sizeOf (Ms.and_v x y) = 1 + sizeOf x + sizeOf y := by simp
        have IHx := (ih (sizeOf x) (by omega)).1 x (le_refl _)
        have IHy := (ih (sizeOf y) (by omega)).1 y (le_refl _)
        simp [Ms.translatePk, Ms.map, IHx, IHy]
      | and_b x y =>
        have hsm : sizeOf (Ms.and_b x y) = 1 + sizeOf x + sizeOf y := by simp
        have IHx := (ih (sizeOf x) (by omega)).1 x (le_refl _)
        have IHy := (ih (sizeOf y) (by omega)).1 y (le_refl _)
        simp [Ms.translatePk, Ms.map, IHx, IHy]
      | or_b x y =>
        have hsm : sizeOf (Ms.or_b x y) = 1 + sizeOf x + sizeOf y := by simp
        have IHx := (ih (sizeOf x) (by omega)).1 x (le_refl _)
        have IHy := (ih (sizeOf y) (by omega)).1 y (le_refl _)
        simp [Ms.translatePk, Ms.map, IHx, IHy]
      | or_c x y =>
        have hsm : sizeOf (Ms.or_c x y) = 1 + sizeOf x + sizeOf y := by simp
        have IHx := (ih (sizeOf x) (by omega)).1 x (le_refl _)
        have IHy := (ih (sizeOf y) (by omega)).1 y (le_refl _)
        simp [Ms.translatePk, Ms.map, IHx, IHy]
      | or_d x y =>
        have hsm : sizeOf (Ms.or_d x y) = 1 + sizeOf x + sizeOf y := by simp
        have IHx := (ih (sizeOf x) (by omega)).1 x (le_refl _)
        have IHy := (ih (sizeOf y) (by omega)).1 y (le_refl _)
        simp [Ms.translatePk, Ms.map, IHx, IHy]
      | or_i x y =>
        have hsm : sizeOf (Ms.or_i x y) = 1 + sizeOf x + sizeOf y := by simp
        have IHx := (ih (sizeOf x) (by omega)).1 x (le_refl _)
        have IHy := (ih (sizeOf y) (by omega)).1 y (le_refl _)
        simp [Ms.translatePk, Ms.map, IHx, IHy]
      | thresh k subs =>
        have hsm : sizeOf (Ms.thresh k subs) = 1 + sizeOf k + sizeOf subs := by simp
        have IHs := (ih (sizeOf subs) (by omega)).2 subs (le_refl _)
        simp [Ms.translatePk, Ms.map, IHs]
      | multi k keys => simp [Ms.translatePk, Ms.map, traversePks_ok_map]
      | multi_a k keys => simp [Ms.translatePk, Ms.map, traversePks_ok_map]
      | wrapA x =>
        have hsm : sizeOf (Ms.wrapA x) = 1 + sizeOf x := by simp
        have IHx := (ih (sizeOf x) (by omega)).1 x (le_refl _)
        simp [Ms.translatePk, Ms.map, IHx]
      | wrapS x =>
        have hsm : sizeOf (Ms.wrapS x) = 1 + sizeOf x := by simp
        have IHx := (ih (sizeOf x) (by omega)).1 x (le_refl _)
        simp [Ms.translatePk, Ms.map, IHx]
      | wrapC x =>
        have hsm : sizeOf (Ms.wrapC x) = 1 + sizeOf x := by simp
        have IHx := (ih (sizeOf x) (by omega)).1 x (le_refl _)
        simp [Ms.translatePk, Ms.map, IHx]
      | wrapD x =>
        have hsm : sizeOf (Ms.wrapD x) = 1 + sizeOf x := by simp
        have IHx := (ih (sizeOf x) (by omega)).1 x (le_refl _)
        simp [Ms.translatePk, Ms.map, IHx]
      | wrapV x =>
        have hsm : sizeOf (Ms.wrapV x) = 1 + sizeOf x := by simp
        have IHx := (ih (sizeOf x) (by omega)).1 x (le_refl _)
        simp [Ms.translatePk, Ms.map, IHx]
      | wrapJ x =>
        have hsm : sizeOf (Ms.wrapJ x) = 1 + sizeOf x := by simp
        have IHx := (ih (sizeOf x) (by omega)).1 x (le_refl _)
        simp [Ms.translatePk, Ms.map, IHx]
      | wrapN x =>
        have hsm : sizeOf (Ms.wrapN x) = 1 + sizeOf x := by simp
        have IHx := (ih (sizeOf x) (by omega)).1 x (le_refl _)
        simp [Ms.translatePk, Ms.map, IHx]
      | wrapL x =>
        have hsm : sizeOf (Ms.wrapL x) = 1 + sizeOf x := by simp
        have IHx := (ih (sizeOf x) (by omega)).1 x (le_refl _)
        simp [Ms.translatePk, Ms.map, IHx]
      | wrapU x =>
        have hsm : sizeOf (Ms.wrapU x) = 1 + sizeOf x := by simp
        have IHx := (ih (sizeOf x) (by omega)).1 x (le_refl _)
        simp [Ms.translatePk, Ms.map, IHx]
      | wrapT x =>
        have hsm : sizeOf (Ms.wrapT x) = 1 + sizeOf x := by simp
        have IHx := (ih (sizeOf x) (by omega)).1 x (le_refl _)
        simp [Ms.translatePk, Ms.map, IHx]
    · intro ms hms
      cases ms with
      | nil => simp [Ms.translateList, Ms.mapList]
      | cons m rest =>
        have hsm : sizeOf (m :: rest) = 1 + sizeOf m + sizeOf rest := by simp
        have IHm := (ih (sizeOf m) (by omega)).1 m (le_refl _)
        have IHr := (ih (sizeOf rest) (by omega)).2 rest (le_refl _)
        simp [Ms.translateList, Ms.mapList, IHm, IHr]

/-- `Ms.translate_error_iff_all` at the fragment's own size. -/
theorem Ms.translate_error_iff {E : Type} (fpk fpkh : PK → Except E PK) (m : Ms) (e : E) :
    Ms.translatePk fpk fpkh m = .error e ↔ firstErrOn fpk fpkh (Ms.atoms m) = some e :=
  (Ms.translate_error_iff_all fpk fpkh (sizeOf m)).1 m (le_refl _) e

/-- `Ms.translate_total_all` at the fragment's own size. -/
theorem Ms.translate_total {E : Type} (g gh : PK → PK) (m : Ms) :
    Ms.translatePk (fun k => (.ok (g k) : Except E PK)) (fun k => .ok (gh k)) m
      = .ok (Ms.map g gh m) :=
  (Ms.translate_total_all g gh (sizeOf m)).1 m (le_refl _)

/-- The atoms of a `wsh` descriptor: its sorted-multi keys, or the inner
fragment's atoms. -/
def Wsh.atoms (D : Wsh) : List (Sum PK PK) :=
  match D.inner with
  | .sortedMulti smv => smv.pks.map Sum.inl
  | .ms m => Ms.atoms m

/-- Structure-preserving key replacement on a `wsh` descriptor. -/
def Wsh.mapPk (g gh : PK → PK) (D : Wsh) : Wsh :=
  match D.inner with
  | .sortedMulti smv => ⟨.sortedMulti ⟨smv.k, smv.pks.map g⟩⟩
  | .ms m => ⟨.ms (Ms.map g gh m)⟩


/-- C4: for every well-typed `wsh` or `wpkh` descriptor built through the
checked constructors whose atoms are valid, the rendered string form (with
the `el` prefix and the 8-character checksum tail) reparses with `from_str`
to an equal descriptor, and the rendered form ends in a checksum that
`verify_checksum` accepts. -/
theorem parse_render_roundtrip :
    (∀ (checks : Ms → Except Error Unit) (m : Ms) (D : Wsh),
      Wsh.new checks m = .ok D → Ms.valid m →
      ∃ s body ck, Wsh.display D = some s ∧ s = body ++ '#' :: ck
        ∧ verifyChecksum s = .ok body ∧ Wsh.fromStr checks s = .ok D)
    ∧ (∀ (checks : Ms → Except Error Unit) (k : Nat) (pks : List PK) (D : Wsh),
      Wsh.newSortedMulti k pks = .ok D → (∀ pk ∈ pks, validAtom pk = true) →
      ∃ s body ck, Wsh.display D = some s ∧ s = body ++ '#' :: ck
        ∧ verifyChecksum s = .ok body ∧ Wsh.fromStr checks s = .ok D)
    ∧ (∀ (pk : PK) (D : Wpkh),
      Wpkh.new pk = .ok D → validAtom pk = true →
      ∃ s body ck, Wpkh.display D = some s ∧ s = body ++ '#' :: ck
        ∧ verifyChecksum s = .ok body ∧ Wpkh.fromStr s = .ok D) :=
  ⟨Wsh.roundtrip_ms, Wsh.roundtrip_sortedmulti, Wpkh.roundtrip⟩

/-- C4 (witness): the `wpkh("ab")` descriptor rendered and reparsed. -/
theorem parse_render_roundtrip_witness :
    ∃ s body ck, Wpkh.display ⟨"ab".toList⟩ = some s ∧ s = body ++ '#' :: ck
      ∧ verifyChecksum s = .ok body ∧ Wpkh.fromStr s = .ok ⟨"ab".toList⟩ :=
  parse_render_roundtrip.2.2 "ab".toList ⟨"ab".toList⟩ rfl (by decide)

/-- C7: a string whose trailing checksum does not match the checksum of its
body is rejected by `from_str` with `BadChecksum`, before any tree parsing
(the result does not depend on the body parsing at all). -/
theorem bad_checksum_rejected :
    ∀ (body tail ck : List Char) (checks : Ms → Except Error Unit),
      '#' ∉ body → descChecksum body = .ok ck → tail ≠ ck →
      Wsh.fromStr checks (body ++ '#' :: tail) = .error .badChecksum
        ∧ Wpkh.fromStr (body ++ '#' :: tail) = .error .badChecksum := by
  intro body tail ck checks h1 h2 h3
  have hv := verifyChecksum_mismatch body ck tail h1 h2 h3
  constructor
  · unfold Wsh.fromStr
    rw [hv]
  · unfold Wpkh.fromStr
    rw [hv]

/-- C7 (witness): the valid body `elwpkh(ab)` with a corrupted checksum. -/
theorem bad_checksum_rejected_witness :
    Wsh.fromStr trivChecks ("elwpkh(ab)".toList ++ '#' :: "qqqqqqqq".toList)
        = .error .badChecksum
      ∧ Wpkh.fromStr ("elwpkh(ab)".toList ++ '#' :: "qqqqqqqq".toList)
        = .error .badChecksum :=
  bad_checksum_rejected "elwpkh(ab)".toList "qqqqqqqq".toList "w3edgruq".toList trivChecks
    (by decide) rfl (by decide)

/-- C5: key translation on `wsh` and `wpkh`.  With total translation
functions, `translate_pk` on a `wsh` succeeds with the structure-preserving
map of `g` over keys and `gh` over key hashes; when it fails, its error is
exactly the first inner failure over the descriptor's atoms in left-to-right
order.  On a `wpkh`, an inner failure is propagated, and an `Ok` translation
to a compressed key rebuilds the descriptor — but the operation is not total:
a translation returning an uncompressed key hits the
`expect("Uncompressed keys in Wpkh")` panic (modelled as `none`). -/
theorem translate_pk_spec :
    (∀ (E : Type) (g gh : PK → PK) (D : Wsh),
      Wsh.translatePk (fun k => (.ok (g k) : Except E PK)) (fun k => .ok (gh k)) D
        = .ok (Wsh.mapPk g gh D))
    ∧ (∀ (E : Type) (fpk fpkh : PK → Except E PK) (D : Wsh) (e : E),
      Wsh.translatePk fpk fpkh D = .error e
        ↔ firstErrOn fpk fpkh (Wsh.atoms D) = some e)
    ∧ (∀ (E : Type) (fpk : PK → Except E PK) (D : Wpkh) (e : E),
      fpk D.pk = .error e → Wpkh.translatePk fpk D = some (.error e))
    ∧ (∀ (E : Type) (fpk : PK → Except E PK) (D : Wpkh) (q : PK),
      fpk D.pk = .ok q → pkIsUncompressed q = false →
        Wpkh.translatePk fpk D = some (.ok ⟨q⟩))
    ∧ (∀ (E : Type) (fpk : PK → Except E PK) (D : Wpkh) (q : PK),
      fpk D.pk = .ok q → pkIsUncompressed q = true →
        Wpkh.translatePk fpk D = none) := by
  refine ⟨?_, ?_, ?_, ?_, ?_⟩
  · intro E g gh D
    obtain ⟨inner⟩ := D
    cases inner with
    | sortedMulti smv =>
      simp [Wsh.translatePk, Wsh.mapPk, SortedMultiVec.translatePk, traversePks_ok_map]
    | ms m =>
      simp [Wsh.translatePk, Wsh.mapPk, Ms.translate_total]
  · intro E fpk fpkh D e
    obtain ⟨inner⟩ := D
    cases inner with
    | sortedMulti smv =>
      rw [show Wsh.atoms ⟨.sortedMulti smv⟩ = smv.pks.map Sum.inl from rfl]
      cases ht : traversePks fpk smv.pks with
      | error e1 =>
        rw [(traversePks_firstErr fpk fpkh smv.pks e1).mp ht]
        simp [Wsh.translatePk, SortedMultiVec.translatePk, ht]
      | ok qs =>
        rw [err_none_of_iff (traversePks_firstErr fpk fpkh smv.pks) ht]
        simp [Wsh.translatePk, SortedMultiVec.translatePk, ht]
    | ms m =>
      rw [show Wsh.atoms ⟨.ms m⟩ = Ms.atoms m from rfl]
      cases htm : Ms.translatePk fpk fpkh m with
      | error e1 =>
        rw [(Ms.translate_error_iff fpk fpkh m e1).mp htm]
        simp [Wsh.translatePk, htm]
      | ok m2 =>
        rw [err_none_of_iff (Ms.translate_error_iff fpk fpkh m) htm]
        simp [Wsh.translatePk, htm]
  · intro E fpk D e he
    simp [Wpkh.translatePk, he]
  · intro E fpk D q hq hc
    simp [Wpkh.translatePk, hq, Wpkh.new, hc]
  · intro E fpk D q hq hc
    simp [Wpkh.translatePk, hq, Wpkh.new, hc]

/-- C5 (counterexample to totality): a translation that returns an
uncompressed key drives `Wpkh::translate_pk` into the
`expect("Uncompressed keys in Wpkh")` panic, modelled as `none` — neither
`Ok` nor `Err`. -/
theorem wpkh_translate_pk_not_total :
    Wpkh.translatePk (fun _ => (.ok (List.replicate 130 'a') : Except Unit PK))
      ⟨"ab".toList⟩ = none := rfl

end ElementsMiniscript
